import Mathlib

/-!
# FastBitset64

A shallow embedding of `content/data-structures/FastBitset.h`: the template
`FastBitset64<N>` becomes a family of functions that take the capacity `N`
explicitly and pass the word array `a` (a `List Nat`, one entry per `u64`)
as explicit state.  Unsigned 64-bit arithmetic is arithmetic on `Nat` with an
explicit reduction modulo `2 ^ 64` wherever the C++ expression can leave the
word range.  The embedding follows the source for capacities with
`N + 63 < 2 ^ 64`, where the constant `WORDS` is computed without wrap-around.
-/

namespace FastBitset64

/-! ## Constants -/

/-- Constant `static constexpr size_t POW_2 = 6`. -/
def POW_2 : Nat := 6

/-- Constant `static constexpr size_t WORD_SIZE = u64(1) << POW_2`. -/
def WORD_SIZE : Nat := 1 <<< POW_2

/-- Constant `static constexpr u64 FULL_MASK = WORD_SIZE - 1`. -/
def FULL_MASK : Nat := WORD_SIZE - 1

/-- Constant `static constexpr size_t WORDS = (N + WORD_SIZE - 1) / WORD_SIZE`. -/
def WORDS (N : Nat) : Nat := (N + WORD_SIZE - 1) / WORD_SIZE

/-- The value `~u64(0)`. -/
def ALL_ONES : Nat := 2 ^ 64 - 1

/-- Bitwise complement `~x` of a `u64`. -/
def not64 (x : Nat) : Nat := ALL_ONES ^^^ x

/-- Left shift `x << b` of a `u64`, truncated to 64 bits. -/
def shl64 (x b : Nat) : Nat := (x <<< b) % 2 ^ 64

/-- Constant `LAST_MASK = (N % WORD_SIZE == 0 ? ~u64(0) : ((u64(1) << (N % WORD_SIZE)) - 1))`. -/
def LAST_MASK (N : Nat) : Nat :=
  if N % WORD_SIZE = 0 then ALL_ONES else shl64 1 (N % WORD_SIZE) - 1

/-! ## Compiler builtins

The three builtins are not part of the repository; they are given by their
documented meaning on a non-zero 64-bit argument. -/

/-- Trailing zero count, scanning at most `fuel` bits from bit 0 upwards. -/
def ctzAux : Nat → Nat → Nat
  | 0, _ => 0
  | fuel + 1, x => if x % 2 = 1 then 0 else 1 + ctzAux fuel (x / 2)

/-- The builtin `__builtin_ctzll`: the number of trailing zero bits
of a 64-bit word. -/
def ctz (x : Nat) : Nat := ctzAux 64 x

/-- Number of significant bits among the low `fuel` bits. -/
def bitLenAux : Nat → Nat → Nat
  | 0, _ => 0
  | fuel + 1, x => if x = 0 then 0 else 1 + bitLenAux fuel (x / 2)

/-- The builtin `__builtin_clzll`: the number of leading zero bits
of a 64-bit word. -/
def clz (x : Nat) : Nat := 64 - bitLenAux 64 x

/-- Number of one bits among the low `fuel` bits. -/
def popAux : Nat → Nat → Nat
  | 0, _ => 0
  | fuel + 1, x => x % 2 + popAux fuel (x / 2)

/-- The builtin `__builtin_popcountll`: the population count of a
64-bit word. -/
def pop (x : Nat) : Nat := popAux 64 x

/-! ## Loops over the word array -/

/-- The loop `for (size_t i = 0; i < n; i++) body(i)` on the state `a`. -/
def forUp (n : Nat) (body : Nat → List Nat → List Nat) (a : List Nat) : List Nat :=
  (List.range n).foldl (fun s i => body i s) a

/-- The loop `for (size_t i = n; i --> 0;) body(i)` on the state `a`. -/
def forDown : Nat → (Nat → List Nat → List Nat) → List Nat → List Nat
  | 0, _, a => a
  | n + 1, body, a => forDown n body (body n a)

/-- The call `a.fill(v)`. -/
def fill (a : List Nat) (v : Nat) : List Nat := List.replicate a.length v

/-! ## State and mutating operations -/

/-- The value-initialised member `array<u64, WORDS> a{}`. -/
def init (N : Nat) : List Nat := List.replicate (WORDS N) 0

/-- Method `fix_last`: `if constexpr (N % WORD_SIZE) a[WORDS - 1] &= LAST_MASK`. -/
def fix_last (N : Nat) (a : List Nat) : List Nat :=
  if N % WORD_SIZE ≠ 0 then
    a.set (WORDS N - 1) (a.getD (WORDS N - 1) 0 &&& LAST_MASK N)
  else a

/-- Method `reset()`: `a.fill(0)`. -/
def reset (a : List Nat) : List Nat := fill a 0

/-- Method `set()` without arguments: `a.fill(~u64(0)); fix_last();`. -/
def set_all (N : Nat) (a : List Nat) : List Nat := fix_last N (fill a ALL_ONES)

/-- Method `set(i, v)`; `none` is the failed `assert(i < N)`. -/
def set (N : Nat) (a : List Nat) (i : Nat) (v : Bool) : Option (List Nat) :=
  if i < N then
    let w := i >>> POW_2
    let b := i &&& FULL_MASK
    let m := shl64 1 b
    if v then some (a.set w (a.getD w 0 ||| m))
    else some (a.set w (a.getD w 0 &&& not64 m))
  else none

/-- Method `test(i)`; `none` is the failed `assert(i < N)`. -/
def test (N : Nat) (a : List Nat) (i : Nat) : Option Bool :=
  if i < N then
    let w := i >>> POW_2
    let b := i &&& FULL_MASK
    some (((a.getD w 0 >>> b) &&& 1) != 0)
  else none

/-- Method `flip()` without arguments: complement every word, then `fix_last()`. -/
def flip_all (N : Nat) (a : List Nat) : List Nat :=
  fix_last N (forUp (WORDS N) (fun i s => s.set i (not64 (s.getD i 0))) a)

/-- Method `flip(i)`; `none` is the failed `assert(i < N)`. -/
def flip (N : Nat) (a : List Nat) (i : Nat) : Option (List Nat) :=
  if i < N then
    some (a.set (i >>> POW_2) (a.getD (i >>> POW_2) 0 ^^^ shl64 1 (i &&& FULL_MASK)))
  else none

/-- Method `count()`: `c += pop(a[i])` over all words. -/
def count (N : Nat) (a : List Nat) : Nat :=
  (List.range (WORDS N)).foldl (fun c i => c + pop (a.getD i 0)) 0

/-- Method `operator&=`: `a[i] &= o.a[i]` over all words. -/
def operator_and_assign (N : Nat) (a o : List Nat) : List Nat :=
  forUp (WORDS N) (fun i s => s.set i (s.getD i 0 &&& o.getD i 0)) a

/-- Method `operator|=`: `a[i] |= o.a[i]` over all words. -/
def operator_or_assign (N : Nat) (a o : List Nat) : List Nat :=
  forUp (WORDS N) (fun i s => s.set i (s.getD i 0 ||| o.getD i 0)) a

/-- Method `operator^=`: `a[i] ^= o.a[i]` over all words. -/
def operator_xor_assign (N : Nat) (a o : List Nat) : List Nat :=
  forUp (WORDS N) (fun i s => s.set i (s.getD i 0 ^^^ o.getD i 0)) a

/-- Loop body of `operator<<=` for `b == 0`: `a[i] = (i >= w) ? a[i - w] : 0`. -/
def shlWordBody (w : Nat) (i : Nat) (s : List Nat) : List Nat :=
  s.set i (if i ≥ w then s.getD (i - w) 0 else 0)

/-- Loop body of `operator<<=` for `b != 0`. -/
def shlBitBody (w b : Nat) (i : Nat) (s : List Nat) : List Nat :=
  let big := if i ≥ w then shl64 (s.getD (i - w) 0) b else 0
  let sml := if i ≥ w + 1 then s.getD (i - w - 1) 0 >>> (WORD_SIZE - b) else 0
  s.set i (big ||| sml)

/-- Method `operator<<=(i)`; both loops run from the top word down. -/
def operator_shl_assign (N : Nat) (a : List Nat) (i : Nat) : List Nat :=
  if i ≥ N then reset a
  else
    let w := i >>> POW_2
    let b := i &&& FULL_MASK
    if b = 0 then fix_last N (forDown (WORDS N) (shlWordBody w) a)
    else fix_last N (forDown (WORDS N) (shlBitBody w b) a)

/-- Loop body of `operator>>=` for `b == 0`: `a[i] = (i + w < WORDS) ? a[i + w] : 0`. -/
def shrWordBody (N w : Nat) (i : Nat) (s : List Nat) : List Nat :=
  s.set i (if i + w < WORDS N then s.getD (i + w) 0 else 0)

/-- Loop body of `operator>>=` for `b != 0`. -/
def shrBitBody (N w b : Nat) (i : Nat) (s : List Nat) : List Nat :=
  let sml := if i + w < WORDS N then s.getD (i + w) 0 >>> b else 0
  let big := if i + w + 1 < WORDS N then shl64 (s.getD (i + w + 1) 0) (WORD_SIZE - b) else 0
  s.set i (sml ||| big)

/-- Method `operator>>=(i)`.  As in the source, the `b == 0` loop runs upwards and the
`b != 0` loop runs downwards (`for (size_t i = WORDS; i --> 0;)`). -/
def operator_shr_assign (N : Nat) (a : List Nat) (i : Nat) : List Nat :=
  if i ≥ N then reset a
  else
    let w := i >>> POW_2
    let b := i &&& FULL_MASK
    if b = 0 then fix_last N (forUp (WORDS N) (shrWordBody N w) a)
    else fix_last N (forDown (WORDS N) (shrBitBody N w b) a)

/-! ## Scans -/

/-- The scan `for (; w < WORDS; w++) if (a[w]) return (w << POW_2) + ctz(a[w]); return N;`
with `n` iterations left. -/
def scanUp (N : Nat) (a : List Nat) : Nat → Nat → Nat
  | 0, _ => N
  | n + 1, w =>
    if a.getD w 0 ≠ 0 then (w <<< POW_2) + ctz (a.getD w 0)
    else scanUp N a n (w + 1)

/-- The scan `while (w--) if (a[w]) return (w << POW_2) + (FULL_MASK - clz(a[w])); return N;`. -/
def scanDown (N : Nat) (a : List Nat) : Nat → Nat
  | 0 => N
  | w + 1 =>
    if a.getD w 0 ≠ 0 then (w <<< POW_2) + (FULL_MASK - clz (a.getD w 0))
    else scanDown N a w

/-- Method `find_first()`. -/
def find_first (N : Nat) (a : List Nat) : Nat := scanUp N a (WORDS N) 0

/-- Method `find_next(i)`; the increment `i++` is taken modulo `2 ^ 64`. -/
def find_next (N : Nat) (a : List Nat) (i : Nat) : Nat :=
  let i := (i + 1) % 2 ^ 64
  if i ≥ N then N
  else
    let w := i >>> POW_2
    let b := i &&& FULL_MASK
    let x := a.getD w 0 &&& shl64 ALL_ONES b
    if x ≠ 0 then (w <<< POW_2) + ctz x
    else scanUp N a (WORDS N - (w + 1)) (w + 1)

/-- The loop of `find_last()`, with `i` words left to visit. -/
def findLastLoop (N : Nat) (a : List Nat) : Nat → Nat
  | 0 => N
  | i + 1 =>
    let x := a.getD i 0
    let x := if N % WORD_SIZE ≠ 0 ∧ i = WORDS N - 1 then x &&& LAST_MASK N else x
    if x ≠ 0 then (i <<< POW_2) + (FULL_MASK - clz x)
    else findLastLoop N a i

/-- Method `find_last()`. -/
def find_last (N : Nat) (a : List Nat) : Nat := findLastLoop N a (WORDS N)

/-- Method `find_prev(i)`. -/
def find_prev (N : Nat) (a : List Nat) (i : Nat) : Nat :=
  if i = 0 then N
  else
    let i := i - 1
    let w := i >>> POW_2
    let b := i &&& FULL_MASK
    let m := if b = FULL_MASK then ALL_ONES else shl64 1 (b + 1) - 1
    let x := a.getD w 0 &&& m
    if x ≠ 0 then (w <<< POW_2) + (FULL_MASK - clz x)
    else scanDown N a w


/-! ## Specification vocabulary -/

/-- The raw bit at logical position `p`: bit `p % 64` of word `p / 64`. -/
def bit (a : List Nat) (p : Nat) : Bool := (a.getD (p / 64) 0).testBit (p % 64)

/-- The typing of the member `array<u64, WORDS> a`: `WORDS` words of 64 bits. -/
def WF (N : Nat) (a : List Nat) : Prop := a.length = WORDS N ∧ ∀ x ∈ a, x < 2 ^ 64

instance instDecidableWF (N : Nat) (a : List Nat) : Decidable (WF N a) := by
  unfold WF; infer_instance

/-- Tail masking: when `N` is not a multiple of the word size, every bit of the
last word at a position `≥ N % WORD_SIZE` is zero. -/
def TailInv (N : Nat) (a : List Nat) : Prop :=
  N % WORD_SIZE ≠ 0 →
    ∀ b, b < WORD_SIZE → N % WORD_SIZE ≤ b → (a.getD (WORDS N - 1) 0).testBit b = false

instance instDecidableTailInv (N : Nat) (a : List Nat) : Decidable (TailInv N a) := by
  unfold TailInv; infer_instance

/-- The states reachable from the zero-initialised vector by the mutating
operations of the structure. -/
inductive Reachable (N : Nat) : List Nat → Prop
  | init : Reachable N (init N)
  | reset {a : List Nat} : Reachable N a → Reachable N (reset a)
  | set_all {a : List Nat} : Reachable N a → Reachable N (set_all N a)
  | set {a a' : List Nat} (i : Nat) (v : Bool) :
      Reachable N a → set N a i v = some a' → Reachable N a'
  | flip {a a' : List Nat} (i : Nat) :
      Reachable N a → flip N a i = some a' → Reachable N a'
  | flip_all {a : List Nat} : Reachable N a → Reachable N (flip_all N a)
  | and_assign {a o : List Nat} :
      Reachable N a → Reachable N o → Reachable N (operator_and_assign N a o)
  | or_assign {a o : List Nat} :
      Reachable N a → Reachable N o → Reachable N (operator_or_assign N a o)
  | xor_assign {a o : List Nat} :
      Reachable N a → Reachable N o → Reachable N (operator_xor_assign N a o)
  | shl_assign {a : List Nat} (k : Nat) :
      Reachable N a → Reachable N (operator_shl_assign N a k)
  | shr_assign {a : List Nat} (k : Nat) :
      Reachable N a → Reachable N (operator_shr_assign N a k)

/-- The indices `i < N` with `test(i)` true, in ascending order: the reference
scan of the vector. -/
def setBits (N : Nat) (a : List Nat) : List Nat :=
  (List.range N).filter (fun i => test N a i == some true)

/-- The client loop `for (p = start; p != N; p = find_next(p)) visit(p)`, run for
at most `fuel` visits; `none` when the fuel runs out before `N` is reached. -/
def iterNext (N : Nat) (a : List Nat) : Nat → Nat → Option (List Nat)
  | 0, p => if p = N then some [] else none
  | fuel + 1, p =>
    if p = N then some [] else (iterNext N a fuel (find_next N a p)).map (fun l => p :: l)

/-- The client loop `for (q = start; q != N; q = find_prev(q)) visit(q)`, run for
at most `fuel` visits; `none` when the fuel runs out before `N` is reached. -/
def iterPrev (N : Nat) (a : List Nat) : Nat → Nat → Option (List Nat)
  | 0, q => if q = N then some [] else none
  | fuel + 1, q =>
    if q = N then some [] else (iterPrev N a fuel (find_prev N a q)).map (fun l => q :: l)

/-- Says that `r` is the lowest position in `[s, N)` whose raw bit is set, or `N` when no
position in `[s, N)` has its bit set. -/
def IsFirstFrom (N : Nat) (a : List Nat) (s r : Nat) : Prop :=
  (r < N ∧ s ≤ r ∧ bit a r = true ∧ ∀ j, s ≤ j → j < r → bit a j = false) ∨
    (r = N ∧ ∀ j, s ≤ j → j < N → bit a j = false)

/-- Says that `r` is the highest position below `s` whose raw bit is set, or `N` when no
position below `s` has its bit set. -/
def IsLastBelow (N : Nat) (a : List Nat) (s r : Nat) : Prop :=
  (r < s ∧ bit a r = true ∧ ∀ j, r < j → j < s → bit a j = false) ∨
    (r = N ∧ ∀ j, j < s → bit a j = false)

/-! ## Aggregate queries, comparison and value-returning operators -/

/-- The loop of `any()`: `for (...; i++) if (a[i]) return true; return false;`, at word
`i` with `n` iterations left. -/
def anyLoop (a : List Nat) : Nat → Nat → Bool
  | 0, _ => false
  | n + 1, i => if a.getD i 0 ≠ 0 then true else anyLoop a n (i + 1)

/-- Method `any()`. -/
protected def any (N : Nat) (a : List Nat) : Bool := anyLoop a (WORDS N) 0

/-- Method `none()`: `!any()`. -/
protected def none (N : Nat) (a : List Nat) : Bool := !FastBitset64.any N a

/-- The loop of `all()`: `for (size_t i = 0; i + 1 < WORDS; i++) if (~a[i]) return false;`,
at word `i` with `n` iterations left; `true` when the loop falls through. -/
def allLoop (a : List Nat) : Nat → Nat → Bool
  | 0, _ => true
  | n + 1, i => if not64 (a.getD i 0) ≠ 0 then false else allLoop a n (i + 1)

/-- Method `all()`.  The loop visits the words `0 .. WORDS - 2`; the final read
`a[WORDS - 1]` computes its index in `size_t`, and the result is `none` when that
index lies outside the array. -/
protected def all (N : Nat) (a : List Nat) : Option Bool :=
  if allLoop a (WORDS N - 1) 0 = false then some false
  else
    let last := (WORDS N + (2 ^ 64 - 1)) % 2 ^ 64
    if N % WORD_SIZE ≠ 0 then
      a[last]?.map (fun x => x &&& LAST_MASK N == LAST_MASK N)
    else a[last]?.map (fun x => x == ALL_ONES)

/-- The friend `operator==`: `x.a == y.a`. -/
def operator_eq (x y : List Nat) : Bool := x == y

/-- The friend `operator!=`: `!(x == y)`. -/
def operator_ne (x y : List Nat) : Bool := !operator_eq x y

/-- The friend `operator&`: `lhs &= rhs; return lhs;` on a copy of `lhs`. -/
def operator_and (N : Nat) (lhs rhs : List Nat) : List Nat := operator_and_assign N lhs rhs

/-- The friend `operator|`: `lhs |= rhs; return lhs;` on a copy of `lhs`. -/
def operator_or (N : Nat) (lhs rhs : List Nat) : List Nat := operator_or_assign N lhs rhs

/-- The friend `operator^`: `lhs ^= rhs; return lhs;` on a copy of `lhs`. -/
def operator_xor (N : Nat) (lhs rhs : List Nat) : List Nat := operator_xor_assign N lhs rhs

/-- The scenario `set(0); set(1); set(2); operator<<=(8)` on a cleared vector of
capacity `N`; `none` when one of the asserts fails. -/
def shiftScenario (N : Nat) : Option (List Nat) :=
  (((set N (reset (init N)) 0 true).bind (fun a => set N a 1 true)).bind
    (fun a => set N a 2 true)).map (fun a => operator_shl_assign N a 8)

end FastBitset64

/-!
# Trie

A shallow embedding of `content/data-structures/Trie.h`.  The `vector<jiayou>` is a
`List jiayou` passed as explicit state; the `int` fields and indices are integers
kept in the range `[INT_MIN, INT_MAX]` of a 32-bit `int`, with `-1` for a missing
child.  An operation returns `none` when it has undefined behaviour: an access
`trie[at]` outside the vector, or a `count++` or `count--` that overflows.  The
assignment of `trie.size()` to an `int` field converts modulo `2 ^ 32`.  The values
are `int`s in `[0, 2 ^ 31)`, taken as natural numbers.
-/

namespace Trie

/-- The largest value of the 32-bit type `int`. -/
def INT_MAX : Int := 2 ^ 31 - 1

/-- The smallest value of the 32-bit type `int`. -/
def INT_MIN : Int := -(2 ^ 31)

/-- Whether an integer is a value of the 32-bit type `int`. -/
def isInt (z : Int) : Bool := decide (INT_MIN ≤ z) && decide (z ≤ INT_MAX)

/-- The node type `struct jiayou`, with `children[0] = left` and `children[1] = right`.
The three fields are of type `int`: every operation below either leaves them in
`[INT_MIN, INT_MAX]` or fails (see `incr`, `decr` and `sizeToInt`). -/
structure jiayou where
  /-- Field `count`. -/
  count : Int
  /-- Entry `children[0]`. -/
  left : Int
  /-- Entry `children[1]`. -/
  right : Int

/-- Whether the three fields of a node are values of type `int`. -/
def jiayou.fieldsInt (nd : jiayou) : Bool :=
  isInt nd.count && isInt nd.left && isInt nd.right

/-- The increment `c++` of an `int`: signed overflow is undefined behaviour, so the
increment of `INT_MAX` fails. -/
def incr (c : Int) : Option Int := if c + 1 ≤ INT_MAX then some (c + 1) else none

/-- The decrement `c--` of an `int`: signed overflow is undefined behaviour, so the
decrement of `INT_MIN` fails. -/
def decr (c : Int) : Option Int := if INT_MIN ≤ c - 1 then some (c - 1) else none

/-- The conversion of the `size_t` value `trie.size()` to `int` in the assignment
`children[bit] = trie.size()`: the value modulo `2 ^ 32`, read as a signed 32-bit number. -/
def sizeToInt (n : Nat) : Int := (((n + 2 ^ 31) % 2 ^ 32 : Nat) : Int) - 2 ^ 31

/-- The default-constructed node `jiayou()`: no children, count 0. -/
def jiayou.fresh : jiayou := ⟨0, -1, -1⟩

/-- The entry `children[b]` of a node. -/
def jiayou.child (nd : jiayou) (b : Bool) : Int := if b then nd.right else nd.left

/-- The node after the assignment `children[b] = c`. -/
def jiayou.setChild (nd : jiayou) (b : Bool) (c : Int) : jiayou :=
  if b then { nd with right := c } else { nd with left := c }

/-- The access `trie[at]`; `none` when `at` is outside the vector. -/
def node (trie : List jiayou) (at_ : Int) : Option jiayou :=
  if 0 ≤ at_ then trie[at_.toNat]? else none

/-- The write `trie[at] = nd` at an index inside the vector. -/
def setNode (trie : List jiayou) (at_ : Int) (nd : jiayou) : List jiayou :=
  trie.set at_.toNat nd

/-- The loop of `query` with bits `n - 1, ..., 0` still to visit. -/
def queryLoop (trie : List jiayou) (x : Nat) : Nat → Int → Nat → Option Nat
  | 0, _, res => some res
  | i + 1, at_, res =>
    let bit := x.testBit i
    let want := !bit
    match node trie at_ with
    | none => none
    | some nd =>
      if nd.child want ≠ -1 then
        match node trie (nd.child want) with
        | none => none
        | some m =>
          if m.count > 0 then queryLoop trie x i (nd.child want) (res ||| (1 <<< i))
          else queryLoop trie x i (nd.child bit) res
      else queryLoop trie x i (nd.child bit) res

/-- Function `query(trie, x)`. -/
def query (trie : List jiayou) (x : Nat) : Option Nat := queryLoop trie x 31 0 0

/-- The loop of `insert` with bits `n - 1, ..., 0` still to visit. -/
def insertLoop (x : Nat) : Nat → List jiayou → Int → Option (List jiayou)
  | 0, trie, _ => some trie
  | i + 1, trie, at_ =>
    let bit := x.testBit i
    match node trie at_ with
    | none => none
    | some nd =>
      let trie1 :=
        if nd.child bit = -1 then
          (setNode trie at_ (nd.setChild bit (sizeToInt trie.length))) ++ [jiayou.fresh]
        else trie
      match node trie1 at_ with
      | none => none
      | some nd1 =>
        match node trie1 (nd1.child bit) with
        | none => none
        | some m =>
          match incr m.count with
          | none => none
          | some c =>
            insertLoop x i (setNode trie1 (nd1.child bit) { m with count := c })
              (nd1.child bit)

/-- Function `insert(trie, x)`. -/
def insert (trie : List jiayou) (x : Nat) : Option (List jiayou) :=
  match node trie 0 with
  | none => none
  | some r =>
    match incr r.count with
    | none => none
    | some c => insertLoop x 31 (setNode trie 0 { r with count := c }) 0

/-- The loop of `erase` with bits `n - 1, ..., 0` still to visit. -/
def eraseLoop (x : Nat) : Nat → List jiayou → Int → Option (List jiayou)
  | 0, trie, _ => some trie
  | i + 1, trie, at_ =>
    let bit := x.testBit i
    match node trie at_ with
    | none => none
    | some nd =>
      match node trie (nd.child bit) with
      | none => none
      | some m =>
        match decr m.count with
        | none => none
        | some c =>
          eraseLoop x i (setNode trie (nd.child bit) { m with count := c }) (nd.child bit)

/-- Function `erase(trie, x)`. -/
def erase (trie : List jiayou) (x : Nat) : Option (List jiayou) :=
  match node trie 0 with
  | none => none
  | some r =>
    match decr r.count with
    | none => none
    | some c => eraseLoop x 31 (setNode trie 0 { r with count := c }) 0

/-- The initial vector `{jiayou()}`: a single root node. -/
def initial : List jiayou := [jiayou.fresh]

/-- A call of `insert` or `erase`. -/
inductive Op where
  | ins (y : Nat)
  | del (y : Nat)

/-- Runs a sequence of calls on the vector, first call first. -/
def run : List Op → List jiayou → Option (List jiayou)
  | [], trie => some trie
  | Op.ins y :: ops, trie => (insert trie y).bind (run ops)
  | Op.del y :: ops, trie => (erase trie y).bind (run ops)

/-- The multiset of stored values after a sequence of calls, started from `s`. -/
def stored : List Op → List Nat → List Nat
  | [], s => s
  | Op.ins y :: ops, s => stored ops (y :: s)
  | Op.del y :: ops, s => stored ops (s.erase y)

/-- The number of `insert` calls in a sequence of calls. -/
def insertCount : List Op → Nat
  | [] => 0
  | Op.ins _ :: ops => insertCount ops + 1
  | Op.del _ :: ops => insertCount ops

/-- A sequence of calls is admissible from the stored multiset `s`: all values lie
in `[0, 2 ^ 31)` and `erase` is only applied to a value that is present. -/
def Admissible : List Op → List Nat → Prop
  | [], _ => True
  | Op.ins y :: ops, s => y < 2 ^ 31 ∧ Admissible ops (y :: s)
  | Op.del y :: ops, s => y < 2 ^ 31 ∧ y ∈ s ∧ Admissible ops (s.erase y)

/-- The index stored in `children[b]` of node `n`; `none` when the node is outside the
vector or the entry is negative (no child). -/
def childIdx (trie : List jiayou) (n : Nat) (b : Bool) : Option Nat :=
  match trie[n]? with
  | none => none
  | some nd => if 0 ≤ nd.child b then some (nd.child b).toNat else none

/-- The node reached from the root along the `k` leading bits of a 31-bit value,
given as the number `v < 2 ^ k` they spell; `none` when a link is missing. -/
def nodeAt (trie : List jiayou) : Nat → Nat → Option Nat
  | 0, v => if v = 0 then some 0 else none
  | k + 1, v => (nodeAt trie k (v / 2)).bind (fun n => childIdx trie n (v % 2 == 1))

/-- The number of values in `s`, with multiplicity, whose `k` leading bits (of 31)
spell `v`. -/
def pathCount (s : List Nat) (k v : Nat) : Nat :=
  s.countP (fun y => y / 2 ^ (31 - k) == v)

/-- The representation invariant of the vector against a table `f` of expected
counts: the root exists, child entries are `-1` or indices inside the vector, the node
reached by a prefix carries the count `f` assigns to the prefix, distinct prefixes
reach distinct nodes, every node is reached by a prefix, and a prefix that reaches no
node has expected count zero. -/
structure TInv (trie : List jiayou) (f : Nat → Nat → Int) : Prop where
  /-- The root node exists. -/
  root : 0 < trie.length
  /-- Child entries are `-1` or valid indices. -/
  child_ok : ∀ (n : Nat) (nd : jiayou) (b : Bool), trie[n]? = some nd →
    nd.child b = -1 ∨ (0 ≤ nd.child b ∧ nd.child b < trie.length)
  /-- The count of the node reached by a prefix. -/
  count_ok : ∀ (k v n : Nat) (nd : jiayou), k ≤ 31 → nodeAt trie k v = some n →
    trie[n]? = some nd →
    nd.count = f k v
  /-- Distinct prefixes reach distinct nodes. -/
  inj : ∀ k v k' v' n, k ≤ 31 → k' ≤ 31 → nodeAt trie k v = some n →
    nodeAt trie k' v' = some n → k = k' ∧ v = v'
  /-- Every node is reached by a prefix. -/
  surj : ∀ n, n < trie.length → ∃ k v, k ≤ 31 ∧ nodeAt trie k v = some n
  /-- A prefix that reaches no node has expected count zero. -/
  absent : ∀ k v, k ≤ 31 → nodeAt trie k v = none → f k v = 0

/-- The vector is well-typed: it has at most `2 ^ 31` nodes, so that every node index
is an `int`, and the fields of every node are values of type `int`. -/
def Typed (trie : List jiayou) : Prop :=
  trie.length ≤ 2 ^ 31 ∧ ∀ nd, nd ∈ trie → nd.fieldsInt = true

end Trie

/-!
# XorBasis

A shallow embedding of `content/data-structures/XorBasis.h`.  A `bitset<BIT>` is a
natural number below `2 ^ 21`, an `int` time stamp is an integer, and the member
`array<pair<tl, int>, BIT> b` is a `List (Nat × Int)` of length 21 passed as explicit
state.
-/

namespace XorBasis

/-- Constant `const int BIT = 21`. -/
def BIT : Nat := 21

/-- The value-initialised member `array<pair<tl, int>, BIT> b{}`. -/
def fresh : List (Nat × Int) := List.replicate BIT (0, 0)

/-- The loop of `add` with the slots `n - 1, ..., 0` still to visit; the result is
the returned flag and the array. -/
def addLoop : Nat → List (Nat × Int) → Nat → Int → Bool × List (Nat × Int)
  | 0, b, _, _ => (false, b)
  | i + 1, b, x, id =>
    if x.testBit i = false then addLoop i b x id
    else if (b.getD i (0, 0)).1 = 0 then (true, b.set i (x, id))
    else if (b.getD i (0, 0)).2 < id then
      -- `swap(x, b[i].first); swap(id, b[i].second); x ^= b[i].first;`
      addLoop i (b.set i (x, id)) ((b.getD i (0, 0)).1 ^^^ x) (b.getD i (0, 0)).2
    else addLoop i b (x ^^^ (b.getD i (0, 0)).1) id

/-- Method `add(x, id)`: the returned flag and the array afterwards. -/
def add (b : List (Nat × Int)) (x : Nat) (id : Int) : Bool × List (Nat × Int) :=
  addLoop BIT b x id

/-- The loop of `find_max` with the slots `n - 1, ..., 0` still to visit. -/
def findMaxLoop (b : List (Nat × Int)) (id : Int) : Nat → Nat → Nat
  | 0, res => res
  | i + 1, res =>
    if (b.getD i (0, 0)).1 = 0 then findMaxLoop b id i res
    else if (b.getD i (0, 0)).2 < id then findMaxLoop b id i res
    else if res.testBit i = false then findMaxLoop b id i (res ^^^ (b.getD i (0, 0)).1)
    else findMaxLoop b id i res

/-- Method `find_max(id)`. -/
def find_max (b : List (Nat × Int)) (id : Int) : Nat := findMaxLoop b id BIT 0

/-- The array after the calls `add(x, id)` for the pairs of the list, first pair
first, on a fresh `xor_basis`. -/
def basisAfter (l : List (Nat × Int)) : List (Nat × Int) :=
  l.foldl (fun b p => (add b p.1 p.2).2) fresh

/-- The XOR of all entries of a list. -/
def xorSum (s : List Nat) : Nat := s.foldr (fun a r => a ^^^ r) 0

/-- The added vectors whose time stamp satisfies `P`, in the order of addition. -/
def selected (l : List (Nat × Int)) (P : Int → Bool) : List Nat :=
  (l.filter (fun p => P p.2)).map (fun p => p.1)

/-- The XOR-span of the numbers satisfying `G`. -/
inductive Span (G : Nat → Prop) : Nat → Prop
  | zero : Span G 0
  | gen {g : Nat} : G g → Span G g
  | xor {a c : Nat} : Span G a → Span G c → Span G (a ^^^ c)

/-- The vector of slot `i` when it is used for the time stamps satisfying `P`, and 0
when the slot is skipped. -/
def sel (b : List (Nat × Int)) (P : Int → Bool) (i : Nat) : Nat :=
  if P (b.getD i (0, 0)).2 then (b.getD i (0, 0)).1 else 0

/-- Echelon form: every non-zero slot `i` has bit `i` as its highest set bit. -/
def Ech (b : List (Nat × Int)) : Prop :=
  ∀ i, i < BIT → (b.getD i (0, 0)).1 ≠ 0 →
    (b.getD i (0, 0)).1.testBit i = true ∧ (b.getD i (0, 0)).1 < 2 ^ (i + 1)

/-- The used vectors of the slots below `k`. -/
def slotsBelow (b : List (Nat × Int)) (P : Int → Bool) (k : Nat) : Nat → Prop :=
  fun w => ∃ j, j < k ∧ w = sel b P j

/-- The used vectors of the slots `k, ..., BIT - 1`. -/
def slotsFrom (b : List (Nat × Int)) (P : Int → Bool) (k : Nat) : Nat → Prop :=
  fun w => ∃ j, k ≤ j ∧ j < BIT ∧ w = sel b P j

/-- A set of time stamps that contains every time stamp above one of its members. -/
def UpClosed (P : Int → Bool) : Prop := ∀ a c : Int, a ≤ c → P a = true → P c = true

/-- The array represents the added pairs `l`: it has `BIT` slots in echelon form and,
for every upward-closed set of time stamps, its used vectors span what the added
vectors with such a time stamp span. -/
def Good (b : List (Nat × Int)) (l : List (Nat × Int)) : Prop :=
  b.length = BIT ∧ Ech b ∧
    ∀ P, UpClosed P → ∀ v, Span (slotsBelow b P BIT) v ↔ Span (fun w => w ∈ selected l P) v

end XorBasis

/-! ## Theorems -/

namespace FastBitset64

theorem WORD_SIZE_eq : WORD_SIZE = 64 := rfl
theorem FULL_MASK_eq : FULL_MASK = 63 := rfl
theorem WORDS_eq (N : Nat) : WORDS N = (N + 63) / 64 := rfl
theorem ALL_ONES_eq : ALL_ONES = 2 ^ 64 - 1 := rfl

theorem shr_pow2 (i : Nat) : i >>> POW_2 = i / 64 := by
  simp [POW_2, Nat.shiftRight_eq_div_pow]

theorem and_full_mask (i : Nat) : i &&& FULL_MASK = i % 64 :=
  Nat.and_pow_two_sub_one_eq_mod i 6

theorem shl_pow2 (w : Nat) : w <<< POW_2 = 64 * w := by
  simp [POW_2, Nat.shiftLeft_eq]; omega

theorem testBit_high {x c : Nat} (hx : x < 2 ^ 64) (hc : 64 ≤ c) : x.testBit c = false :=
  Nat.testBit_lt_two_pow (Nat.lt_of_lt_of_le hx (Nat.pow_le_pow_right (by decide) hc))

theorem testBit_shl64 (x b c : Nat) :
    (shl64 x b).testBit c = (decide (c < 64) && (decide (b ≤ c) && x.testBit (c - b))) := by
  unfold shl64
  rw [Nat.testBit_mod_two_pow, Nat.testBit_shiftLeft]

theorem shl64_lt (x b : Nat) : shl64 x b < 2 ^ 64 := Nat.mod_lt _ (by decide)

theorem shl64_one {b : Nat} (hb : b < 64) : shl64 1 b = 2 ^ b := by
  unfold shl64
  rw [Nat.shiftLeft_eq, Nat.one_mul]
  exact Nat.mod_eq_of_lt (Nat.pow_lt_pow_right (by decide) hb)

theorem testBit_ALL_ONES (c : Nat) : ALL_ONES.testBit c = decide (c < 64) :=
  Nat.testBit_two_pow_sub_one 64 c

theorem testBit_not64 (x c : Nat) :
    (not64 x).testBit c = (decide (c < 64) ^^ x.testBit c) := by
  simp [not64, Nat.testBit_xor, testBit_ALL_ONES]

theorem not64_lt {x : Nat} (hx : x < 2 ^ 64) : not64 x < 2 ^ 64 :=
  Nat.xor_lt_two_pow (by decide) hx

theorem LAST_MASK_eq {N : Nat} (h : N % 64 ≠ 0) : LAST_MASK N = 2 ^ (N % 64) - 1 := by
  unfold LAST_MASK
  rw [WORD_SIZE_eq, if_neg h, shl64_one (Nat.mod_lt _ (by decide))]

theorem testBit_LAST_MASK {N : Nat} (h : N % 64 ≠ 0) (c : Nat) :
    (LAST_MASK N).testBit c = decide (c < N % 64) := by
  rw [LAST_MASK_eq h, Nat.testBit_two_pow_sub_one]

theorem LAST_MASK_lt (N : Nat) : LAST_MASK N < 2 ^ 64 := by
  unfold LAST_MASK
  split
  · decide
  · exact Nat.lt_of_le_of_lt (Nat.sub_le _ _) (shl64_lt _ _)


theorem getD_set (a : List Nat) (i j v : Nat) :
    (a.set i v).getD j 0 = if i = j ∧ i < a.length then v else a.getD j 0 := by
  simp only [List.getD_eq_getElem?_getD, List.getElem?_set]
  by_cases h : i = j
  · subst h
    by_cases h2 : i < a.length
    · simp [h2]
    · simp [h2, List.getElem?_eq_none (Nat.le_of_not_lt h2)]
  · simp [h]

theorem getD_of_le (a : List Nat) {j : Nat} (h : a.length ≤ j) : a.getD j 0 = 0 := by
  simp [List.getD_eq_getElem?_getD, List.getElem?_eq_none h]

theorem getD_lt_of_forall {a : List Nat} (h : ∀ x ∈ a, x < 2 ^ 64) (j : Nat) :
    a.getD j 0 < 2 ^ 64 := by
  by_cases hj : j < a.length
  · rw [List.getD_eq_getElem _ _ hj]
    exact h _ (List.getElem_mem hj)
  · rw [getD_of_le a (Nat.le_of_not_lt hj)]
    decide

theorem forall_lt_of_getD {a : List Nat} (h : ∀ j, j < a.length → a.getD j 0 < 2 ^ 64) :
    ∀ x ∈ a, x < 2 ^ 64 := by
  intro x hx
  obtain ⟨j, hj, rfl⟩ := List.getElem_of_mem hx
  have := h j hj
  rwa [List.getD_eq_getElem _ _ hj] at this

/-- Two arrays of the same length agree when they agree at every index. -/
theorem ext_getD {a a' : List Nat} (hl : a.length = a'.length)
    (h : ∀ j, j < a.length → a.getD j 0 = a'.getD j 0) : a = a' := by
  apply List.ext_getElem hl
  intro j h1 h2
  have := h j h1
  rwa [List.getD_eq_getElem _ _ h1, List.getD_eq_getElem _ _ h2] at this

theorem forDown_length (body : Nat → List Nat → List Nat)
    (hb : ∀ i s, (body i s).length = s.length) (n : Nat) (a : List Nat) :
    (forDown n body a).length = a.length := by
  induction n generalizing a with
  | zero => rfl
  | succ n ih => rw [forDown, ih, hb]

theorem forUp_succ (n : Nat) (body : Nat → List Nat → List Nat) (a : List Nat) :
    forUp (n + 1) body a = body n (forUp n body a) := by
  simp [forUp, List.range_succ, List.foldl_append]

theorem forUp_length (body : Nat → List Nat → List Nat)
    (hb : ∀ i s, (body i s).length = s.length) (n : Nat) (a : List Nat) :
    (forUp n body a).length = a.length := by
  induction n with
  | zero => rfl
  | succ n ih => rw [forUp_succ, hb, ih]

/-- A downward loop whose step `i` writes `a[i]` from entries at indices `≤ i`
computes every written entry from the initial array. -/
theorem forDown_getD (f : Nat → List Nat → Nat) (body : Nat → List Nat → List Nat)
    (hb : ∀ i s, body i s = s.set i (f i s))
    (hf : ∀ i s s', (∀ j, j ≤ i → s.getD j 0 = s'.getD j 0) → f i s = f i s')
    (n : Nat) (a : List Nat) (hn : n ≤ a.length) (j : Nat) :
    (forDown n body a).getD j 0 = if j < n then f j a else a.getD j 0 := by
  induction n generalizing a with
  | zero => simp [forDown]
  | succ n ih =>
    rw [forDown, ih _ (by rw [hb, List.length_set]; omega), hb, getD_set]
    by_cases hj : j < n
    · rw [if_pos hj, if_pos (by omega)]
      apply hf
      intro t ht
      rw [getD_set, if_neg (by omega)]
    · rw [if_neg hj]
      by_cases hjn : n = j
      · subst hjn
        rw [if_pos ⟨rfl, by omega⟩, if_pos (by omega)]
      · rw [if_neg (by omega), if_neg (by omega)]

/-- An upward loop whose step `i` writes `a[i]` from entries at indices `≥ i`
computes every written entry from the initial array. -/
theorem forUp_getD (f : Nat → List Nat → Nat) (body : Nat → List Nat → List Nat)
    (hb : ∀ i s, body i s = s.set i (f i s))
    (hf : ∀ i s s', (∀ j, i ≤ j → s.getD j 0 = s'.getD j 0) → f i s = f i s')
    (n : Nat) (a : List Nat) (hn : n ≤ a.length) (j : Nat) :
    (forUp n body a).getD j 0 = if j < n then f j a else a.getD j 0 := by
  induction n generalizing j with
  | zero => simp [forUp]
  | succ n ih =>
    have hlen : (forUp n body a).length = a.length :=
      forUp_length body (fun i s => by rw [hb, List.length_set]) n a
    rw [forUp_succ, hb, getD_set, hlen]
    by_cases hjn : n = j
    · subst hjn
      rw [if_pos ⟨rfl, by omega⟩, if_pos (by omega)]
      apply hf
      intro t ht
      rw [ih (by omega), if_neg (by omega)]
    · rw [if_neg (by omega), ih (by omega)]
      by_cases hj : j < n
      · rw [if_pos hj, if_pos (by omega)]
      · rw [if_neg hj, if_neg (by omega)]

theorem set_words64 {s : List Nat} (hs : ∀ x ∈ s, x < 2 ^ 64) (i : Nat) {v : Nat}
    (hv : v < 2 ^ 64) : ∀ x ∈ s.set i v, x < 2 ^ 64 := by
  intro x hx
  rcases List.mem_or_eq_of_mem_set hx with h | h
  · exact hs x h
  · rw [h]; exact hv

theorem WF_set {N : Nat} {s : List Nat} (hs : WF N s) (i : Nat) {v : Nat}
    (hv : v < 2 ^ 64) : WF N (s.set i v) :=
  ⟨by rw [List.length_set]; exact hs.1, set_words64 hs.2 i hv⟩

theorem WF_getD {N : Nat} {s : List Nat} (hs : WF N s) (j : Nat) : s.getD j 0 < 2 ^ 64 :=
  getD_lt_of_forall hs.2 j

theorem forUp_preserves (P : List Nat → Prop) (body : Nat → List Nat → List Nat)
    (hb : ∀ i s, P s → P (body i s)) (n : Nat) (a : List Nat) (ha : P a) :
    P (forUp n body a) := by
  induction n with
  | zero => exact ha
  | succ n ih => rw [forUp_succ]; exact hb _ _ ih

theorem forDown_preserves (P : List Nat → Prop) (body : Nat → List Nat → List Nat)
    (hb : ∀ i s, P s → P (body i s)) (n : Nat) (a : List Nat) (ha : P a) :
    P (forDown n body a) := by
  induction n generalizing a with
  | zero => exact ha
  | succ n ih => rw [forDown]; exact ih _ (hb _ _ ha)

theorem WF_fill {N : Nat} {a : List Nat} (ha : WF N a) {v : Nat} (hv : v < 2 ^ 64) :
    WF N (fill a v) := by
  refine ⟨by simp [fill, ha.1], ?_⟩
  intro x hx
  rw [fill, List.mem_replicate] at hx
  rw [hx.2]; exact hv

theorem WF_init (N : Nat) : WF N (init N) := by
  refine ⟨by simp [init], ?_⟩
  intro x hx
  rw [init, List.mem_replicate] at hx
  rw [hx.2]; decide

theorem WF_fix_last {N : Nat} {a : List Nat} (ha : WF N a) : WF N (fix_last N a) := by
  unfold fix_last
  split
  · exact WF_set ha _ (Nat.and_lt_two_pow _ (LAST_MASK_lt N))
  · exact ha

theorem getD_fix_last (N : Nat) (a : List Nat) (hl : a.length = WORDS N) (j : Nat) :
    (fix_last N a).getD j 0 =
      if N % 64 ≠ 0 ∧ j = WORDS N - 1 then a.getD j 0 &&& LAST_MASK N else a.getD j 0 := by
  unfold fix_last
  rw [WORD_SIZE_eq]
  by_cases h : N % 64 ≠ 0
  · rw [if_pos h, getD_set]
    have hW : 0 < WORDS N := by rw [WORDS_eq]; omega
    by_cases hj : j = WORDS N - 1
    · subst hj
      rw [if_pos ⟨rfl, by omega⟩, if_pos ⟨h, rfl⟩]
    · rw [if_neg (by intro h'; exact hj h'.1.symm), if_neg (by intro h'; exact hj h'.2)]
  · rw [if_neg h, if_neg (by intro h'; exact h h'.1)]

theorem fix_last_length (N : Nat) (a : List Nat) : (fix_last N a).length = a.length := by
  unfold fix_last
  split
  · rw [List.length_set]
  · rfl

theorem bit_of_length_le (a : List Nat) {p : Nat} (h : 64 * a.length ≤ p) : bit a p = false := by
  unfold bit
  rw [getD_of_le a (by omega)]
  exact Nat.zero_testBit _

/-- After `fix_last`, exactly the bits below `N` survive. -/
theorem bit_fix_last (N : Nat) (a : List Nat) (hl : a.length = WORDS N) (p : Nat) :
    bit (fix_last N a) p = (decide (p < N) && bit a p) := by
  by_cases hp : 64 * WORDS N ≤ p
  · rw [bit_of_length_le a (by omega),
      bit_of_length_le _ (by rw [fix_last_length]; omega)]
    simp
  · have hW := WORDS_eq N
    unfold bit
    rw [getD_fix_last N a hl]
    by_cases hc : N % 64 ≠ 0 ∧ p / 64 = WORDS N - 1
    · rw [if_pos hc, Nat.testBit_and, testBit_LAST_MASK hc.1, Bool.and_comm]
      congr 1
      have : p < N ↔ p % 64 < N % 64 := by omega
      exact decide_eq_decide.mpr this.symm
    · rw [if_neg hc]
      have : p < N := by
        by_cases h0 : N % 64 = 0
        · omega
        · have : p / 64 ≠ WORDS N - 1 := fun h => hc ⟨h0, h⟩
          omega
      simp [this]

/-- The tail invariant says that no raw bit at a position `≥ N` is set. -/
theorem bit_of_ge {N : Nat} {a : List Nat} (hl : a.length = WORDS N) (ht : TailInv N a)
    {p : Nat} (hp : N ≤ p) : bit a p = false := by
  have hW := WORDS_eq N
  by_cases h : 64 * a.length ≤ p
  · exact bit_of_length_le a h
  · have h0 : N % WORD_SIZE ≠ 0 := by rw [WORD_SIZE_eq]; omega
    have := ht h0 (p % 64) (by rw [WORD_SIZE_eq]; omega) (by rw [WORD_SIZE_eq]; omega)
    unfold bit
    rwa [show p / 64 = WORDS N - 1 by omega]

theorem tailInv_of_bit {N : Nat} {a : List Nat} (h : ∀ p, N ≤ p → bit a p = false) :
    TailInv N a := by
  intro h0 b hb hN
  rw [WORD_SIZE_eq] at h0 hb hN
  have hW := WORDS_eq N
  have := h (64 * (WORDS N - 1) + b) (by omega)
  unfold bit at this
  rwa [show (64 * (WORDS N - 1) + b) / 64 = WORDS N - 1 by omega,
    show (64 * (WORDS N - 1) + b) % 64 = b by omega] at this

theorem tailInv_fix_last (N : Nat) (a : List Nat) (hl : a.length = WORDS N) :
    TailInv N (fix_last N a) :=
  tailInv_of_bit fun p hp => by
    rw [bit_fix_last N a hl, decide_eq_false (by omega)]; rfl

theorem test_eq {N : Nat} (a : List Nat) {i : Nat} (hi : i < N) :
    test N a i = some (bit a i) := by
  unfold test bit
  rw [if_pos hi, shr_pow2, and_full_mask]
  simp only [Nat.testBit, Nat.and_comm]

theorem test_eq_some_true {N : Nat} (a : List Nat) {i : Nat} (hi : i < N) :
    test N a i = some true ↔ bit a i = true := by
  rw [test_eq a hi]; simp

theorem set_eq {N : Nat} (a : List Nat) {i : Nat} (hi : i < N) (v : Bool) :
    set N a i v = some (a.set (i / 64)
      (if v then a.getD (i / 64) 0 ||| 2 ^ (i % 64)
        else a.getD (i / 64) 0 &&& not64 (2 ^ (i % 64)))) := by
  unfold set
  rw [if_pos hi, shr_pow2, and_full_mask]
  simp only []
  rw [shl64_one (Nat.mod_lt _ (by decide))]
  cases v <;> simp

theorem flip_eq {N : Nat} (a : List Nat) {i : Nat} (hi : i < N) :
    flip N a i = some (a.set (i / 64) (a.getD (i / 64) 0 ^^^ 2 ^ (i % 64))) := by
  unfold flip
  rw [if_pos hi, shr_pow2, and_full_mask, shl64_one (Nat.mod_lt _ (by decide))]

theorem two_pow_lt {b : Nat} (hb : b < 64) : 2 ^ b < 2 ^ 64 :=
  Nat.pow_lt_pow_right (by decide) hb

theorem bit_set_word (a : List Nat) {i : Nat} (hi : i / 64 < a.length) (v p : Nat) :
    bit (a.set (i / 64) v) p =
      if p / 64 = i / 64 then v.testBit (p % 64) else bit a p := by
  unfold bit
  rw [getD_set]
  by_cases h : p / 64 = i / 64
  · rw [if_pos ⟨h.symm, hi⟩, if_pos h]
  · rw [if_neg (fun h' => h h'.1.symm), if_neg h]

theorem index_lt_words {N i : Nat} (hi : i < N) : i / 64 < WORDS N := by
  rw [WORDS_eq]; omega

/-- Effect of `set(i, v)` on every raw bit. -/
theorem bit_set {N : Nat} {a : List Nat} (hl : a.length = WORDS N) {i : Nat} (hi : i < N)
    (v : Bool) (p : Nat) :
    bit (a.set (i / 64)
      (if v then a.getD (i / 64) 0 ||| 2 ^ (i % 64)
        else a.getD (i / 64) 0 &&& not64 (2 ^ (i % 64)))) p =
      if p = i then v else bit a p := by
  rw [bit_set_word a (by rw [hl]; exact index_lt_words hi)]
  by_cases h : p / 64 = i / 64
  · rw [if_pos h]
    by_cases hp : p = i
    · subst hp
      cases v <;> simp [Nat.testBit_two_pow, testBit_not64, Nat.mod_lt]
    · have hne : ¬ (i % 64 = p % 64) := by omega
      rw [if_neg hp]
      cases v <;>
        simp [Nat.testBit_two_pow, testBit_not64, Nat.mod_lt, hne, bit, h]
  · rw [if_neg h, if_neg (fun hp => h (by rw [hp]))]

/-- Effect of `flip(i)` on every raw bit. -/
theorem bit_flip {N : Nat} {a : List Nat} (hl : a.length = WORDS N) {i : Nat} (hi : i < N)
    (p : Nat) :
    bit (a.set (i / 64) (a.getD (i / 64) 0 ^^^ 2 ^ (i % 64))) p =
      if p = i then !bit a p else bit a p := by
  rw [bit_set_word a (by rw [hl]; exact index_lt_words hi)]
  by_cases h : p / 64 = i / 64
  · rw [if_pos h]
    by_cases hp : p = i
    · subst hp
      simp [Nat.testBit_two_pow, bit]
    · have hne : ¬ (i % 64 = p % 64) := by omega
      rw [if_neg hp]
      simp [Nat.testBit_two_pow, hne, bit, h]
  · rw [if_neg h, if_neg (fun hp => h (by rw [hp]))]

theorem WF_set_bit {N : Nat} {a : List Nat} (ha : WF N a) (i : Nat) (v : Bool) :
    WF N (a.set (i / 64)
      (if v then a.getD (i / 64) 0 ||| 2 ^ (i % 64)
        else a.getD (i / 64) 0 &&& not64 (2 ^ (i % 64)))) := by
  apply WF_set ha
  have h2 : 2 ^ (i % 64) < 2 ^ 64 := two_pow_lt (Nat.mod_lt _ (by decide))
  cases v
  · exact Nat.and_lt_two_pow _ (not64_lt h2)
  · exact Nat.or_lt_two_pow (WF_getD ha _) h2

theorem WF_flip_bit {N : Nat} {a : List Nat} (ha : WF N a) (i : Nat) :
    WF N (a.set (i / 64) (a.getD (i / 64) 0 ^^^ 2 ^ (i % 64))) :=
  WF_set ha _ (Nat.xor_lt_two_pow (WF_getD ha _) (two_pow_lt (Nat.mod_lt _ (by decide))))

/-- The three word-wise combination loops, as one statement about the result words. -/
theorem getD_combine (op : Nat → Nat → Nat) (N : Nat) (a o : List Nat)
    (hl : a.length = WORDS N) (j : Nat) :
    (forUp (WORDS N) (fun i s => s.set i (op (s.getD i 0) (o.getD i 0))) a).getD j 0 =
      if j < WORDS N then op (a.getD j 0) (o.getD j 0) else a.getD j 0 := by
  apply forUp_getD (fun i s => op (s.getD i 0) (o.getD i 0))
  · intro _ _; rfl
  · intro i s s' h
    show op (s.getD i 0) (o.getD i 0) = op (s'.getD i 0) (o.getD i 0)
    rw [h i (Nat.le_refl i)]
  · omega

theorem WF_combine (op : Nat → Nat → Nat)
    (hop : ∀ x y, x < 2 ^ 64 → y < 2 ^ 64 → op x y < 2 ^ 64)
    {N : Nat} {a o : List Nat} (ha : WF N a) (ho : WF N o) :
    WF N (forUp (WORDS N) (fun i s => s.set i (op (s.getD i 0) (o.getD i 0))) a) :=
  forUp_preserves (WF N) _
    (fun i _ hs => WF_set hs i (hop _ _ (WF_getD hs i) (WF_getD ho i))) _ a ha

theorem bit_combine (op : Nat → Nat → Nat) (bop : Bool → Bool → Bool)
    (hop : ∀ x y c, (op x y).testBit c = bop (x.testBit c) (y.testBit c))
    (hb : bop false false = false)
    (N : Nat) (a o : List Nat) (hl : a.length = WORDS N) (hlo : o.length = WORDS N) (p : Nat) :
    bit (forUp (WORDS N) (fun i s => s.set i (op (s.getD i 0) (o.getD i 0))) a) p =
      bop (bit a p) (bit o p) := by
  unfold bit
  rw [getD_combine op N a o hl]
  by_cases h : p / 64 < WORDS N
  · rw [if_pos h, hop]
  · rw [if_neg h, getD_of_le a (by omega), getD_of_le o (by omega)]
    simp [hb]

theorem getD_shlWord (N : Nat) (a : List Nat) (hl : a.length = WORDS N) (w j : Nat) :
    (forDown (WORDS N) (shlWordBody w) a).getD j 0 =
      if j < WORDS N then (if j ≥ w then a.getD (j - w) 0 else 0) else a.getD j 0 := by
  apply forDown_getD (fun i s => if i ≥ w then s.getD (i - w) 0 else 0)
  · intro _ _; rfl
  · intro i s s' h
    show (if i ≥ w then s.getD (i - w) 0 else 0) = (if i ≥ w then s'.getD (i - w) 0 else 0)
    rw [h (i - w) (Nat.sub_le _ _)]
  · omega

theorem getD_shlBit (N : Nat) (a : List Nat) (hl : a.length = WORDS N) (w b j : Nat) :
    (forDown (WORDS N) (shlBitBody w b) a).getD j 0 =
      if j < WORDS N then
        ((if j ≥ w then shl64 (a.getD (j - w) 0) b else 0) |||
          (if j ≥ w + 1 then a.getD (j - w - 1) 0 >>> (WORD_SIZE - b) else 0))
      else a.getD j 0 := by
  apply forDown_getD (fun i s => (if i ≥ w then shl64 (s.getD (i - w) 0) b else 0) |||
          (if i ≥ w + 1 then s.getD (i - w - 1) 0 >>> (WORD_SIZE - b) else 0))
  · intro _ _; rfl
  · intro i s s' h
    show ((if i ≥ w then shl64 (s.getD (i - w) 0) b else 0) |||
          (if i ≥ w + 1 then s.getD (i - w - 1) 0 >>> (WORD_SIZE - b) else 0)) =
        ((if i ≥ w then shl64 (s'.getD (i - w) 0) b else 0) |||
          (if i ≥ w + 1 then s'.getD (i - w - 1) 0 >>> (WORD_SIZE - b) else 0))
    rw [h (i - w) (Nat.sub_le _ _), h (i - w - 1) (by omega)]
  · omega

theorem bit_shlWord {N : Nat} {a : List Nat} (hl : a.length = WORDS N) {k : Nat}
    (hk : k % 64 = 0) {p : Nat} (hp : p < 64 * WORDS N) :
    bit (forDown (WORDS N) (shlWordBody (k / 64)) a) p = (decide (k ≤ p) && bit a (p - k)) := by
  unfold bit
  rw [getD_shlWord N a hl, if_pos (by omega)]
  by_cases h : k ≤ p
  · rw [if_pos (by omega), show (p - k) / 64 = p / 64 - k / 64 by omega,
      show (p - k) % 64 = p % 64 by omega]
    simp [h]
  · rw [if_neg (by omega)]
    simp [h]

theorem bit_shlBit {N : Nat} {a : List Nat} (ha : WF N a) {k : Nat}
    {p : Nat} (hp : p < 64 * WORDS N) :
    bit (forDown (WORDS N) (shlBitBody (k / 64) (k % 64)) a) p =
      (decide (k ≤ p) && bit a (p - k)) := by
  unfold bit
  rw [getD_shlBit N a ha.1, if_pos (by omega), Nat.testBit_or, WORD_SIZE_eq]
  by_cases hc : k % 64 ≤ p % 64
  · -- the bit comes from the `big` part
    have hs : (if p / 64 ≥ k / 64 + 1 then a.getD (p / 64 - k / 64 - 1) 0 >>> (64 - k % 64)
        else 0).testBit (p % 64) = false := by
      split
      · rw [Nat.testBit_shiftRight]
        exact testBit_high (WF_getD ha _) (by omega)
      · exact Nat.zero_testBit _
    rw [hs, Bool.or_false]
    by_cases h : k ≤ p
    · rw [if_pos (by omega), testBit_shl64, show (p - k) / 64 = p / 64 - k / 64 by omega,
        show (p - k) % 64 = p % 64 - k % 64 by omega]
      simp [h, hc, Nat.mod_lt]
    · rw [if_neg (by omega)]
      simp [h]
  · -- the bit comes from the `sml` part
    have hb : (if p / 64 ≥ k / 64 then shl64 (a.getD (p / 64 - k / 64) 0) (k % 64)
        else 0).testBit (p % 64) = false := by
      split
      · rw [testBit_shl64]
        simp [hc]
      · exact Nat.zero_testBit _
    rw [hb, Bool.false_or]
    by_cases h : k ≤ p
    · rw [if_pos (by omega), Nat.testBit_shiftRight,
        show (p - k) / 64 = p / 64 - k / 64 - 1 by omega,
        show (p - k) % 64 = 64 - k % 64 + p % 64 by omega]
      simp [h]
    · rw [if_neg (by omega)]
      simp [h]

theorem bit_fill_zero (a : List Nat) (p : Nat) : bit (fill a 0) p = false := by
  unfold bit fill
  have : (List.replicate a.length 0).getD (p / 64) 0 = 0 := by
    rw [List.getD_eq_getElem?_getD]
    by_cases h : p / 64 < a.length
    · simp [h]
    · simp [h]
  rw [this]
  exact Nat.zero_testBit _

/-- Every raw bit after `operator<<=(k)`. -/
theorem bit_operator_shl_assign {N : Nat} {a : List Nat} (ha : WF N a) (k p : Nat) :
    bit (operator_shl_assign N a k) p =
      (decide (p < N) && (decide (k ≤ p) && bit a (p - k))) := by
  unfold operator_shl_assign
  have hW := WORDS_eq N
  by_cases hk : k ≥ N
  · rw [if_pos hk, reset, bit_fill_zero]
    by_cases hp : p < N
    · simp [show ¬ k ≤ p by omega]
    · simp [hp]
  · rw [if_neg hk, shr_pow2, and_full_mask]
    simp only []
    by_cases hp : p < N
    · by_cases hb : k % 64 = 0
      · rw [if_pos hb, bit_fix_last _ _ (by rw [forDown_length _ (fun i s => by
            rw [shlWordBody, List.length_set])]; exact ha.1),
          bit_shlWord ha.1 hb (by omega)]
      · rw [if_neg hb, bit_fix_last _ _ (by rw [forDown_length _ (fun i s => by
            rw [shlBitBody, List.length_set])]; exact ha.1),
          bit_shlBit ha (by omega)]
    · have : ∀ s : List Nat, s.length = WORDS N → bit (fix_last N s) p =
          (decide (p < N) && (decide (k ≤ p) && bit a (p - k))) := by
        intro s hs
        rw [bit_fix_last N s hs]
        simp [hp]
      split
      · exact this _ (by rw [forDown_length _ (fun i s => by
            rw [shlWordBody, List.length_set])]; exact ha.1)
      · exact this _ (by rw [forDown_length _ (fun i s => by
            rw [shlBitBody, List.length_set])]; exact ha.1)

theorem WF_reset {N : Nat} {a : List Nat} (ha : WF N a) : WF N (reset a) :=
  WF_fill ha (by decide)

theorem WF_set_all {N : Nat} {a : List Nat} (ha : WF N a) : WF N (set_all N a) :=
  WF_fix_last (WF_fill ha (by decide))

theorem WF_flip_all {N : Nat} {a : List Nat} (ha : WF N a) : WF N (flip_all N a) :=
  WF_fix_last (forUp_preserves (WF N) _
    (fun i _ hs => WF_set hs i (not64_lt (WF_getD hs i))) _ a ha)

theorem WF_shlWordBody {N : Nat} (w i : Nat) {s : List Nat} (hs : WF N s) :
    WF N (shlWordBody w i s) := by
  apply WF_set hs
  split
  · exact WF_getD hs _
  · decide

theorem shiftRight_lt {x : Nat} (hx : x < 2 ^ 64) (c : Nat) : x >>> c < 2 ^ 64 :=
  Nat.lt_of_le_of_lt (by rw [Nat.shiftRight_eq_div_pow]; exact Nat.div_le_self _ _) hx

theorem WF_shlBitBody {N : Nat} (w b i : Nat) {s : List Nat} (hs : WF N s) :
    WF N (shlBitBody w b i s) := by
  apply WF_set hs
  apply Nat.or_lt_two_pow
  · split
    · exact shl64_lt _ _
    · decide
  · split
    · exact shiftRight_lt (WF_getD hs _) _
    · decide

theorem WF_shrWordBody {N : Nat} (w i : Nat) {s : List Nat} (hs : WF N s) :
    WF N (shrWordBody N w i s) := by
  apply WF_set hs
  split
  · exact WF_getD hs _
  · decide

theorem WF_shrBitBody {N : Nat} (w b i : Nat) {s : List Nat} (hs : WF N s) :
    WF N (shrBitBody N w b i s) := by
  apply WF_set hs
  apply Nat.or_lt_two_pow
  · split
    · exact shiftRight_lt (WF_getD hs _) _
    · decide
  · split
    · exact shl64_lt _ _
    · decide

theorem WF_operator_shl_assign {N : Nat} {a : List Nat} (ha : WF N a) (k : Nat) :
    WF N (operator_shl_assign N a k) := by
  unfold operator_shl_assign
  split
  · exact WF_reset ha
  · simp only []
    split
    · exact WF_fix_last (forDown_preserves (WF N) _ (fun i _ hs => WF_shlWordBody _ i hs) _ a ha)
    · exact WF_fix_last (forDown_preserves (WF N) _ (fun i _ hs => WF_shlBitBody _ _ i hs) _ a ha)

theorem WF_operator_shr_assign {N : Nat} {a : List Nat} (ha : WF N a) (k : Nat) :
    WF N (operator_shr_assign N a k) := by
  unfold operator_shr_assign
  split
  · exact WF_reset ha
  · simp only []
    split
    · exact WF_fix_last (forUp_preserves (WF N) _ (fun i _ hs => WF_shrWordBody _ i hs) _ a ha)
    · exact WF_fix_last (forDown_preserves (WF N) _ (fun i _ hs => WF_shrBitBody _ _ i hs) _ a ha)

theorem tailInv_reset (N : Nat) (a : List Nat) : TailInv N (reset a) :=
  tailInv_of_bit fun p _ => bit_fill_zero a p

theorem tailInv_init (N : Nat) : TailInv N (init N) := by
  have : init N = fill (init N) 0 := by simp [init, fill]
  rw [this]
  exact tailInv_reset N _

theorem tailInv_operator_shl_assign {N : Nat} {a : List Nat} (ha : WF N a) (k : Nat) :
    TailInv N (operator_shl_assign N a k) :=
  tailInv_of_bit fun p hp => by
    rw [bit_operator_shl_assign ha, decide_eq_false (by omega)]; rfl

theorem tailInv_operator_shr_assign {N : Nat} {a : List Nat} (ha : WF N a) (k : Nat) :
    TailInv N (operator_shr_assign N a k) := by
  unfold operator_shr_assign
  split
  · exact tailInv_reset N a
  · simp only []
    split
    · exact tailInv_fix_last N _
        (forUp_preserves (WF N) _ (fun i _ hs => WF_shrWordBody _ i hs) _ a ha).1
    · exact tailInv_fix_last N _
        (forDown_preserves (WF N) _ (fun i _ hs => WF_shrBitBody _ _ i hs) _ a ha).1

theorem tailInv_set_bit {N : Nat} {a : List Nat} (ha : WF N a) (ht : TailInv N a)
    {i : Nat} (hi : i < N) (v : Bool) :
    TailInv N (a.set (i / 64)
      (if v then a.getD (i / 64) 0 ||| 2 ^ (i % 64)
        else a.getD (i / 64) 0 &&& not64 (2 ^ (i % 64)))) :=
  tailInv_of_bit fun p hp => by
    rw [bit_set ha.1 hi, if_neg (by omega)]
    exact bit_of_ge ha.1 ht hp

theorem tailInv_flip_bit {N : Nat} {a : List Nat} (ha : WF N a) (ht : TailInv N a)
    {i : Nat} (hi : i < N) :
    TailInv N (a.set (i / 64) (a.getD (i / 64) 0 ^^^ 2 ^ (i % 64))) :=
  tailInv_of_bit fun p hp => by
    rw [bit_flip ha.1 hi, if_neg (by omega)]
    exact bit_of_ge ha.1 ht hp

theorem tailInv_combine (op : Nat → Nat → Nat) (bop : Bool → Bool → Bool)
    (hop : ∀ x y c, (op x y).testBit c = bop (x.testBit c) (y.testBit c))
    (hb : bop false false = false)
    {N : Nat} {a o : List Nat} (ha : WF N a) (ht : TailInv N a) (ho : WF N o)
    (hto : TailInv N o) :
    TailInv N (forUp (WORDS N) (fun i s => s.set i (op (s.getD i 0) (o.getD i 0))) a) :=
  tailInv_of_bit fun p hp => by
    rw [bit_combine op bop hop hb N a o ha.1 ho.1, bit_of_ge ha.1 ht hp,
      bit_of_ge ho.1 hto hp, hb]

/-- Two well-typed arrays with the same raw bits are the same array. -/
theorem ext_bit {N : Nat} {a a' : List Nat} (ha : WF N a) (ha' : WF N a')
    (h : ∀ p, bit a p = bit a' p) : a = a' := by
  apply ext_getD (by rw [ha.1, ha'.1])
  intro j _
  apply Nat.eq_of_testBit_eq
  intro c
  by_cases hc : c < 64
  · have := h (64 * j + c)
    unfold bit at this
    rwa [show (64 * j + c) / 64 = j by omega, show (64 * j + c) % 64 = c by omega] at this
  · rw [testBit_high (WF_getD ha j) (by omega), testBit_high (WF_getD ha' j) (by omega)]

theorem tailInv_set_all (N : Nat) {a : List Nat} (ha : WF N a) : TailInv N (set_all N a) :=
  tailInv_fix_last N _ (WF_fill ha (show ALL_ONES < 2 ^ 64 by decide)).1

theorem tailInv_flip_all (N : Nat) {a : List Nat} (ha : WF N a) : TailInv N (flip_all N a) :=
  tailInv_fix_last N _ (forUp_preserves (WF N) _
    (fun i _ hs => WF_set hs i (not64_lt (WF_getD hs i))) _ a ha).1

theorem and_lt64 (x y : Nat) (_ : x < 2 ^ 64) (hy : y < 2 ^ 64) : x &&& y < 2 ^ 64 :=
  Nat.and_lt_two_pow x hy

theorem or_lt64 (x y : Nat) (hx : x < 2 ^ 64) (hy : y < 2 ^ 64) : x ||| y < 2 ^ 64 :=
  Nat.or_lt_two_pow hx hy

theorem xor_lt64 (x y : Nat) (hx : x < 2 ^ 64) (hy : y < 2 ^ 64) : x ^^^ y < 2 ^ 64 :=
  Nat.xor_lt_two_pow hx hy

/-- Every mutating operation maps well-typed, tail-masked states to such states. -/
theorem preserved_by_operations {N : Nat} {a : List Nat} (ha : WF N a) (ht : TailInv N a) :
    (WF N (reset a) ∧ TailInv N (reset a)) ∧
    (WF N (set_all N a) ∧ TailInv N (set_all N a)) ∧
    (∀ i v, i < N → ∃ a', set N a i v = some a' ∧ WF N a' ∧ TailInv N a') ∧
    (∀ i, i < N → ∃ a', flip N a i = some a' ∧ WF N a' ∧ TailInv N a') ∧
    (WF N (flip_all N a) ∧ TailInv N (flip_all N a)) ∧
    (∀ o, WF N o → TailInv N o →
      (WF N (operator_and_assign N a o) ∧ TailInv N (operator_and_assign N a o)) ∧
      (WF N (operator_or_assign N a o) ∧ TailInv N (operator_or_assign N a o)) ∧
      (WF N (operator_xor_assign N a o) ∧ TailInv N (operator_xor_assign N a o))) ∧
    (∀ k, WF N (operator_shl_assign N a k) ∧ TailInv N (operator_shl_assign N a k)) ∧
    (∀ k, WF N (operator_shr_assign N a k) ∧ TailInv N (operator_shr_assign N a k)) := by
  refine ⟨⟨WF_reset ha, tailInv_reset N a⟩, ⟨WF_set_all ha, tailInv_set_all N ha⟩,
    ?_, ?_, ⟨WF_flip_all ha, tailInv_flip_all N ha⟩, ?_, ?_, ?_⟩
  · intro i v hi
    exact ⟨_, set_eq a hi v, WF_set_bit ha i v, tailInv_set_bit ha ht hi v⟩
  · intro i hi
    exact ⟨_, flip_eq a hi, WF_flip_bit ha i, tailInv_flip_bit ha ht hi⟩
  · intro o ho hto
    exact ⟨⟨WF_combine _ and_lt64 ha ho,
        tailInv_combine _ _ Nat.testBit_and rfl ha ht ho hto⟩,
      ⟨WF_combine _ or_lt64 ha ho,
        tailInv_combine _ _ Nat.testBit_or rfl ha ht ho hto⟩,
      ⟨WF_combine _ xor_lt64 ha ho,
        tailInv_combine _ _ Nat.testBit_xor rfl ha ht ho hto⟩⟩
  · intro k
    exact ⟨WF_operator_shl_assign ha k, tailInv_operator_shl_assign ha k⟩
  · intro k
    exact ⟨WF_operator_shr_assign ha k, tailInv_operator_shr_assign ha k⟩

theorem reachable_inv {N : Nat} {a : List Nat} (h : Reachable N a) : WF N a ∧ TailInv N a := by
  induction h with
  | init => exact ⟨WF_init N, tailInv_init N⟩
  | reset _ ih => exact (preserved_by_operations ih.1 ih.2).1
  | set_all _ ih => exact (preserved_by_operations ih.1 ih.2).2.1
  | set i v _ hs ih =>
    have hi : i < N := by
      by_contra hc
      simp [set, hc] at hs
    obtain ⟨a', h1, h2⟩ := (preserved_by_operations ih.1 ih.2).2.2.1 i v hi
    rw [hs] at h1
    cases h1
    exact h2
  | flip i _ hs ih =>
    have hi : i < N := by
      by_contra hc
      simp [flip, hc] at hs
    obtain ⟨a', h1, h2⟩ := (preserved_by_operations ih.1 ih.2).2.2.2.1 i hi
    rw [hs] at h1
    cases h1
    exact h2
  | flip_all _ ih => exact (preserved_by_operations ih.1 ih.2).2.2.2.2.1
  | and_assign _ _ ih iho =>
    exact ((preserved_by_operations ih.1 ih.2).2.2.2.2.2.1 _ iho.1 iho.2).1
  | or_assign _ _ ih iho =>
    exact ((preserved_by_operations ih.1 ih.2).2.2.2.2.2.1 _ iho.1 iho.2).2.1
  | xor_assign _ _ ih iho =>
    exact ((preserved_by_operations ih.1 ih.2).2.2.2.2.2.1 _ iho.1 iho.2).2.2
  | shl_assign k _ ih => exact (preserved_by_operations ih.1 ih.2).2.2.2.2.2.2.1 k
  | shr_assign k _ ih => exact (preserved_by_operations ih.1 ih.2).2.2.2.2.2.2.2 k

/-- C1 (tail-masking invariant): the zero-initialised vector is well-typed and
tail-masked; `reset()`, `set()`, `set(i, v)` and `flip(i)` for `i < N`, `flip()`,
`operator&=`, `operator|=`, `operator^=` with a tail-masked operand, and
`operator<<=(k)`, `operator>>=(k)` for every `k` keep a well-typed, tail-masked state
well-typed and tail-masked; hence every reachable state is tail-masked and its raw
words hold no 1 bit at a logical position `≥ N`. -/
theorem tail_masking_invariant (N : Nat) :
    (WF N (init N) ∧ TailInv N (init N)) ∧
    (∀ a, WF N a → TailInv N a →
      (WF N (reset a) ∧ TailInv N (reset a)) ∧
      (WF N (set_all N a) ∧ TailInv N (set_all N a)) ∧
      (∀ i v, i < N → ∃ a', set N a i v = some a' ∧ WF N a' ∧ TailInv N a') ∧
      (∀ i, i < N → ∃ a', flip N a i = some a' ∧ WF N a' ∧ TailInv N a') ∧
      (WF N (flip_all N a) ∧ TailInv N (flip_all N a)) ∧
      (∀ o, WF N o → TailInv N o →
        (WF N (operator_and_assign N a o) ∧ TailInv N (operator_and_assign N a o)) ∧
        (WF N (operator_or_assign N a o) ∧ TailInv N (operator_or_assign N a o)) ∧
        (WF N (operator_xor_assign N a o) ∧ TailInv N (operator_xor_assign N a o))) ∧
      (∀ k, WF N (operator_shl_assign N a k) ∧ TailInv N (operator_shl_assign N a k)) ∧
      (∀ k, WF N (operator_shr_assign N a k) ∧ TailInv N (operator_shr_assign N a k))) ∧
    (∀ a, Reachable N a → WF N a ∧ TailInv N a ∧ ∀ p, N ≤ p → bit a p = false) :=
  ⟨⟨WF_init N, tailInv_init N⟩, fun _ ha ht => preserved_by_operations ha ht,
    fun _ h => ⟨(reachable_inv h).1, (reachable_inv h).2,
      fun _ hp => bit_of_ge (reachable_inv h).1.1 (reachable_inv h).2 hp⟩⟩

/-- C3 (left shift): on a well-typed state, after `operator<<=(k)` the bit `j < N` is
set iff `j ≥ k` and bit `j - k` was set before; no raw bit at a position `≥ N` is set;
and for `k ≥ N` the result is the all-zero vector. -/
theorem shl_assign_logical (N : Nat) (a : List Nat) (k : Nat) (ha : WF N a) :
    (∀ j, j < N →
      (test N (operator_shl_assign N a k) j = some true ↔
        k ≤ j ∧ test N a (j - k) = some true)) ∧
    (∀ p, N ≤ p → bit (operator_shl_assign N a k) p = false) ∧
    (N ≤ k → operator_shl_assign N a k = init N) := by
  refine ⟨?_, ?_, ?_⟩
  · intro j hj
    rw [test_eq_some_true _ hj, test_eq_some_true _ (by omega), bit_operator_shl_assign ha]
    simp [hj]
  · intro p hp
    rw [bit_operator_shl_assign ha, decide_eq_false (by omega)]; rfl
  · intro hk
    unfold operator_shl_assign
    rw [if_pos hk, reset, fill, init, ha.1]

theorem shl_assign_logical_witness :
    WF 10 [7] ∧ operator_shl_assign 10 [7] 8 = [768] ∧
      (test 10 (operator_shl_assign 10 [7] 8) 9 = some true ↔
        8 ≤ 9 ∧ test 10 [7] (9 - 8) = some true) :=
  ⟨by decide, by decide, (shl_assign_logical 10 [7] 8 (by decide)).1 9 (by decide)⟩

/-- Two successive left shifts leave the word sequence of the single shift by the sum. -/
theorem operator_shl_assign_twice {N : Nat} {a : List Nat} (ha : WF N a) (x y : Nat) :
    operator_shl_assign N (operator_shl_assign N a x) y = operator_shl_assign N a (x + y) := by
  apply ext_bit (WF_operator_shl_assign (WF_operator_shl_assign ha x) y)
    (WF_operator_shl_assign ha (x + y))
  intro p
  rw [bit_operator_shl_assign (WF_operator_shl_assign ha x), bit_operator_shl_assign ha,
    bit_operator_shl_assign ha]
  by_cases hp : p < N
  · by_cases h : x + y ≤ p
    · simp [hp, h, show y ≤ p by omega, show x ≤ p - y by omega, show p - y < N by omega,
        show p - y - x = p - (x + y) by omega]
    · by_cases hy : y ≤ p
      · simp [h, hy, show ¬ x ≤ p - y by omega]
      · simp [h, hy]
  · simp [hp]

/-- A left shift by at least `N` takes the `reset()` branch and leaves `WORDS` zero words. -/
theorem operator_shl_assign_of_ge {N : Nat} {a : List Nat} (ha : WF N a) {k : Nat}
    (hk : N ≤ k) : operator_shl_assign N a k = List.replicate (WORDS N) 0 := by
  unfold operator_shl_assign
  rw [if_pos hk, reset, fill, ha.1]

/-- C5 (left-shift composition): on a well-typed state, `operator<<=(x)` followed by
`operator<<=(y)` leaves exactly the word sequence of a single `operator<<=(x + y)`; and when
`x + y ≥ N` both sides are the all-zero array of `WORDS` words. -/
theorem shl_assign_compose (N : Nat) (a : List Nat) (x y : Nat) (ha : WF N a) :
    operator_shl_assign N (operator_shl_assign N a x) y = operator_shl_assign N a (x + y) ∧
      (N ≤ x + y →
        operator_shl_assign N (operator_shl_assign N a x) y = List.replicate (WORDS N) 0 ∧
          operator_shl_assign N a (x + y) = List.replicate (WORDS N) 0) := by
  refine ⟨operator_shl_assign_twice ha x y, fun h => ⟨?_, operator_shl_assign_of_ge ha h⟩⟩
  rw [operator_shl_assign_twice ha x y]
  exact operator_shl_assign_of_ge ha h

theorem shl_assign_compose_witness :
    WF 130 [5, 2 ^ 63 + 1, 3] ∧
      operator_shl_assign 130 [5, 2 ^ 63 + 1, 3] 3 = [40, 8, 0] ∧
      operator_shl_assign 130 [40, 8, 0] 70 = [0, 2560, 0] ∧
      operator_shl_assign 130 [5, 2 ^ 63 + 1, 3] (3 + 70) = [0, 2560, 0] ∧
      operator_shl_assign 130 (operator_shl_assign 130 [5, 2 ^ 63 + 1, 3] 3) 70 =
        operator_shl_assign 130 [5, 2 ^ 63 + 1, 3] (3 + 70) ∧
      130 ≤ 100 + 40 ∧
      operator_shl_assign 130 (operator_shl_assign 130 [5, 2 ^ 63 + 1, 3] 100) 40 = [0, 0, 0] ∧
      operator_shl_assign 130 [5, 2 ^ 63 + 1, 3] (100 + 40) = [0, 0, 0] :=
  ⟨by decide, by decide, by decide, by decide,
    (shl_assign_compose 130 [5, 2 ^ 63 + 1, 3] 3 70 (by decide)).1, by decide,
    (shl_assign_compose 130 [5, 2 ^ 63 + 1, 3] 100 40 (by decide)).2 (by decide)⟩

theorem ctzAux_spec (f : Nat) : ∀ x : Nat, (∃ c, c < f ∧ x.testBit c = true) →
    x.testBit (ctzAux f x) = true ∧ ∀ c, c < ctzAux f x → x.testBit c = false := by
  induction f with
  | zero => intro x ⟨c, hc, _⟩; omega
  | succ f ih =>
    intro x ⟨c, hc, hbit⟩
    rw [ctzAux]
    by_cases h : x % 2 = 1
    · rw [if_pos h]
      exact ⟨by rw [Nat.testBit_zero]; exact decide_eq_true h, fun c hc => by omega⟩
    · rw [if_neg h]
      have h0 : x.testBit 0 = false := by rw [Nat.testBit_zero]; exact decide_eq_false h
      cases c with
      | zero => rw [h0] at hbit; cases hbit
      | succ c' =>
        rw [Nat.testBit_succ] at hbit
        obtain ⟨h1, h2⟩ := ih (x / 2) ⟨c', by omega, hbit⟩
        refine ⟨by rw [Nat.add_comm, Nat.testBit_succ]; exact h1, ?_⟩
        intro d hd
        cases d with
        | zero => exact h0
        | succ d' => rw [Nat.testBit_succ]; exact h2 d' (by omega)

theorem exists_bit_of_ne_zero {x : Nat} (hx : x ≠ 0) (hlt : x < 2 ^ 64) :
    ∃ c, c < 64 ∧ x.testBit c = true := by
  obtain ⟨c, hc⟩ := Nat.ne_zero_implies_bit_true hx
  refine ⟨c, ?_, hc⟩
  by_contra h
  rw [testBit_high hlt (by omega)] at hc
  cases hc

/-- On a non-zero word, `ctz` is the position of the lowest set bit. -/
theorem ctz_spec {x : Nat} (hx : x ≠ 0) (hlt : x < 2 ^ 64) :
    ctz x < 64 ∧ x.testBit (ctz x) = true ∧ ∀ c, c < ctz x → x.testBit c = false := by
  obtain ⟨h1, h2⟩ := ctzAux_spec 64 x (exists_bit_of_ne_zero hx hlt)
  refine ⟨?_, h1, h2⟩
  by_contra h
  have := testBit_high hlt (show 64 ≤ ctz x by omega)
  rw [ctz, h1] at this
  cases this

theorem bitLenAux_le (f : Nat) : ∀ x : Nat, bitLenAux f x ≤ f := by
  induction f with
  | zero => intro x; simp [bitLenAux]
  | succ f ih =>
    intro x
    rw [bitLenAux]
    split
    · omega
    · have := ih (x / 2); omega

theorem bitLenAux_spec (f : Nat) : ∀ x : Nat, x < 2 ^ f →
    (x ≠ 0 → 1 ≤ bitLenAux f x ∧ x.testBit (bitLenAux f x - 1) = true) ∧
      ∀ c, bitLenAux f x ≤ c → x.testBit c = false := by
  induction f with
  | zero =>
    intro x hx
    have : x = 0 := by simpa using hx
    subst this
    exact ⟨fun h => absurd rfl h, fun c _ => Nat.zero_testBit c⟩
  | succ f ih =>
    intro x hx
    rw [bitLenAux]
    by_cases h0 : x = 0
    · subst h0
      exact ⟨fun h => absurd rfl h, fun c _ => Nat.zero_testBit c⟩
    · rw [if_neg h0]
      have hx2 : x / 2 < 2 ^ f := by
        rw [Nat.pow_succ] at hx; omega
      obtain ⟨h1, h2⟩ := ih (x / 2) hx2
      refine ⟨fun _ => ⟨by omega, ?_⟩, ?_⟩
      · by_cases h20 : x / 2 = 0
        · have hb : bitLenAux f (x / 2) = 0 := by
            rw [h20]; cases f <;> simp [bitLenAux]
          rw [hb]
          have : x = 1 := by omega
          subst this
          decide
        · obtain ⟨h3, h4⟩ := h1 h20
          rw [show 1 + bitLenAux f (x / 2) - 1 = (bitLenAux f (x / 2) - 1) + 1 by omega,
            Nat.testBit_succ]
          exact h4
      · intro c hc
        cases c with
        | zero => omega
        | succ c' => rw [Nat.testBit_succ]; exact h2 c' (by omega)

/-- On a non-zero word, `FULL_MASK - clz` is the position of the highest set bit. -/
theorem clz_spec {x : Nat} (hx : x ≠ 0) (hlt : x < 2 ^ 64) :
    FULL_MASK - clz x < 64 ∧ x.testBit (FULL_MASK - clz x) = true ∧
      ∀ c, FULL_MASK - clz x < c → x.testBit c = false := by
  obtain ⟨h1, h2⟩ := bitLenAux_spec 64 x hlt
  obtain ⟨h3, h4⟩ := h1 hx
  have hle := bitLenAux_le 64 x
  have he : FULL_MASK - clz x = bitLenAux 64 x - 1 := by
    rw [FULL_MASK_eq, clz]; omega
  rw [he]
  exact ⟨by omega, h4, fun c hc => h2 c (by omega)⟩

theorem bit_word_zero {a : List Nat} {w : Nat} (h : a.getD w 0 = 0) {j : Nat}
    (hj : j / 64 = w) : bit a j = false := by
  unfold bit
  rw [hj, h]
  exact Nat.zero_testBit _

theorem lt_of_bit {N : Nat} {a : List Nat} (hl : a.length = WORDS N) (ht : TailInv N a)
    {p : Nat} (hp : bit a p = true) : p < N := by
  by_contra h
  rw [bit_of_ge hl ht (by omega)] at hp
  cases hp

/-- The upward word scan started at word `w` finds the lowest set bit at or after
position `64 * w`. -/
theorem scanUp_spec {N : Nat} {a : List Nat} (ha : WF N a) (ht : TailInv N a) :
    ∀ n w, w + n = WORDS N → IsFirstFrom N a (64 * w) (scanUp N a n w) := by
  have hW := WORDS_eq N
  intro n
  induction n with
  | zero =>
    intro w hw
    exact Or.inr ⟨rfl, fun j h1 h2 => by omega⟩
  | succ n ih =>
    intro w hw
    rw [scanUp]
    by_cases hz : a.getD w 0 ≠ 0
    · rw [if_pos hz, shl_pow2]
      obtain ⟨h1, h2, h3⟩ := ctz_spec hz (WF_getD ha w)
      have hb : bit a (64 * w + ctz (a.getD w 0)) = true := by
        unfold bit
        rwa [show (64 * w + ctz (a.getD w 0)) / 64 = w by omega,
          show (64 * w + ctz (a.getD w 0)) % 64 = ctz (a.getD w 0) by omega]
      refine Or.inl ⟨lt_of_bit ha.1 ht hb, by omega, hb, ?_⟩
      intro j hj1 hj2
      unfold bit
      rw [show j / 64 = w by omega]
      exact h3 _ (by omega)
    · rw [if_neg hz]
      have hz' : a.getD w 0 = 0 := by simpa using hz
      rcases ih (w + 1) (by omega) with ⟨h1, h2, h3, h4⟩ | ⟨h1, h2⟩
      · refine Or.inl ⟨h1, by omega, h3, ?_⟩
        intro j hj1 hj2
        by_cases hj : j / 64 = w
        · exact bit_word_zero hz' hj
        · exact h4 j (by omega) hj2
      · refine Or.inr ⟨h1, ?_⟩
        intro j hj1 hj2
        by_cases hj : j / 64 = w
        · exact bit_word_zero hz' hj
        · exact h2 j (by omega) hj2

/-- The downward word scan below word `w` finds the highest set bit below
position `64 * w`. -/
theorem scanDown_spec {N : Nat} {a : List Nat} (ha : WF N a) :
    ∀ w, IsLastBelow N a (64 * w) (scanDown N a w) := by
  intro w
  induction w with
  | zero => exact Or.inr ⟨rfl, fun j h => by omega⟩
  | succ w ih =>
    rw [scanDown]
    by_cases hz : a.getD w 0 ≠ 0
    · rw [if_pos hz, shl_pow2]
      obtain ⟨h1, h2, h3⟩ := clz_spec hz (WF_getD ha w)
      refine Or.inl ⟨by omega, ?_, ?_⟩
      · unfold bit
        rwa [show (64 * w + (FULL_MASK - clz (a.getD w 0))) / 64 = w by omega,
          show (64 * w + (FULL_MASK - clz (a.getD w 0))) % 64 =
            FULL_MASK - clz (a.getD w 0) by omega]
      · intro j hj1 hj2
        unfold bit
        rw [show j / 64 = w by omega]
        exact h3 _ (by omega)
    · rw [if_neg hz]
      have hz' : a.getD w 0 = 0 := by simpa using hz
      rcases ih with ⟨h1, h3, h4⟩ | ⟨h1, h2⟩
      · refine Or.inl ⟨by omega, h3, ?_⟩
        intro j hj1 hj2
        by_cases hj : j / 64 = w
        · exact bit_word_zero hz' hj
        · exact h4 j hj1 (by omega)
      · refine Or.inr ⟨h1, ?_⟩
        intro j hj1
        by_cases hj : j / 64 = w
        · exact bit_word_zero hz' hj
        · exact h2 j (by omega)

theorem find_first_spec {N : Nat} {a : List Nat} (ha : WF N a) (ht : TailInv N a) :
    IsFirstFrom N a 0 (find_first N a) :=
  scanUp_spec ha ht (WORDS N) 0 (by omega)

theorem testBit_high_mask {b c : Nat} (hc : c < 64) :
    (shl64 ALL_ONES b).testBit c = decide (b ≤ c) := by
  rw [testBit_shl64, testBit_ALL_ONES]
  by_cases h : b ≤ c
  · simp [hc, h]; omega
  · simp [h]

/-- The call `find_next(i)` finds the lowest set bit at or after the incremented index. -/
theorem find_next_spec {N : Nat} {a : List Nat} (ha : WF N a) (ht : TailInv N a)
    (i : Nat) : IsFirstFrom N a ((i + 1) % 2 ^ 64) (find_next N a i) := by
  have hW := WORDS_eq N
  unfold find_next
  generalize (i + 1) % 2 ^ 64 = s
  simp only []
  by_cases hN : s ≥ N
  · rw [if_pos hN]
    exact Or.inr ⟨rfl, fun j h1 h2 => by omega⟩
  · rw [if_neg hN, shr_pow2, and_full_mask, shl_pow2]
    have hxlt : a.getD (s / 64) 0 &&& shl64 ALL_ONES (s % 64) < 2 ^ 64 :=
      Nat.and_lt_two_pow _ (shl64_lt _ _)
    have hxbit : ∀ c, c < 64 →
        (a.getD (s / 64) 0 &&& shl64 ALL_ONES (s % 64)).testBit c =
          ((a.getD (s / 64) 0).testBit c && decide (s % 64 ≤ c)) := by
      intro c hc
      rw [Nat.testBit_and, testBit_high_mask hc]
    by_cases hx : a.getD (s / 64) 0 &&& shl64 ALL_ONES (s % 64) ≠ 0
    · rw [if_pos hx]
      obtain ⟨h1, h2, h3⟩ := ctz_spec hx hxlt
      rw [hxbit _ h1, Bool.and_eq_true, decide_eq_true_eq] at h2
      have hb : bit a (64 * (s / 64) +
          ctz (a.getD (s / 64) 0 &&& shl64 ALL_ONES (s % 64))) = true := by
        unfold bit
        rw [show (64 * (s / 64) +
            ctz (a.getD (s / 64) 0 &&& shl64 ALL_ONES (s % 64))) / 64 =
              s / 64 by omega,
          show (64 * (s / 64) +
            ctz (a.getD (s / 64) 0 &&& shl64 ALL_ONES (s % 64))) % 64 =
              ctz (a.getD (s / 64) 0 &&& shl64 ALL_ONES (s % 64)) by omega]
        exact h2.1
      refine Or.inl ⟨lt_of_bit ha.1 ht hb, by omega, hb, ?_⟩
      intro j hj1 hj2
      have hj : j / 64 = s / 64 := by omega
      have := h3 (j % 64) (by omega)
      rw [hxbit _ (by omega), decide_eq_true (show s % 64 ≤ j % 64 by omega),
        Bool.and_true] at this
      unfold bit
      rwa [hj]
    · rw [if_neg hx]
      have hx' : a.getD (s / 64) 0 &&& shl64 ALL_ONES (s % 64) = 0 := by
        simpa using hx
      have hword : ∀ j, s ≤ j → j / 64 = s / 64 → bit a j = false := by
        intro j hj1 hj2
        have : (a.getD (s / 64) 0 &&& shl64 ALL_ONES (s % 64)).testBit (j % 64)
            = false := by rw [hx']; exact Nat.zero_testBit _
        rw [hxbit _ (by omega), decide_eq_true (show s % 64 ≤ j % 64 by omega),
          Bool.and_true] at this
        unfold bit
        rwa [hj2]
      rcases scanUp_spec ha ht (WORDS N - (s / 64 + 1)) (s / 64 + 1) (by omega)
        with ⟨h1, h2, h3, h4⟩ | ⟨h1, h2⟩
      · refine Or.inl ⟨h1, by omega, h3, ?_⟩
        intro j hj1 hj2
        by_cases hj : j / 64 = s / 64
        · exact hword j hj1 hj
        · exact h4 j (by omega) hj2
      · refine Or.inr ⟨h1, ?_⟩
        intro j hj1 hj2
        by_cases hj : j / 64 = s / 64
        · exact hword j hj1 hj
        · exact h2 j (by omega) hj2

theorem testBit_low_mask {b c : Nat} (hb : b < 64) (hc : c < 64) :
    (if b = FULL_MASK then ALL_ONES else shl64 1 (b + 1) - 1).testBit c = decide (c ≤ b) := by
  rw [FULL_MASK_eq]
  by_cases h : b = 63
  · rw [if_pos h, testBit_ALL_ONES]
    exact decide_eq_decide.mpr (by omega)
  · rw [if_neg h, shl64_one (by omega), Nat.testBit_two_pow_sub_one]
    exact decide_eq_decide.mpr (by omega)

theorem low_mask_lt (b : Nat) :
    (if b = FULL_MASK then ALL_ONES else shl64 1 (b + 1) - 1) < 2 ^ 64 := by
  split
  · decide
  · exact Nat.lt_of_le_of_lt (Nat.sub_le _ _) (shl64_lt _ _)

/-- The call `find_prev(i)` for `i ≥ 1` finds the highest set bit below `i`. -/
theorem find_prev_spec {N : Nat} {a : List Nat} (ha : WF N a) {i : Nat} (hi : i ≠ 0) :
    IsLastBelow N a i (find_prev N a i) := by
  unfold find_prev
  rw [if_neg hi]
  simp only []
  rw [shr_pow2, and_full_mask, shl_pow2]
  generalize hm : (if (i - 1) % 64 = FULL_MASK then ALL_ONES
    else shl64 1 ((i - 1) % 64 + 1) - 1) = m
  have hmbit : ∀ c, c < 64 → m.testBit c = decide (c ≤ (i - 1) % 64) := by
    intro c hc
    rw [← hm]
    exact testBit_low_mask (by omega) hc
  have hmlt : m < 2 ^ 64 := by rw [← hm]; exact low_mask_lt _
  have hxlt : a.getD ((i - 1) / 64) 0 &&& m < 2 ^ 64 := Nat.and_lt_two_pow _ hmlt
  have hxbit : ∀ c, c < 64 → (a.getD ((i - 1) / 64) 0 &&& m).testBit c =
      ((a.getD ((i - 1) / 64) 0).testBit c && decide (c ≤ (i - 1) % 64)) := by
    intro c hc
    rw [Nat.testBit_and, hmbit c hc]
  by_cases hx : a.getD ((i - 1) / 64) 0 &&& m ≠ 0
  · rw [if_pos hx]
    obtain ⟨h1, h2, h3⟩ := clz_spec hx hxlt
    generalize FULL_MASK - clz (a.getD ((i - 1) / 64) 0 &&& m) = t at h1 h2 h3
    rw [hxbit _ h1, Bool.and_eq_true, decide_eq_true_eq] at h2
    refine Or.inl ⟨by omega, ?_, ?_⟩
    · unfold bit
      rw [show (64 * ((i - 1) / 64) + t) / 64 = (i - 1) / 64 by omega,
        show (64 * ((i - 1) / 64) + t) % 64 = t by omega]
      exact h2.1
    · intro j hj1 hj2
      have hj : j / 64 = (i - 1) / 64 := by omega
      have := h3 (j % 64) (by omega)
      rw [hxbit _ (by omega), decide_eq_true (show j % 64 ≤ (i - 1) % 64 by omega),
        Bool.and_true] at this
      unfold bit
      rwa [hj]
  · rw [if_neg hx]
    have hx' : a.getD ((i - 1) / 64) 0 &&& m = 0 := by simpa using hx
    have hword : ∀ j, j < i → j / 64 = (i - 1) / 64 → bit a j = false := by
      intro j hj1 hj2
      have : (a.getD ((i - 1) / 64) 0 &&& m).testBit (j % 64) = false := by
        rw [hx']; exact Nat.zero_testBit _
      rw [hxbit _ (by omega), decide_eq_true (show j % 64 ≤ (i - 1) % 64 by omega),
        Bool.and_true] at this
      unfold bit
      rwa [hj2]
    rcases scanDown_spec ha ((i - 1) / 64) with ⟨h1, h3, h4⟩ | ⟨h1, h2⟩
    · refine Or.inl ⟨by omega, h3, ?_⟩
      intro j hj1 hj2
      by_cases hj : j / 64 = (i - 1) / 64
      · exact hword j hj2 hj
      · exact h4 j hj1 (by omega)
    · refine Or.inr ⟨h1, ?_⟩
      intro j hj1
      by_cases hj : j / 64 = (i - 1) / 64
      · exact hword j hj1 hj
      · exact h2 j (by omega)

theorem findLastLoop_spec {N : Nat} {a : List Nat} (ha : WF N a) :
    ∀ n, n ≤ WORDS N → IsLastBelow N a (min (64 * n) N) (findLastLoop N a n) := by
  have hW := WORDS_eq N
  intro n
  induction n with
  | zero => intro _; exact Or.inr ⟨rfl, fun j h => by omega⟩
  | succ n ih =>
    intro hn
    rw [findLastLoop, WORD_SIZE_eq, shl_pow2]
    generalize hxd : (if N % 64 ≠ 0 ∧ n = WORDS N - 1 then a.getD n 0 &&& LAST_MASK N
      else a.getD n 0) = x
    have hxlt : x < 2 ^ 64 := by
      rw [← hxd]
      split
      · exact Nat.and_lt_two_pow _ (LAST_MASK_lt N)
      · exact WF_getD ha n
    have hxbit : ∀ c, c < 64 →
        x.testBit c = ((a.getD n 0).testBit c && decide (64 * n + c < N)) := by
      intro c hc
      rw [← hxd]
      by_cases hm : N % 64 ≠ 0 ∧ n = WORDS N - 1
      · rw [if_pos hm, Nat.testBit_and, testBit_LAST_MASK hm.1]
        congr 1
        exact decide_eq_decide.mpr (by omega)
      · rw [if_neg hm]
        have : 64 * n + c < N := by
          by_cases h0 : N % 64 = 0
          · omega
          · have : n ≠ WORDS N - 1 := fun h => hm ⟨h0, h⟩
            omega
        simp [this]
    by_cases hx : x ≠ 0
    · rw [if_pos hx]
      obtain ⟨h1, h2, h3⟩ := clz_spec hx hxlt
      generalize FULL_MASK - clz x = t at h1 h2 h3
      rw [hxbit _ h1, Bool.and_eq_true, decide_eq_true_eq] at h2
      refine Or.inl ⟨by omega, ?_, ?_⟩
      · unfold bit
        rw [show (64 * n + t) / 64 = n by omega, show (64 * n + t) % 64 = t by omega]
        exact h2.1
      · intro j hj1 hj2
        have hj : j / 64 = n := by omega
        have := h3 (j % 64) (by omega)
        rw [hxbit _ (by omega), decide_eq_true (show 64 * n + j % 64 < N by omega),
          Bool.and_true] at this
        unfold bit
        rwa [hj]
    · rw [if_neg hx]
      have hx' : x = 0 := by simpa using hx
      have hword : ∀ j, j < N → j / 64 = n → bit a j = false := by
        intro j hj1 hj2
        have : x.testBit (j % 64) = false := by rw [hx']; exact Nat.zero_testBit _
        rw [hxbit _ (by omega), decide_eq_true (show 64 * n + j % 64 < N by omega),
          Bool.and_true] at this
        unfold bit
        rwa [hj2]
      rcases ih (by omega) with ⟨h1, h3, h4⟩ | ⟨h1, h2⟩
      · refine Or.inl ⟨by omega, h3, ?_⟩
        intro j hj1 hj2
        by_cases hj : j / 64 = n
        · exact hword j (by omega) hj
        · exact h4 j hj1 (by omega)
      · refine Or.inr ⟨h1, ?_⟩
        intro j hj1
        by_cases hj : j / 64 = n
        · exact hword j (by omega) hj
        · exact h2 j (by omega)

theorem find_last_spec {N : Nat} {a : List Nat} (ha : WF N a) :
    IsLastBelow N a N (find_last N a) := by
  have hW := WORDS_eq N
  have := findLastLoop_spec ha (WORDS N) (Nat.le_refl _)
  rwa [show min (64 * WORDS N) N = N by omega] at this

theorem test_eq_some_false {N : Nat} (a : List Nat) {i : Nat} (hi : i < N) :
    test N a i = some false ↔ bit a i = false := by
  rw [test_eq a hi]; simp

theorem firstFrom_test {N : Nat} {a : List Nat} {s r : Nat} (h : IsFirstFrom N a s r) :
    (r < N ∧ s ≤ r ∧ test N a r = some true ∧
      ∀ j, s ≤ j → j < r → test N a j = some false) ∨
    (r = N ∧ ∀ j, s ≤ j → j < N → test N a j = some false) := by
  rcases h with ⟨h1, h2, h3, h4⟩ | ⟨h1, h2⟩
  · exact Or.inl ⟨h1, h2, (test_eq_some_true a h1).mpr h3,
      fun j hj1 hj2 => (test_eq_some_false a (by omega)).mpr (h4 j hj1 hj2)⟩
  · exact Or.inr ⟨h1, fun j hj1 hj2 => (test_eq_some_false a hj2).mpr (h2 j hj1 hj2)⟩

theorem lastBelow_test {N : Nat} {a : List Nat} {s r : Nat} (hs : s ≤ N)
    (h : IsLastBelow N a s r) :
    (r < s ∧ test N a r = some true ∧ ∀ j, r < j → j < s → test N a j = some false) ∨
    (r = N ∧ ∀ j, j < s → test N a j = some false) := by
  rcases h with ⟨h1, h3, h4⟩ | ⟨h1, h2⟩
  · exact Or.inl ⟨h1, (test_eq_some_true a (by omega)).mpr h3,
      fun j hj1 hj2 => (test_eq_some_false a (by omega)).mpr (h4 j hj1 hj2)⟩
  · exact Or.inr ⟨h1, fun j hj => (test_eq_some_false a (by omega)).mpr (h2 j hj)⟩

/-- C6, refuted as stated: with `N = 1` and bit 0 set, no index `j` satisfies
`2 ^ 64 - 1 < j < N`, yet `find_next(2 ^ 64 - 1)` returns 0 and not `N`, because the
increment `i++` wraps to 0. -/
theorem find_next_size_max_wraps :
    WF 1 [1] ∧ TailInv 1 [1] ∧
      (∀ j, 2 ^ 64 - 1 < j → j < 1 → test 1 [1] j ≠ some true) ∧
      find_next 1 [1] (2 ^ 64 - 1) = 0 ∧ find_next 1 [1] (2 ^ 64 - 1) ≠ 1 :=
  ⟨by decide, by decide, fun j h1 h2 => by omega, by decide, by decide⟩

/-- C6 (amended): on a well-typed, tail-masked state `find_next(i)` returns the lowest
index `j` with `(i + 1) mod 2 ^ 64 ≤ j < N` and `test(j)` true, and `N` when there is
none; for `i + 1 < 2 ^ 64` this is the lowest set index strictly above `i`. -/
theorem find_next_lowest (N : Nat) (a : List Nat) (i : Nat) (ha : WF N a)
    (ht : TailInv N a) :
    ((find_next N a i < N ∧ (i + 1) % 2 ^ 64 ≤ find_next N a i ∧
        test N a (find_next N a i) = some true ∧
        ∀ j, (i + 1) % 2 ^ 64 ≤ j → j < find_next N a i → test N a j = some false) ∨
      (find_next N a i = N ∧
        ∀ j, (i + 1) % 2 ^ 64 ≤ j → j < N → test N a j = some false)) ∧
    (i + 1 < 2 ^ 64 →
      (find_next N a i < N ∧ i < find_next N a i ∧
        test N a (find_next N a i) = some true ∧
        ∀ j, i < j → j < find_next N a i → test N a j = some false) ∨
      (find_next N a i = N ∧ ∀ j, i < j → j < N → test N a j = some false)) := by
  have h := firstFrom_test (find_next_spec ha ht i)
  refine ⟨h, fun hi => ?_⟩
  rw [Nat.mod_eq_of_lt hi] at h
  rcases h with ⟨h1, h2, h3, h4⟩ | ⟨h1, h2⟩
  · exact Or.inl ⟨h1, by omega, h3, fun j hj1 hj2 => h4 j (by omega) hj2⟩
  · exact Or.inr ⟨h1, fun j hj1 hj2 => h2 j (by omega) hj2⟩

theorem find_next_lowest_witness :
    WF 10 [548] ∧ TailInv 10 [548] ∧ find_next 10 [548] 2 = 5 ∧
      ((find_next 10 [548] 2 < 10 ∧ (2 + 1) % 2 ^ 64 ≤ find_next 10 [548] 2 ∧
          test 10 [548] (find_next 10 [548] 2) = some true ∧
          ∀ j, (2 + 1) % 2 ^ 64 ≤ j → j < find_next 10 [548] 2 →
            test 10 [548] j = some false) ∨
        (find_next 10 [548] 2 = 10 ∧
          ∀ j, (2 + 1) % 2 ^ 64 ≤ j → j < 10 → test 10 [548] j = some false)) :=
  ⟨by decide, by decide, by decide,
    (find_next_lowest 10 [548] 2 (by decide) (by decide)).1⟩

/-- C7 (prevSet): on a well-typed state and for `i < N`, `find_prev(i)` returns the
highest index `j < i` with `test(j)` true, and `N` when there is none; and
`find_prev(0)` returns `N` in every state. -/
theorem find_prev_highest (N : Nat) (a : List Nat) (i : Nat) (ha : WF N a) (hi : i < N) :
    ((find_prev N a i < i ∧ test N a (find_prev N a i) = some true ∧
        ∀ j, find_prev N a i < j → j < i → test N a j = some false) ∨
      (find_prev N a i = N ∧ ∀ j, j < i → test N a j = some false)) ∧
    find_prev N a 0 = N := by
  refine ⟨?_, by simp [find_prev]⟩
  by_cases h0 : i = 0
  · subst h0
    exact Or.inr ⟨by simp [find_prev], fun j hj => by omega⟩
  · exact lastBelow_test (by omega) (find_prev_spec ha h0)

theorem find_prev_highest_witness :
    WF 10 [548] ∧ find_prev 10 [548] 9 = 5 ∧ find_prev 10 [548] 2 = 10 ∧
      (((find_prev 10 [548] 9 < 9 ∧ test 10 [548] (find_prev 10 [548] 9) = some true ∧
          ∀ j, find_prev 10 [548] 9 < j → j < 9 → test 10 [548] j = some false) ∨
        (find_prev 10 [548] 9 = 10 ∧ ∀ j, j < 9 → test 10 [548] j = some false)) ∧
      find_prev 10 [548] 0 = 10) :=
  ⟨by decide, by decide, by decide, find_prev_highest 10 [548] 9 (by decide) (by decide)⟩

/-- C8 (anchors): on a well-typed, tail-masked state `find_first()` returns the lowest
index `i < N` with `test(i)` true and `find_last()` the highest one; each returns `N`
exactly when no bit below `N` is set. -/
theorem find_first_last_anchor (N : Nat) (a : List Nat) (ha : WF N a) (ht : TailInv N a) :
    ((find_first N a < N ∧ test N a (find_first N a) = some true ∧
        ∀ j, j < find_first N a → test N a j = some false) ∨
      (find_first N a = N ∧ ∀ j, j < N → test N a j = some false)) ∧
    ((find_last N a < N ∧ test N a (find_last N a) = some true ∧
        ∀ j, find_last N a < j → j < N → test N a j = some false) ∨
      (find_last N a = N ∧ ∀ j, j < N → test N a j = some false)) ∧
    (find_first N a = N ↔ ∀ j, j < N → test N a j = some false) ∧
    (find_last N a = N ↔ ∀ j, j < N → test N a j = some false) := by
  have hf : (find_first N a < N ∧ test N a (find_first N a) = some true ∧
        ∀ j, j < find_first N a → test N a j = some false) ∨
      (find_first N a = N ∧ ∀ j, j < N → test N a j = some false) := by
    rcases firstFrom_test (find_first_spec ha ht) with ⟨h1, _, h3, h4⟩ | ⟨h1, h2⟩
    · exact Or.inl ⟨h1, h3, fun j hj => h4 j (by omega) hj⟩
    · exact Or.inr ⟨h1, fun j hj => h2 j (by omega) hj⟩
  have hl := lastBelow_test (Nat.le_refl N) (find_last_spec ha)
  refine ⟨hf, hl, ⟨fun h => ?_, fun h => ?_⟩, ⟨fun h => ?_, fun h => ?_⟩⟩
  · rcases hf with ⟨h1, _⟩ | ⟨_, h2⟩
    · omega
    · exact h2
  · rcases hf with ⟨h1, h2, _⟩ | ⟨h1, _⟩
    · rw [h _ h1] at h2; cases h2
    · exact h1
  · rcases hl with ⟨h1, _⟩ | ⟨_, h2⟩
    · omega
    · exact h2
  · rcases hl with ⟨h1, h2, _⟩ | ⟨h1, _⟩
    · rw [h _ h1] at h2; cases h2
    · exact h1

theorem find_first_last_anchor_witness :
    WF 10 [548] ∧ TailInv 10 [548] ∧ find_first 10 [548] = 2 ∧ find_last 10 [548] = 9 ∧
      (find_first 10 [548] = 10 ↔ ∀ j, j < 10 → test 10 [548] j = some false) :=
  ⟨by decide, by decide, by decide, by decide,
    (find_first_last_anchor 10 [548] (by decide) (by decide)).2.2.1⟩

theorem filter_range'_nil (p : Nat → Bool) (s n : Nat)
    (h : ∀ j, s ≤ j → j < s + n → p j = false) : (List.range' s n).filter p = [] := by
  rw [List.filter_eq_nil_iff]
  intro j hj
  rw [List.mem_range'_1] at hj
  rw [h j hj.1 hj.2]
  exact Bool.false_ne_true

theorem range'_split (s n r : Nat) (h1 : s ≤ r) (h2 : r < s + n) :
    List.range' s n = List.range' s (r - s) ++ r :: List.range' (r + 1) (s + n - (r + 1)) := by
  have h := List.range'_append s (r - s) (n - (r - s)) 1
  rw [Nat.one_mul, show s + (r - s) = r by omega, show n - (r - s) + (r - s) = n by omega] at h
  rw [← h, show n - (r - s) = (s + n - (r + 1)) + 1 by omega, List.range'_succ]

theorem filter_range'_first (p : Nat → Bool) (s n r : Nat) (h1 : s ≤ r) (h2 : r < s + n)
    (hr : p r = true) (h : ∀ j, s ≤ j → j < r → p j = false) :
    (List.range' s n).filter p = r :: (List.range' (r + 1) (s + n - (r + 1))).filter p := by
  rw [range'_split s n r h1 h2, List.filter_append,
    filter_range'_nil p s (r - s) (fun j hj1 hj2 => h j hj1 (by omega)),
    List.nil_append, List.filter_cons_of_pos hr]

theorem filter_range_last (p : Nat → Bool) (s r : Nat) (h1 : r < s)
    (hr : p r = true) (h : ∀ j, r < j → j < s → p j = false) :
    (List.range s).filter p = (List.range r).filter p ++ [r] := by
  rw [List.range_eq_range', range'_split 0 s r (Nat.zero_le _) (by omega), List.filter_append,
    List.filter_cons_of_pos hr,
    filter_range'_nil p (r + 1) _ (fun j hj1 hj2 => h j (by omega) (by omega)),
    Nat.sub_zero, List.range_eq_range']

theorem iterNext_at_N (N : Nat) (a : List Nat) (fuel : Nat) :
    iterNext N a fuel N = some [] := by
  cases fuel <;> simp [iterNext]

theorem iterPrev_at_N (N : Nat) (a : List Nat) (fuel : Nat) :
    iterPrev N a fuel N = some [] := by
  cases fuel <;> simp [iterPrev]

/-- Iterating `find_next` from the lowest set bit at or after `s` lists the set bits
of `[s, N)` in ascending order. -/
theorem iterNext_spec {N : Nat} {a : List Nat} (ha : WF N a) (ht : TailInv N a)
    (hN : N < 2 ^ 64) : ∀ fuel s r, IsFirstFrom N a s r → s ≤ N → N - s ≤ fuel →
      iterNext N a fuel r = some ((List.range' s (N - s)).filter (bit a)) := by
  intro fuel
  induction fuel with
  | zero =>
    intro s r h hs hf
    rcases h with ⟨h1, h2, _⟩ | ⟨h1, h2⟩
    · omega
    · rw [h1, iterNext_at_N, filter_range'_nil _ _ _ (fun j hj1 hj2 => h2 j hj1 (by omega))]
  | succ f ih =>
    intro s r h hs hf
    rcases h with ⟨h1, h2, h3, h4⟩ | ⟨h1, h2⟩
    · have hnext := find_next_spec ha ht r
      rw [Nat.mod_eq_of_lt (by omega)] at hnext
      rw [iterNext, if_neg (by omega), ih (r + 1) _ hnext (by omega) (by omega),
        filter_range'_first (bit a) s (N - s) r h2 (by omega) h3 h4,
        show s + (N - s) - (r + 1) = N - (r + 1) by omega]
      rfl
    · rw [h1, iterNext_at_N, filter_range'_nil _ _ _ (fun j hj1 hj2 => h2 j hj1 (by omega))]

/-- Iterating `find_prev` from the highest set bit below `s` lists the set bits
below `s` in descending order. -/
theorem iterPrev_spec {N : Nat} {a : List Nat} (ha : WF N a) :
    ∀ fuel s r, IsLastBelow N a s r → s ≤ N → s ≤ fuel →
      iterPrev N a fuel r = some ((List.range s).filter (bit a)).reverse := by
  intro fuel
  induction fuel with
  | zero =>
    intro s r h hs hf
    rcases h with ⟨h1, _⟩ | ⟨h1, _⟩
    · omega
    · rw [h1, iterPrev_at_N, show s = 0 by omega]
      rfl
  | succ f ih =>
    intro s r h hs hf
    rcases h with ⟨h1, h3, h4⟩ | ⟨h1, h2⟩
    · have hprev : IsLastBelow N a r (find_prev N a r) := by
        by_cases h0 : r = 0
        · subst h0
          exact Or.inr ⟨by simp [find_prev], fun j hj => by omega⟩
        · exact find_prev_spec ha h0
      rw [iterPrev, if_neg (by omega), ih r _ hprev (by omega) (by omega),
        filter_range_last (bit a) s r h1 h3 h4]
      simp
    · have hnil : (List.range s).filter (bit a) = [] := by
        rw [List.range_eq_range']
        exact filter_range'_nil _ _ _ (fun j _ hj2 => h2 j (by omega))
      rw [h1, iterPrev_at_N, hnil]
      rfl

theorem setBits_eq (N : Nat) (a : List Nat) : setBits N a = (List.range N).filter (bit a) := by
  unfold setBits
  apply List.filter_congr
  intro i hi
  rw [List.mem_range] at hi
  rw [test_eq a hi]
  cases bit a i <;> rfl

theorem mem_setBits (N : Nat) (a : List Nat) (i : Nat) :
    i ∈ setBits N a ↔ i < N ∧ test N a i = some true := by
  unfold setBits
  rw [List.mem_filter, List.mem_range]
  simp

theorem popAux_eq_countP (f : Nat) : ∀ x : Nat,
    popAux f x = (List.range f).countP (fun c => x.testBit c) := by
  induction f with
  | zero => intro x; rfl
  | succ f ih =>
    intro x
    rw [popAux, ih, List.range_succ_eq_map, List.countP_cons, List.countP_map]
    have h1 : ((fun c => x.testBit c) ∘ Nat.succ) = fun c => (x / 2).testBit c := by
      funext c
      exact Nat.testBit_succ x c
    rw [h1, Nat.testBit_zero, Nat.add_comm]
    congr 1
    by_cases h : x % 2 = 1
    · simp [h]
    · have : x % 2 = 0 := by omega
      simp [this]

theorem pop_eq_countP (x : Nat) : pop x = (List.range 64).countP (fun c => x.testBit c) :=
  popAux_eq_countP 64 x

/-- The population counts of the first `n` words add up to the number of raw bits
set below position `64 * n`. -/
theorem count_words (a : List Nat) (n : Nat) :
    (List.range n).foldl (fun c i => c + pop (a.getD i 0)) 0 =
      (List.range (64 * n)).countP (bit a) := by
  induction n with
  | zero => rfl
  | succ n ih =>
    rw [List.range_succ n, List.foldl_append, ih, show 64 * (n + 1) = 64 * n + 64 by omega,
      List.range_add (64 * n) 64, List.countP_append, List.countP_map, List.foldl_cons,
      List.foldl_nil, Nat.add_left_cancel_iff, pop_eq_countP]
    apply List.countP_congr
    intro c hc
    rw [List.mem_range] at hc
    simp only [Function.comp, bit]
    rw [show (64 * n + c) / 64 = n by omega, show (64 * n + c) % 64 = c by omega]

theorem countP_bit_tail {N : Nat} {a : List Nat} (hl : a.length = WORDS N)
    (ht : TailInv N a) :
    (List.range (64 * WORDS N)).countP (bit a) = (List.range N).countP (bit a) := by
  have hW := WORDS_eq N
  rw [show 64 * WORDS N = N + (64 * WORDS N - N) by omega, List.range_add,
    List.countP_append, List.countP_map]
  have : List.countP (bit a ∘ fun x => N + x) (List.range (64 * WORDS N - N)) = 0 := by
    rw [List.countP_eq_zero]
    intro c _
    simp only [Function.comp]
    rw [bit_of_ge hl ht (by omega)]
    exact Bool.false_ne_true
  rw [this, Nat.add_zero]

/-- C9 (sparse iteration): on a well-typed, tail-masked state with `N < 2 ^ 64`, and
with at least `N` visits allowed, the loop from `find_first()` along `find_next`
stops at `N` having listed exactly the indices `i < N` with `test(i)` true in
strictly ascending order, and the loop from `find_last()` along `find_prev` stops at
`N` having listed the same indices in strictly descending order. -/
theorem sparse_iteration (N : Nat) (a : List Nat) (fuel : Nat) (ha : WF N a)
    (ht : TailInv N a) (hN : N < 2 ^ 64) (hfuel : N ≤ fuel) :
    iterNext N a fuel (find_first N a) = some (setBits N a) ∧
    iterPrev N a fuel (find_last N a) = some (setBits N a).reverse ∧
    (∀ i, i ∈ setBits N a ↔ i < N ∧ test N a i = some true) ∧
    (setBits N a).Pairwise (fun x y => x < y) ∧
    (setBits N a).reverse.Pairwise (fun x y => x > y) := by
  have hasc : (setBits N a).Pairwise (fun x y => x < y) :=
    List.Pairwise.filter _ (List.pairwise_lt_range N)
  refine ⟨?_, ?_, mem_setBits N a, hasc, ?_⟩
  · rw [iterNext_spec ha ht hN fuel 0 _ (find_first_spec ha ht) (Nat.zero_le _) (by omega),
      setBits_eq, List.range_eq_range', Nat.sub_zero]
  · rw [iterPrev_spec ha fuel N _ (find_last_spec ha) (Nat.le_refl _) hfuel, setBits_eq]
  · rw [List.pairwise_reverse]
    exact hasc

theorem sparse_iteration_witness :
    WF 10 [548] ∧ TailInv 10 [548] ∧ setBits 10 [548] = [2, 5, 9] ∧
      iterNext 10 [548] 10 (find_first 10 [548]) = some (setBits 10 [548]) ∧
      iterPrev 10 [548] 10 (find_last 10 [548]) = some (setBits 10 [548]).reverse :=
  ⟨by decide, by decide, by decide,
    (sparse_iteration 10 [548] 10 (by decide) (by decide) (by decide) (by decide)).1,
    (sparse_iteration 10 [548] 10 (by decide) (by decide) (by decide) (by decide)).2.1⟩

/-- C10 (count): on a well-typed, tail-masked state `count()` is the number of
indices `i < N` with `test(i)` true. -/
theorem count_eq_number_of_set_bits (N : Nat) (a : List Nat) (ha : WF N a)
    (ht : TailInv N a) : count N a = (setBits N a).length := by
  rw [count, count_words, countP_bit_tail ha.1 ht, setBits_eq, List.countP_eq_length_filter]

theorem count_eq_number_of_set_bits_witness :
    WF 10 [548] ∧ TailInv 10 [548] ∧ count 10 [548] = 3 ∧
      count 10 [548] = (setBits 10 [548]).length :=
  ⟨by decide, by decide, by decide,
    count_eq_number_of_set_bits 10 [548] (by decide) (by decide)⟩

/-- C2, failing input: with `N = 128` and only bit 64 set, `operator>>=(1)` must move
the bit to position 63, but the `b != 0` loop runs from the top word down, overwrites
word 1 before word 0 reads its carry, and returns the all-zero vector. -/
theorem shr_assign_loses_carry :
    Reachable 128 [0, 1] ∧ test 128 [0, 1] (63 + 1) = some true ∧
      operator_shr_assign 128 [0, 1] 1 = [0, 0] ∧
      test 128 (operator_shr_assign 128 [0, 1] 1) 63 = some false :=
  ⟨Reachable.set 64 true Reachable.init (by decide), by decide, by decide, by decide⟩

/-- C4, failing input: with `N = 128` and only bit 64 set, `operator>>=(1)` followed
by `operator>>=(63)` yields the all-zero vector, while the single `operator>>=(64)`
yields the vector with only bit 0 set. -/
theorem shr_assign_compose_fails :
    Reachable 128 [0, 1] ∧
      operator_shr_assign 128 (operator_shr_assign 128 [0, 1] 1) 63 = [0, 0] ∧
      operator_shr_assign 128 [0, 1] (1 + 63) = [1, 0] :=
  ⟨Reachable.set 64 true Reachable.init (by decide), by decide, by decide⟩

theorem countP_point_update (p q : Nat → Bool) (i : Nat) (hq : q i = true)
    (h : ∀ j, j ≠ i → q j = p j) :
    ∀ n, i < n → (List.range n).countP q =
      (List.range n).countP p + (if p i = true then 0 else 1) := by
  intro n
  induction n with
  | zero => intro hi; omega
  | succ n ih =>
    intro hi
    rw [List.range_succ n, List.countP_append, List.countP_append]
    by_cases hin : i = n
    · subst hin
      have hsame : (List.range i).countP q = (List.range i).countP p := by
        apply List.countP_congr
        intro j hj
        rw [List.mem_range] at hj
        rw [h j (by omega)]
      rw [hsame, List.countP_singleton, List.countP_singleton, hq]
      cases p i <;> simp
    · rw [ih (by omega), List.countP_singleton, List.countP_singleton, h n (by omega)]
      omega

theorem count_eq_countP (N : Nat) (a : List Nat) :
    count N a = (List.range (64 * WORDS N)).countP (bit a) := count_words a (WORDS N)

/-- C11 (single-bit write): on a well-typed state and for `i < N`, `set(i, true)`
succeeds; afterwards `test(i)` is true, `test(j)` is unchanged for every other
`j < N`, every word other than word `i / 64` is unchanged, and `count()` has grown
by 1 if bit `i` was clear and by 0 if it was set. -/
theorem set_true_frame (N : Nat) (a : List Nat) (i : Nat) (ha : WF N a) (hi : i < N) :
    ∃ a', set N a i true = some a' ∧
      test N a' i = some true ∧
      (∀ j, j < N → j ≠ i → test N a' j = test N a j) ∧
      (∀ w, w ≠ i / 64 → a'.getD w 0 = a.getD w 0) ∧
      (test N a i = some false → count N a' = count N a + 1) ∧
      (test N a i = some true → count N a' = count N a) := by
  have hW := WORDS_eq N
  refine ⟨_, set_eq a hi true, ?_, ?_, ?_, ?_, ?_⟩
  · rw [test_eq _ hi, bit_set ha.1 hi, if_pos rfl]
  · intro j hj hji
    rw [test_eq _ hj, test_eq _ hj, bit_set ha.1 hi, if_neg hji]
  · intro w hw
    rw [getD_set, if_neg (fun h => hw h.1.symm)]
  · intro h0
    rw [test_eq_some_false a hi] at h0
    rw [count_eq_countP, count_eq_countP,
      countP_point_update (bit a) _ i (by rw [bit_set ha.1 hi, if_pos rfl])
        (fun j hj => by rw [bit_set ha.1 hi, if_neg hj]) _ (by omega), h0]
    rfl
  · intro h1
    rw [test_eq_some_true a hi] at h1
    rw [count_eq_countP, count_eq_countP,
      countP_point_update (bit a) _ i (by rw [bit_set ha.1 hi, if_pos rfl])
        (fun j hj => by rw [bit_set ha.1 hi, if_neg hj]) _ (by omega), h1]
    rfl

theorem set_true_frame_witness :
    WF 10 [548] ∧ set 10 [548] 3 true = some [556] ∧ count 10 [548] = 3 ∧
      count 10 [556] = 4 ∧
      ∃ a', set 10 [548] 3 true = some a' ∧
        test 10 a' 3 = some true ∧
        (∀ j, j < 10 → j ≠ 3 → test 10 a' j = test 10 [548] j) ∧
        (∀ w, w ≠ 3 / 64 → a'.getD w 0 = [548].getD w 0) ∧
        (test 10 [548] 3 = some false → count 10 a' = count 10 [548] + 1) ∧
        (test 10 [548] 3 = some true → count 10 a' = count 10 [548]) :=
  ⟨by decide, by decide, by decide, by decide,
    set_true_frame 10 [548] 3 (by decide) (by decide)⟩

theorem getD_flip_loop (N : Nat) (a : List Nat) (hl : a.length = WORDS N) (j : Nat) :
    (forUp (WORDS N) (fun i s => s.set i (not64 (s.getD i 0))) a).getD j 0 =
      if j < WORDS N then not64 (a.getD j 0) else a.getD j 0 := by
  apply forUp_getD (fun i s => not64 (s.getD i 0))
  · intro _ _; rfl
  · intro i s s' h
    show not64 (s.getD i 0) = not64 (s'.getD i 0)
    rw [h i (Nat.le_refl i)]
  · omega

/-- Every raw bit after `flip()`. -/
theorem bit_flip_all {N : Nat} {a : List Nat} (hl : a.length = WORDS N) (p : Nat) :
    bit (flip_all N a) p = (decide (p < N) && !bit a p) := by
  have hW := WORDS_eq N
  unfold flip_all
  rw [bit_fix_last _ _ (by
    rw [forUp_length _ (fun i s => by rw [List.length_set])]; exact hl)]
  by_cases hp : p < N
  · unfold bit
    rw [getD_flip_loop N a hl, if_pos (by omega), testBit_not64]
    simp [hp, show p % 64 < 64 by omega]
  · simp [hp]

/-- C12 (flipAll involution): on a well-typed, tail-masked state two calls of
`flip()` restore the original word sequence. -/
theorem flip_all_involution (N : Nat) (a : List Nat) (ha : WF N a) (ht : TailInv N a) :
    flip_all N (flip_all N a) = a := by
  apply ext_bit (WF_flip_all (WF_flip_all ha)) ha
  intro p
  rw [bit_flip_all (WF_flip_all ha).1, bit_flip_all ha.1]
  by_cases hp : p < N
  · simp [hp]
  · rw [bit_of_ge ha.1 ht (by omega)]
    simp [hp]

theorem flip_all_involution_witness :
    WF 130 [5, 2 ^ 63 + 1, 3] ∧ TailInv 130 [5, 2 ^ 63 + 1, 3] ∧
      flip_all 130 [5, 2 ^ 63 + 1, 3] = [2 ^ 64 - 6, 2 ^ 63 - 2, 0] ∧
      flip_all 130 (flip_all 130 [5, 2 ^ 63 + 1, 3]) = [5, 2 ^ 63 + 1, 3] :=
  ⟨by decide, by decide, by decide,
    flip_all_involution 130 [5, 2 ^ 63 + 1, 3] (by decide) (by decide)⟩

/-- C14 (canonical representation): two well-typed, tail-masked vectors of the same
capacity compare equal with `operator==` iff `test(i)` agrees on them for every
`i < N`. -/
theorem operator_eq_iff_test (N : Nat) (x y : List Nat) (hx : WF N x) (htx : TailInv N x)
    (hy : WF N y) (hty : TailInv N y) :
    operator_eq x y = true ↔ ∀ i, i < N → test N x i = test N y i := by
  unfold operator_eq
  rw [beq_iff_eq]
  constructor
  · intro h i _
    rw [h]
  · intro h
    apply ext_bit hx hy
    intro p
    by_cases hp : p < N
    · have := h p hp
      rw [test_eq x hp, test_eq y hp] at this
      exact Option.some.inj this
    · rw [bit_of_ge hx.1 htx (by omega), bit_of_ge hy.1 hty (by omega)]

theorem operator_eq_iff_test_witness :
    WF 10 [548] ∧ TailInv 10 [548] ∧ operator_eq [548] [548] = true ∧
      (operator_eq [548] [548] = true ↔ ∀ i, i < 10 → test 10 [548] i = test 10 [548] i) :=
  ⟨by decide, by decide, by decide,
    operator_eq_iff_test 10 [548] [548] (by decide) (by decide) (by decide) (by decide)⟩

/-- C15 (index precondition): `set(i, v)`, `test(i)` and `flip(i)` fail exactly when
`i ≥ N`; for `i < N` on a well-typed state they succeed, `test(i)` reads bit `i`, and
`flip(i)` complements bit `i` and leaves every other raw bit as it was. -/
theorem index_precondition (N : Nat) (a : List Nat) (i : Nat) (v : Bool) (ha : WF N a) :
    (set N a i v = none ↔ N ≤ i) ∧
    (test N a i = none ↔ N ≤ i) ∧
    (flip N a i = none ↔ N ≤ i) ∧
    (i < N →
      (∃ a', set N a i v = some a' ∧ WF N a') ∧
      test N a i = some (bit a i) ∧
      ∃ a', flip N a i = some a' ∧ WF N a' ∧
        (∀ p, bit a' p = if p = i then !bit a p else bit a p) ∧
        test N a' i = (test N a i).map (fun b => !b) ∧
        ∀ j, j < N → j ≠ i → test N a' j = test N a j) := by
  refine ⟨?_, ?_, ?_, ?_⟩
  · by_cases hi : i < N
    · rw [set_eq a hi v]
      simp; omega
    · simp [set, hi]; omega
  · by_cases hi : i < N
    · rw [test_eq a hi]
      simp; omega
    · simp [test, hi]; omega
  · by_cases hi : i < N
    · rw [flip_eq a hi]
      simp; omega
    · simp [flip, hi]; omega
  · intro hi
    refine ⟨⟨_, set_eq a hi v, WF_set_bit ha i v⟩, test_eq a hi,
      _, flip_eq a hi, WF_flip_bit ha i, fun p => bit_flip ha.1 hi p, ?_, ?_⟩
    · rw [test_eq _ hi, test_eq a hi, bit_flip ha.1 hi, if_pos rfl]
      rfl
    · intro j hj hji
      rw [test_eq _ hj, test_eq a hj, bit_flip ha.1 hi, if_neg hji]

theorem index_precondition_witness :
    WF 10 [548] ∧ flip 10 [548] 2 = some [544] ∧ flip 10 [548] 10 = none ∧
      set 10 [548] 63 true = none ∧ test 10 [548] 74 = none ∧
      (flip 10 [548] 10 = none ↔ 10 ≤ 10) :=
  ⟨by decide, by decide, by decide, by decide, by decide,
    (index_precondition 10 [548] 10 true (by decide)).2.2.1⟩

/-- C16, refuted as stated: in the scenario with `N = 10` the bit at position 8
(the image of bit 0) is set after the shift. -/
theorem shift_scenario_keeps_bit_8 :
    ∃ a, shiftScenario 10 = some a ∧ test 10 a 8 = some true ∧ test 10 a 9 = some true :=
  ⟨[768], by decide, by decide, by decide⟩

/-- C16 (amended): with `N = 10`, after `set(0)`, `set(1)`, `set(2)` on the cleared
vector and then `operator<<=(8)`, exactly the bits 8 and 9 are set (the images of
bits 0 and 1); the image of bit 2 at position 10 is dropped and every other bit
is 0. -/
theorem shift_scenario_result :
    ∃ a, shiftScenario 10 = some a ∧ a = [768] ∧
      (∀ j, j < 10 → (test 10 a j = some true ↔ j = 8 ∨ j = 9)) ∧
      (∀ p, 10 ≤ p → bit a p = false) := by
  refine ⟨[768], by decide, rfl, by decide, ?_⟩
  intro p hp
  exact bit_of_ge (N := 10) (by decide) (by decide) hp

/-- C17 (pointwise combination): for well-typed vectors `a`, `b` of capacity `N` and
`i < N`, `test(i)` after `a &= b`, `a |= b`, `a ^= b` is the AND, OR, XOR of the old
`a.test(i)` and `b.test(i)`; the value-returning operators return the same arrays. -/
theorem combine_pointwise (N : Nat) (a b : List Nat) (i : Nat) (ha : WF N a) (hb : WF N b)
    (hi : i < N) :
    ∃ x y, test N a i = some x ∧ test N b i = some y ∧
      test N (operator_and_assign N a b) i = some (x && y) ∧
      test N (operator_or_assign N a b) i = some (x || y) ∧
      test N (operator_xor_assign N a b) i = some (x ^^ y) ∧
      operator_and N a b = operator_and_assign N a b ∧
      operator_or N a b = operator_or_assign N a b ∧
      operator_xor N a b = operator_xor_assign N a b := by
  refine ⟨bit a i, bit b i, test_eq a hi, test_eq b hi, ?_, ?_, ?_, rfl, rfl, rfl⟩
  · rw [test_eq _ hi, operator_and_assign,
      bit_combine _ _ Nat.testBit_and rfl N a b ha.1 hb.1]
  · rw [test_eq _ hi, operator_or_assign,
      bit_combine _ _ Nat.testBit_or rfl N a b ha.1 hb.1]
  · rw [test_eq _ hi, operator_xor_assign,
      bit_combine _ _ Nat.testBit_xor rfl N a b ha.1 hb.1]

theorem combine_pointwise_witness :
    WF 130 [5, 2 ^ 63 + 1, 3] ∧ WF 130 [6, 1, 2] ∧
      operator_and 130 [5, 2 ^ 63 + 1, 3] [6, 1, 2] = [4, 1, 2] ∧
      operator_or 130 [5, 2 ^ 63 + 1, 3] [6, 1, 2] = [7, 2 ^ 63 + 1, 3] ∧
      operator_xor 130 [5, 2 ^ 63 + 1, 3] [6, 1, 2] = [3, 2 ^ 63, 1] ∧
      ∃ x y, test 130 [5, 2 ^ 63 + 1, 3] 1 = some x ∧ test 130 [6, 1, 2] 1 = some y ∧
        test 130 (operator_and_assign 130 [5, 2 ^ 63 + 1, 3] [6, 1, 2]) 1 = some (x && y) ∧
        test 130 (operator_or_assign 130 [5, 2 ^ 63 + 1, 3] [6, 1, 2]) 1 = some (x || y) ∧
        test 130 (operator_xor_assign 130 [5, 2 ^ 63 + 1, 3] [6, 1, 2]) 1 = some (x ^^ y) ∧
        operator_and 130 [5, 2 ^ 63 + 1, 3] [6, 1, 2] =
          operator_and_assign 130 [5, 2 ^ 63 + 1, 3] [6, 1, 2] ∧
        operator_or 130 [5, 2 ^ 63 + 1, 3] [6, 1, 2] =
          operator_or_assign 130 [5, 2 ^ 63 + 1, 3] [6, 1, 2] ∧
        operator_xor 130 [5, 2 ^ 63 + 1, 3] [6, 1, 2] =
          operator_xor_assign 130 [5, 2 ^ 63 + 1, 3] [6, 1, 2] :=
  ⟨by decide, by decide, by decide, by decide, by decide,
    combine_pointwise 130 [5, 2 ^ 63 + 1, 3] [6, 1, 2] 1 (by decide) (by decide) (by decide)⟩

theorem getD_shrWord (N : Nat) (a : List Nat) (hl : a.length = WORDS N) (w j : Nat) :
    (forUp (WORDS N) (shrWordBody N w) a).getD j 0 =
      if j < WORDS N then (if j + w < WORDS N then a.getD (j + w) 0 else 0)
      else a.getD j 0 := by
  apply forUp_getD (fun i s => if i + w < WORDS N then s.getD (i + w) 0 else 0)
  · intro _ _; rfl
  · intro i s s' h
    show (if i + w < WORDS N then s.getD (i + w) 0 else 0) =
      (if i + w < WORDS N then s'.getD (i + w) 0 else 0)
    rw [h (i + w) (Nat.le_add_right _ _)]
  · omega

theorem bit_shrWord {N : Nat} {a : List Nat} (hl : a.length = WORDS N) {k : Nat}
    (hk : k % 64 = 0) {p : Nat} (hp : p < 64 * WORDS N) :
    bit (forUp (WORDS N) (shrWordBody N (k / 64)) a) p = bit a (p + k) := by
  unfold bit
  rw [getD_shrWord N a hl, if_pos (by omega), show (p + k) / 64 = p / 64 + k / 64 by omega,
    show (p + k) % 64 = p % 64 by omega]
  by_cases h : p / 64 + k / 64 < WORDS N
  · rw [if_pos h]
  · rw [if_neg h, getD_of_le a (by omega)]

theorem bit_shrBit_single {N : Nat} {a : List Nat} (ha : WF N a) (hW : WORDS N = 1)
    {k : Nat} (hk : k < 64) {p : Nat} (hp : p < 64) :
    bit (forDown (WORDS N) (shrBitBody N (k / 64) (k % 64)) a) p = bit a (p + k) := by
  rw [hW]
  show bit (shrBitBody N (k / 64) (k % 64) 0 a) p = bit a (p + k)
  unfold shrBitBody bit
  simp only []
  rw [getD_set, if_pos ⟨by omega, by rw [ha.1, hW]; omega⟩, hW,
    show k / 64 = 0 by omega, if_pos (by omega), if_neg (by omega), Nat.or_zero,
    Nat.testBit_shiftRight, show k % 64 = k by omega, show p % 64 = p by omega]
  by_cases h : p + k < 64
  · rw [show (p + k) / 64 = 0 by omega, show (p + k) % 64 = p + k by omega,
      Nat.add_comm k p]
  · rw [testBit_high (WF_getD ha _) (by omega), getD_of_le a (by rw [ha.1, hW]; omega)]
    exact (Nat.zero_testBit _).symm

/-- Every raw bit after `operator>>=(k)` when the vector is a single word or `k` is a
multiple of 64. -/
theorem bit_operator_shr_assign_simple {N : Nat} {a : List Nat} (ha : WF N a)
    (ht : TailInv N a) {k : Nat} (hs : N ≤ 64 ∨ k % 64 = 0) (p : Nat) :
    bit (operator_shr_assign N a k) p = (decide (p < N) && bit a (p + k)) := by
  have hW := WORDS_eq N
  unfold operator_shr_assign
  by_cases hk : k ≥ N
  · rw [if_pos hk, reset, bit_fill_zero, bit_of_ge ha.1 ht (by omega)]
    simp
  · rw [if_neg hk, shr_pow2, and_full_mask]
    simp only []
    by_cases hb : k % 64 = 0
    · rw [if_pos hb, bit_fix_last _ _ (by
        rw [forUp_length _ (fun i s => by rw [shrWordBody, List.length_set])]; exact ha.1)]
      by_cases hp : p < N
      · rw [bit_shrWord ha.1 hb (by omega)]
      · simp [hp]
    · have hN : N ≤ 64 := by
        rcases hs with h | h
        · exact h
        · exact absurd h hb
      rw [if_neg hb, bit_fix_last _ _ (by
        rw [forDown_length _ (fun i s => by rw [shrBitBody, List.length_set])]; exact ha.1)]
      by_cases hp : p < N
      · rw [bit_shrBit_single ha (by omega) (by omega) (by omega)]
      · simp [hp]

/-- C18 (right shift, simple shapes): on a well-typed, tail-masked state, if `N ≤ 64`
or `k` is a multiple of 64, then after `operator>>=(k)` the bit `j < N` is set iff
`j + k < N` and bit `j + k` was set before the call. -/
theorem shr_assign_simple_shapes (N : Nat) (a : List Nat) (k j : Nat) (ha : WF N a)
    (ht : TailInv N a) (hs : N ≤ 64 ∨ k % 64 = 0) (hj : j < N) :
    test N (operator_shr_assign N a k) j = some true ↔
      j + k < N ∧ test N a (j + k) = some true := by
  rw [test_eq_some_true _ hj, bit_operator_shr_assign_simple ha ht hs]
  by_cases h : j + k < N
  · rw [test_eq_some_true _ h]
    simp [hj, h]
  · rw [bit_of_ge ha.1 ht (by omega)]
    simp [h]

theorem shr_assign_simple_shapes_witness :
    WF 130 [5, 2 ^ 63 + 1, 3] ∧ TailInv 130 [5, 2 ^ 63 + 1, 3] ∧
      operator_shr_assign 130 [5, 2 ^ 63 + 1, 3] 64 = [2 ^ 63 + 1, 3, 0] ∧
      operator_shr_assign 10 [548] 3 = [68] ∧
      (test 130 (operator_shr_assign 130 [5, 2 ^ 63 + 1, 3] 64) 63 = some true ↔
        63 + 64 < 130 ∧ test 130 [5, 2 ^ 63 + 1, 3] (63 + 64) = some true) :=
  ⟨by decide, by decide, by decide, by decide,
    shr_assign_simple_shapes 130 [5, 2 ^ 63 + 1, 3] 64 63 (by decide) (by decide)
      (Or.inr (by decide)) (by decide)⟩

theorem word_eq_zero_iff {x : Nat} (hx : x < 2 ^ 64) :
    x = 0 ↔ ∀ c, c < 64 → x.testBit c = false := by
  constructor
  · intro h c _
    rw [h]; exact Nat.zero_testBit c
  · intro h
    apply Nat.eq_of_testBit_eq
    intro c
    rw [Nat.zero_testBit]
    by_cases hc : c < 64
    · exact h c hc
    · exact testBit_high hx (by omega)

theorem not64_eq_zero_iff {x : Nat} (hx : x < 2 ^ 64) :
    not64 x = 0 ↔ ∀ c, c < 64 → x.testBit c = true := by
  rw [word_eq_zero_iff (not64_lt hx)]
  constructor
  · intro h c hc
    have := h c hc
    rw [testBit_not64] at this
    simpa [hc] using this
  · intro h c hc
    rw [testBit_not64, h c hc]
    simp [hc]

theorem word_bits_iff (a : List Nat) (j : Nat) (v : Bool) :
    (∀ c, c < 64 → (a.getD j 0).testBit c = v) ↔
      ∀ p, 64 * j ≤ p → p < 64 * (j + 1) → bit a p = v := by
  constructor
  · intro h p h1 h2
    unfold bit
    rw [show p / 64 = j by omega]
    exact h _ (by omega)
  · intro h c hc
    have := h (64 * j + c) (by omega) (by omega)
    unfold bit at this
    rwa [show (64 * j + c) / 64 = j by omega, show (64 * j + c) % 64 = c by omega] at this

theorem anyLoop_false_iff {a : List Nat} (ha : ∀ x ∈ a, x < 2 ^ 64) :
    ∀ n i, anyLoop a n i = false ↔
      ∀ p, 64 * i ≤ p → p < 64 * (i + n) → bit a p = false := by
  intro n
  induction n with
  | zero =>
    intro i
    simp only [anyLoop, true_iff]
    intro p h1 h2
    omega
  | succ n ih =>
    intro i
    rw [anyLoop]
    by_cases hz : a.getD i 0 ≠ 0
    · rw [if_pos hz]
      simp only [Bool.true_eq_false, false_iff]
      intro h
      apply hz
      rw [word_eq_zero_iff (getD_lt_of_forall ha i), word_bits_iff]
      intro p h1 h2
      exact h p h1 (by omega)
    · rw [if_neg hz, ih (i + 1)]
      have hz' : a.getD i 0 = 0 := by simpa using hz
      constructor
      · intro h p h1 h2
        by_cases hp : p / 64 = i
        · exact bit_word_zero hz' hp
        · exact h p (by omega) (by omega)
      · intro h p h1 h2
        exact h p (by omega) (by omega)

theorem allLoop_true_iff {a : List Nat} (ha : ∀ x ∈ a, x < 2 ^ 64) :
    ∀ n i, allLoop a n i = true ↔
      ∀ p, 64 * i ≤ p → p < 64 * (i + n) → bit a p = true := by
  intro n
  induction n with
  | zero =>
    intro i
    simp only [allLoop, true_iff]
    intro p h1 h2
    omega
  | succ n ih =>
    intro i
    rw [allLoop]
    have hw := not64_eq_zero_iff (getD_lt_of_forall ha i)
    rw [word_bits_iff] at hw
    by_cases hz : not64 (a.getD i 0) ≠ 0
    · rw [if_pos hz]
      simp only [Bool.false_eq_true, false_iff]
      intro h
      apply hz
      rw [hw]
      intro p h1 h2
      exact h p h1 (by omega)
    · rw [if_neg hz, ih (i + 1)]
      have hz' : not64 (a.getD i 0) = 0 := by simpa using hz
      rw [hw] at hz'
      constructor
      · intro h p h1 h2
        by_cases hp : p < 64 * (i + 1)
        · exact hz' p h1 hp
        · exact h p (by omega) (by omega)
      · intro h p h1 h2
        exact h p (by omega) (by omega)

theorem countP_eq_zero_range (q : Nat → Bool) (n : Nat) :
    (List.range n).countP q = 0 ↔ ∀ p, p < n → q p = false := by
  rw [List.countP_eq_zero]
  constructor
  · intro h p hp
    have := h p (List.mem_range.mpr hp)
    simpa using this
  · intro h p hp
    rw [h p (List.mem_range.mp hp)]
    exact Bool.false_ne_true

theorem countP_eq_range (q : Nat → Bool) (n : Nat) :
    (List.range n).countP q = n ↔ ∀ p, p < n → q p = true := by
  have : (List.range n).countP q = (List.range n).length ↔
      ∀ x ∈ List.range n, q x = true := List.countP_eq_length
  rw [List.length_range] at this
  rw [this]
  constructor
  · intro h p hp
    exact h p (List.mem_range.mpr hp)
  · intro h p hp
    exact h p (List.mem_range.mp hp)

/-- The method `none()` is true exactly when `count()` is zero. -/
theorem none_iff_count_zero {N : Nat} {a : List Nat} (ha : WF N a) :
    FastBitset64.none N a = true ↔ count N a = 0 := by
  unfold FastBitset64.none FastBitset64.any
  rw [Bool.not_eq_true', anyLoop_false_iff ha.2, count_eq_countP, countP_eq_zero_range]
  constructor
  · intro h p hp
    exact h p (by omega) (by omega)
  · intro h p _ hp
    exact h p (by omega)

theorem word_eq_all_ones_iff {x : Nat} (hx : x < 2 ^ 64) :
    x = ALL_ONES ↔ ∀ c, c < 64 → x.testBit c = true := by
  constructor
  · intro h c hc
    rw [h, testBit_ALL_ONES]
    exact decide_eq_true hc
  · intro h
    apply Nat.eq_of_testBit_eq
    intro c
    rw [testBit_ALL_ONES]
    by_cases hc : c < 64
    · rw [h c hc, decide_eq_true hc]
    · rw [testBit_high hx (by omega), decide_eq_false hc]

theorem and_mask_eq_iff (x m : Nat) :
    x &&& (2 ^ m - 1) = 2 ^ m - 1 ↔ ∀ c, c < m → x.testBit c = true := by
  constructor
  · intro h c hc
    have := congrArg (fun y => y.testBit c) h
    simp only [Nat.testBit_and, Nat.testBit_two_pow_sub_one] at this
    simpa [hc] using this
  · intro h
    apply Nat.eq_of_testBit_eq
    intro c
    rw [Nat.testBit_and, Nat.testBit_two_pow_sub_one]
    by_cases hc : c < m
    · rw [h c hc, decide_eq_true hc]; rfl
    · rw [decide_eq_false hc]; simp

theorem count_eq_N_iff {N : Nat} {a : List Nat} (ha : WF N a) (ht : TailInv N a) :
    count N a = N ↔ ∀ p, p < N → bit a p = true := by
  rw [count_eq_countP, countP_bit_tail ha.1 ht, countP_eq_range]

/-- For a capacity `0 < N < 2 ^ 64`, `all()` returns and is true exactly when
`count()` equals `N`. -/
theorem all_eq_count {N : Nat} {a : List Nat} (hN0 : 0 < N) (hN : N < 2 ^ 64)
    (ha : WF N a) (ht : TailInv N a) :
    FastBitset64.all N a = some (decide (count N a = N)) := by
  have hW := WORDS_eq N
  have hlast : (WORDS N + (2 ^ 64 - 1)) % 2 ^ 64 = WORDS N - 1 := by omega
  have hget : a[WORDS N - 1]? = some (a.getD (WORDS N - 1) 0) := by
    rw [List.getD_eq_getElem?_getD, List.getElem?_eq_getElem (by rw [ha.1]; omega)]
    rfl
  have hcount := count_eq_N_iff ha ht
  have hloop := allLoop_true_iff ha.2 (WORDS N - 1) 0
  unfold FastBitset64.all
  by_cases hl : allLoop a (WORDS N - 1) 0 = false
  · rw [if_pos hl]
    have : ¬ count N a = N := by
      intro hc
      rw [hcount] at hc
      have : allLoop a (WORDS N - 1) 0 = true :=
        hloop.mpr (fun p _ hp => hc p (by omega))
      rw [hl] at this
      cases this
    rw [decide_eq_false this]
  · rw [if_neg hl]
    have hl' : allLoop a (WORDS N - 1) 0 = true := by simpa using hl
    rw [hloop] at hl'
    simp only []
    rw [hlast, hget, WORD_SIZE_eq]
    have hwb := word_bits_iff a (WORDS N - 1) true
    by_cases h0 : N % 64 ≠ 0
    · rw [if_pos h0, Option.map_some', LAST_MASK_eq h0]
      refine congrArg some ?_
      rw [Bool.eq_iff_iff, beq_iff_eq, decide_eq_true_eq, and_mask_eq_iff, hcount]
      constructor
      · intro h p hp
        by_cases hp1 : p < 64 * (WORDS N - 1)
        · exact hl' p (by omega) (by omega)
        · have := h (p % 64) (by omega)
          unfold bit
          rwa [show p / 64 = WORDS N - 1 by omega]
      · intro h c hc
        have := h (64 * (WORDS N - 1) + c) (by omega)
        unfold bit at this
        rwa [show (64 * (WORDS N - 1) + c) / 64 = WORDS N - 1 by omega,
          show (64 * (WORDS N - 1) + c) % 64 = c by omega] at this
    · rw [if_neg h0, Option.map_some']
      refine congrArg some ?_
      rw [Bool.eq_iff_iff, beq_iff_eq, decide_eq_true_eq,
        word_eq_all_ones_iff (WF_getD ha _), hwb, hcount]
      constructor
      · intro h p hp
        by_cases hp1 : p < 64 * (WORDS N - 1)
        · exact hl' p (by omega) (by omega)
        · exact h p (by omega) (by omega)
      · intro h p _ hp2
        exact h p (by omega)

/-- For every capacity `0 < N < 2 ^ 64` and every well-typed, tail-masked state the
aggregate queries agree with `count()`. -/
theorem aggregate_queries_pos (N : Nat) (a : List Nat) (hN0 : 0 < N) (hN : N < 2 ^ 64)
    (ha : WF N a) (ht : TailInv N a) :
    (FastBitset64.all N a = some true ↔ count N a = N) ∧
    (∃ r, FastBitset64.all N a = some r) ∧
    (FastBitset64.none N a = true ↔ count N a = 0) ∧
    FastBitset64.any N a = !FastBitset64.none N a := by
  refine ⟨?_, ⟨_, all_eq_count hN0 hN ha ht⟩, none_iff_count_zero ha, ?_⟩
  · rw [all_eq_count hN0 hN ha ht]
    simp
  · simp [FastBitset64.none]

theorem aggregate_queries_pos_witness :
    WF 130 [2 ^ 64 - 1, 2 ^ 64 - 1, 3] ∧ count 130 [2 ^ 64 - 1, 2 ^ 64 - 1, 3] = 130 ∧
      (FastBitset64.all 130 [2 ^ 64 - 1, 2 ^ 64 - 1, 3] = some true ↔
        count 130 [2 ^ 64 - 1, 2 ^ 64 - 1, 3] = 130) :=
  ⟨by decide, by decide,
    (aggregate_queries_pos 130 [2 ^ 64 - 1, 2 ^ 64 - 1, 3] (by decide) (by decide)
      (by decide) (by decide)).1⟩

/-- C13, failing input: for the capacity `N = 0` the array has no words, `count()`
is `0 = N`, and `all()` reads `a[WORDS - 1]` at index `2 ^ 64 - 1`, outside the
array. -/
theorem all_reads_out_of_bounds_at_zero :
    WF 0 [] ∧ TailInv 0 [] ∧ count 0 [] = 0 ∧ WORDS 0 = 0 ∧
      (WORDS 0 + (2 ^ 64 - 1)) % 2 ^ 64 = 2 ^ 64 - 1 ∧
      FastBitset64.all 0 [] = none ∧
      FastBitset64.none 0 [] = true ∧ FastBitset64.any 0 [] = false :=
  ⟨by decide, by decide, by decide, by decide, by decide, by decide, by decide, by decide⟩

end FastBitset64

namespace Trie

theorem node_natCast (trie : List jiayou) (n : Nat) : node trie (n : Int) = trie[n]? := by
  unfold node
  rw [if_pos (Int.ofNat_nonneg n), Int.toNat_ofNat]

theorem nodeAt_succ (trie : List jiayou) (k v : Nat) :
    nodeAt trie (k + 1) v =
      (nodeAt trie k (v / 2)).bind (fun n => childIdx trie n (v % 2 == 1)) := rfl

theorem nodeAt_congr {trie trie' : List jiayou}
    (h : ∀ n b, childIdx trie' n b = childIdx trie n b) :
    ∀ k v, nodeAt trie' k v = nodeAt trie k v := by
  intro k
  induction k with
  | zero => intro v; rfl
  | succ k ih =>
    intro v
    rw [nodeAt_succ, nodeAt_succ, ih]
    cases nodeAt trie k (v / 2) with
    | none => rfl
    | some n => exact h n _

theorem childIdx_eq_some {trie : List jiayou} {n c : Nat} {b : Bool}
    (h : childIdx trie n b = some c) :
    ∃ nd, trie[n]? = some nd ∧ nd.child b = (c : Int) := by
  unfold childIdx at h
  cases hn : trie[n]? with
  | none => rw [hn] at h; cases h
  | some nd =>
    rw [hn] at h
    simp only [] at h
    by_cases h0 : 0 ≤ nd.child b
    · rw [if_pos h0] at h
      refine ⟨nd, rfl, ?_⟩
      have := Option.some.inj h
      omega
    · rw [if_neg h0] at h; cases h

theorem childIdx_of_child {trie : List jiayou} {n : Nat} {nd : jiayou} {b : Bool}
    (hn : trie[n]? = some nd) :
    childIdx trie n b = if 0 ≤ nd.child b then some (nd.child b).toNat else none := by
  unfold childIdx
  rw [hn]

theorem nodeAt_succ_eq_some {trie : List jiayou} {k v c : Nat}
    (h : nodeAt trie (k + 1) v = some c) :
    ∃ n, nodeAt trie k (v / 2) = some n ∧ childIdx trie n (v % 2 == 1) = some c := by
  rw [nodeAt_succ] at h
  cases hn : nodeAt trie k (v / 2) with
  | none => rw [hn] at h; cases h
  | some n => rw [hn] at h; exact ⟨n, rfl, h⟩

theorem nodeAt_lt {trie : List jiayou} (hroot : 0 < trie.length)
    (hchild : ∀ (n : Nat) (nd : jiayou) (b : Bool), trie[n]? = some nd →
      nd.child b = -1 ∨ (0 ≤ nd.child b ∧ nd.child b < trie.length))
    {k v n : Nat} (h : nodeAt trie k v = some n) : n < trie.length := by
  cases k with
  | zero =>
    unfold nodeAt at h
    by_cases hv : v = 0
    · rw [if_pos hv] at h
      cases h
      exact hroot
    · rw [if_neg hv] at h; cases h
  | succ k =>
    obtain ⟨m, _, hc⟩ := nodeAt_succ_eq_some h
    obtain ⟨nd, hnd, hcn⟩ := childIdx_eq_some hc
    rcases hchild m nd _ hnd with h1 | ⟨_, h2⟩
    · rw [hcn] at h1; omega
    · rw [hcn] at h2; omega

theorem nodeAt_bound {trie : List jiayou} : ∀ {k v n : Nat},
    nodeAt trie k v = some n → v < 2 ^ k := by
  intro k
  induction k with
  | zero =>
    intro v n h
    unfold nodeAt at h
    by_cases hv : v = 0
    · rw [hv]; decide
    · rw [if_neg hv] at h; cases h
  | succ k ih =>
    intro v n h
    obtain ⟨m, hm, _⟩ := nodeAt_succ_eq_some h
    have := ih hm
    rw [Nat.pow_succ]
    omega

theorem TInv.lt {trie : List jiayou} {f : Nat → Nat → Int} (h : TInv trie f)
    {k v n : Nat} (hn : nodeAt trie k v = some n) : n < trie.length :=
  nodeAt_lt h.root h.child_ok hn

theorem TInv.congr_counts {trie : List jiayou} {f g : Nat → Nat → Int} (h : TInv trie f)
    (hfg : ∀ k v, k ≤ 31 → f k v = g k v) : TInv trie g where
  root := h.root
  child_ok := h.child_ok
  count_ok := fun k v n nd hk hn hnd => by rw [← hfg k v hk]; exact h.count_ok k v n nd hk hn hnd
  inj := h.inj
  surj := h.surj
  absent := fun k v hk hn => by rw [← hfg k v hk]; exact h.absent k v hk hn

theorem childIdx_set_count (trie : List jiayou) (n : Nat) (nd : jiayou) (c : Int)
    (hn : trie[n]? = some nd) (m : Nat) (b : Bool) :
    childIdx (trie.set n { nd with count := c }) m b = childIdx trie m b := by
  unfold childIdx
  rw [List.getElem?_set]
  by_cases hm : n = m
  · subst hm
    have hlt : n < trie.length := by
      by_contra hc
      rw [List.getElem?_eq_none (by omega)] at hn
      cases hn
    rw [if_pos rfl, if_pos hlt, hn]
    rfl
  · rw [if_neg hm]

/-- Changing the count of the node reached by the prefix `(k, v)` by `d` changes the
expected count of that prefix by `d` and of no other prefix. -/
theorem TInv.bump {trie : List jiayou} {f : Nat → Nat → Int} (h : TInv trie f)
    {k v n : Nat} {nd : jiayou} (hk : k ≤ 31) (hn : nodeAt trie k v = some n)
    (hnd : trie[n]? = some nd) (d : Int) :
    TInv (trie.set n { nd with count := nd.count + d })
      (fun k' v' => f k' v' + if k' = k ∧ v' = v then d else 0) := by
  have hna : ∀ k' v', nodeAt (trie.set n { nd with count := nd.count + d }) k' v' =
      nodeAt trie k' v' := nodeAt_congr (childIdx_set_count trie n nd _ hnd)
  have hlt : n < trie.length := h.lt hn
  refine ⟨by rw [List.length_set]; exact h.root, ?_, ?_, ?_, ?_, ?_⟩
  · intro m md b hm
    rw [List.length_set]
    rw [List.getElem?_set] at hm
    by_cases hmn : n = m
    · rw [if_pos hmn, if_pos hlt] at hm
      cases hm
      exact h.child_ok n nd b hnd
    · rw [if_neg hmn] at hm
      exact h.child_ok m md b hm
  · intro k' v' m md hk' hm hmd
    rw [hna] at hm
    rw [List.getElem?_set] at hmd
    by_cases hmn : n = m
    · subst hmn
      rw [if_pos rfl, if_pos hlt] at hmd
      cases hmd
      obtain ⟨h1, h2⟩ := h.inj k' v' k v n hk' hk hm hn
      rw [if_pos ⟨h1, h2⟩, h1, h2]
      show nd.count + d = f k v + d
      rw [h.count_ok k v n nd hk hn hnd]
    · rw [if_neg hmn] at hmd
      have hne : ¬ (k' = k ∧ v' = v) := by
        intro ⟨h1, h2⟩
        rw [h1, h2, hn] at hm
        exact hmn (Option.some.inj hm)
      rw [if_neg hne, Int.add_zero]
      exact h.count_ok k' v' m md hk' hm hmd
  · intro k1 v1 k2 v2 m hk1 hk2 h1 h2
    rw [hna] at h1 h2
    exact h.inj k1 v1 k2 v2 m hk1 hk2 h1 h2
  · intro m hm
    rw [List.length_set] at hm
    obtain ⟨k', v', hk', hm'⟩ := h.surj m hm
    exact ⟨k', v', hk', by rw [hna]; exact hm'⟩
  · intro k' v' hk' hm
    rw [hna] at hm
    have hne : ¬ (k' = k ∧ v' = v) := by
      intro ⟨h1, h2⟩
      rw [h1, h2, hn] at hm
      cases hm
    rw [if_neg hne, Int.add_zero]
    exact h.absent k' v' hk' hm

/-- The vector after linking a fresh node as child `b` of node `n`. -/
theorem getElem?_link (trie : List jiayou) (n : Nat) (nd : jiayou) (b : Bool)
    (hlt : n < trie.length) (m : Nat) :
    ((trie.set n (nd.setChild b trie.length)) ++ [jiayou.fresh])[m]? =
      if m = trie.length then some jiayou.fresh
      else if m = n then some (nd.setChild b trie.length)
      else trie[m]? := by
  rw [List.getElem?_append, List.length_set]
  by_cases hm : m < trie.length
  · rw [if_pos hm, if_neg (by omega), List.getElem?_set]
    by_cases hmn : m = n
    · rw [if_pos hmn.symm, if_pos hlt, if_pos hmn]
    · rw [if_neg (fun h => hmn h.symm), if_neg hmn]
  · rw [if_neg hm]
    by_cases hml : m = trie.length
    · rw [if_pos hml, hml, Nat.sub_self]
      rfl
    · rw [if_neg hml, if_neg (by omega), List.getElem?_eq_none (by simp; omega),
        List.getElem?_eq_none (by omega)]

theorem child_setChild (nd : jiayou) (b b' : Bool) (c : Int) :
    (nd.setChild b c).child b' = if b' = b then c else nd.child b' := by
  cases b <;> cases b' <;> simp [jiayou.setChild, jiayou.child]

theorem count_setChild (nd : jiayou) (b : Bool) (c : Int) :
    (nd.setChild b c).count = nd.count := by
  cases b <;> rfl

theorem childIdx_link (trie : List jiayou) (n : Nat) (nd : jiayou) (b : Bool)
    (hnd : trie[n]? = some nd) (hlt : n < trie.length) (m : Nat) (b' : Bool) :
    childIdx ((trie.set n (nd.setChild b trie.length)) ++ [jiayou.fresh]) m b' =
      if m = trie.length then none
      else if m = n ∧ b' = b then some trie.length
      else childIdx trie m b' := by
  unfold childIdx
  rw [getElem?_link trie n nd b hlt]
  by_cases hml : m = trie.length
  · rw [if_pos hml, if_pos hml]
    cases b' <;> simp [jiayou.child, jiayou.fresh]
  · rw [if_neg hml, if_neg hml]
    by_cases hmn : m = n
    · subst hmn
      rw [if_pos rfl, hnd]
      simp only [child_setChild]
      by_cases hb : b' = b
      · simp [hb]
      · simp [hb]
    · rw [if_neg hmn, if_neg (fun h => hmn h.1)]

theorem path_step (v' v : Nat) (b : Bool) :
    (v' / 2 = v ∧ (v' % 2 == 1) = b) ↔ v' = 2 * v + (if b then 1 else 0) := by
  cases b
  · simp only [beq_eq_false_iff_ne, ne_eq]
    constructor
    · intro ⟨h1, h2⟩; simp; omega
    · intro h; simp at h; omega
  · simp only [beq_iff_eq]
    constructor
    · intro ⟨h1, h2⟩; simp; omega
    · intro h; simp at h; omega

/-- After linking a fresh node below the node of prefix `(k, v)`, exactly the prefix
`(k + 1, 2 v + b)` reaches a new node. -/
theorem nodeAt_link {trie : List jiayou} {f : Nat → Nat → Int} (h : TInv trie f)
    {k v n : Nat} {nd : jiayou} {b : Bool} (hk : k < 31) (hn : nodeAt trie k v = some n)
    (hnd : trie[n]? = some nd) (hc : nd.child b = -1) :
    ∀ k' v', k' ≤ 31 →
      nodeAt ((trie.set n (nd.setChild b trie.length)) ++ [jiayou.fresh]) k' v' =
        if k' = k + 1 ∧ v' = 2 * v + (if b then 1 else 0) then some trie.length
        else nodeAt trie k' v' := by
  have hlt : n < trie.length := h.lt hn
  have hnone : childIdx trie n b = none := by
    rw [childIdx_of_child hnd, hc]
    rfl
  intro k'
  induction k' with
  | zero =>
    intro v' _
    rw [if_neg (by omega)]
    rfl
  | succ k' ih =>
    intro v' hk'
    rw [nodeAt_succ, ih (v' / 2) (by omega)]
    by_cases hcase : k' = k + 1 ∧ v' / 2 = 2 * v + (if b then 1 else 0)
    · rw [if_pos hcase, if_neg (by omega)]
      simp only [Option.bind]
      rw [childIdx_link trie n nd b hnd hlt, if_pos rfl, nodeAt_succ, hcase.1, hcase.2,
        nodeAt_succ]
      have h1 : (2 * v + (if b then 1 else 0)) / 2 = v := by
        cases b <;> (simp; try omega)
      have h2 : ((2 * v + (if b then 1 else 0)) % 2 == 1) = b := by
        cases b <;> (simp; try omega)
      rw [h1, h2, hn]
      simp only [Option.bind]
      rw [hnone]
    · rw [if_neg hcase, nodeAt_succ]
      cases hr : nodeAt trie k' (v' / 2) with
      | none =>
        simp only [Option.bind]
        rw [if_neg]
        intro ⟨h1, h2⟩
        have h3 := (path_step v' v b).mpr h2
        have : k' = k := by omega
        rw [this, h3.1, hn] at hr
        cases hr
      | some m =>
        simp only [Option.bind]
        have hm : m < trie.length := h.lt hr
        rw [childIdx_link trie n nd b hnd hlt, if_neg (by omega)]
        by_cases hmn : m = n ∧ (v' % 2 == 1) = b
        · rw [if_pos hmn]
          have := h.inj k' (v' / 2) k v n (by omega) (by omega) (by rw [hr, hmn.1]) hn
          rw [if_pos ⟨by omega, (path_step v' v b).mp ⟨this.2, hmn.2⟩⟩]
        · rw [if_neg hmn, if_neg]
          intro ⟨h1, h2⟩
          have h3 := (path_step v' v b).mpr h2
          have : k' = k := by omega
          rw [this, h3.1, hn] at hr
          exact hmn ⟨(Option.some.inj hr).symm, h3.2⟩

/-- Linking a fresh node keeps the invariant against the same table of counts. -/
theorem TInv.link {trie : List jiayou} {f : Nat → Nat → Int} (h : TInv trie f)
    {k v n : Nat} {nd : jiayou} {b : Bool} (hk : k < 31) (hn : nodeAt trie k v = some n)
    (hnd : trie[n]? = some nd) (hc : nd.child b = -1) :
    TInv ((trie.set n (nd.setChild b trie.length)) ++ [jiayou.fresh]) f := by
  have hlt : n < trie.length := h.lt hn
  have hna := nodeAt_link h hk hn hnd hc
  have hlen : ((trie.set n (nd.setChild b trie.length)) ++ [jiayou.fresh]).length =
      trie.length + 1 := by simp
  have hold : nodeAt trie (k + 1) (2 * v + (if b then 1 else 0)) = none := by
    cases hr : nodeAt trie (k + 1) (2 * v + (if b then 1 else 0)) with
    | none => rfl
    | some m =>
      exfalso
      obtain ⟨m', hm', hcm⟩ := nodeAt_succ_eq_some hr
      have h1 : (2 * v + (if b then 1 else 0)) / 2 = v := by
        cases b <;> (simp; try omega)
      have h2 : ((2 * v + (if b then 1 else 0)) % 2 == 1) = b := by
        cases b <;> (simp; try omega)
      rw [h1, hn] at hm'
      cases hm'
      rw [h2, childIdx_of_child hnd, hc] at hcm
      cases hcm
  refine ⟨by rw [hlen]; omega, ?_, ?_, ?_, ?_, ?_⟩
  · intro m md b' hm
    rw [hlen]
    rw [getElem?_link trie n nd b hlt] at hm
    by_cases hml : m = trie.length
    · rw [if_pos hml] at hm
      cases hm
      left
      cases b' <;> rfl
    · rw [if_neg hml] at hm
      by_cases hmn : m = n
      · rw [if_pos hmn] at hm
        cases hm
        rw [child_setChild]
        by_cases hb : b' = b
        · rw [if_pos hb]
          right
          omega
        · rw [if_neg hb]
          rcases h.child_ok n nd b' hnd with h1 | h1
          · exact Or.inl h1
          · right; omega
      · rw [if_neg hmn] at hm
        rcases h.child_ok m md b' hm with h1 | h1
        · exact Or.inl h1
        · right; omega
  · intro k' v' m md hk' hm hmd
    rw [hna k' v' hk'] at hm
    rw [getElem?_link trie n nd b hlt] at hmd
    by_cases hcase : k' = k + 1 ∧ v' = 2 * v + (if b then 1 else 0)
    · rw [if_pos hcase] at hm
      cases hm
      rw [if_pos rfl] at hmd
      cases hmd
      rw [hcase.1, hcase.2, h.absent _ _ (by omega) hold]
      rfl
    · rw [if_neg hcase] at hm
      have hml : m ≠ trie.length := by have := h.lt hm; omega
      rw [if_neg hml] at hmd
      by_cases hmn : m = n
      · rw [if_pos hmn] at hmd
        cases hmd
        rw [count_setChild]
        exact h.count_ok k' v' m nd hk' hm (by rw [hmn]; exact hnd)
      · rw [if_neg hmn] at hmd
        exact h.count_ok k' v' m md hk' hm hmd
  · intro k1 v1 k2 v2 m hk1 hk2 h1 h2
    rw [hna k1 v1 hk1] at h1
    rw [hna k2 v2 hk2] at h2
    by_cases hc1 : k1 = k + 1 ∧ v1 = 2 * v + (if b then 1 else 0)
    · rw [if_pos hc1] at h1
      cases h1
      by_cases hc2 : k2 = k + 1 ∧ v2 = 2 * v + (if b then 1 else 0)
      · exact ⟨by omega, by rw [hc1.2, hc2.2]⟩
      · rw [if_neg hc2] at h2
        have := h.lt h2
        omega
    · rw [if_neg hc1] at h1
      by_cases hc2 : k2 = k + 1 ∧ v2 = 2 * v + (if b then 1 else 0)
      · rw [if_pos hc2] at h2
        cases h2
        have := h.lt h1
        omega
      · rw [if_neg hc2] at h2
        exact h.inj k1 v1 k2 v2 m hk1 hk2 h1 h2
  · intro m hm
    rw [hlen] at hm
    by_cases hml : m = trie.length
    · refine ⟨k + 1, 2 * v + (if b then 1 else 0), by omega, ?_⟩
      rw [hna _ _ (by omega), if_pos ⟨rfl, rfl⟩, hml]
    · obtain ⟨k', v', hk', hm'⟩ := h.surj m (by omega)
      refine ⟨k', v', hk', ?_⟩
      rw [hna k' v' hk', if_neg, hm']
      intro ⟨h1, h2⟩
      rw [h1, h2, hold] at hm'
      cases hm'
  · intro k' v' hk' hm
    rw [hna k' v' hk'] at hm
    by_cases hcase : k' = k + 1 ∧ v' = 2 * v + (if b then 1 else 0)
    · rw [if_pos hcase] at hm
      cases hm
    · rw [if_neg hcase] at hm
      exact h.absent k' v' hk' hm

/-- The prefix of `x` one level below the prefix `x / 2 ^ (i + 1)`. -/
theorem div_pow_step (x i : Nat) :
    x / 2 ^ i = 2 * (x / 2 ^ (i + 1)) + (if x.testBit i then 1 else 0) := by
  rw [Nat.testBit_to_div_mod, Nat.pow_succ, ← Nat.div_div_eq_div_mul]
  by_cases h : x / 2 ^ i % 2 = 1
  · simp [h]; omega
  · simp [h]; omega

theorem getElem?_of_lt {trie : List jiayou} {n : Nat} (h : n < trie.length) :
    ∃ nd, trie[n]? = some nd := ⟨trie[n], List.getElem?_eq_getElem h⟩

theorem nodeAt_child {trie : List jiayou} {k v n : Nat} {nd : jiayou} {b : Bool}
    (hn : nodeAt trie k v = some n) (hnd : trie[n]? = some nd) :
    nodeAt trie (k + 1) (2 * v + (if b then 1 else 0)) =
      if 0 ≤ nd.child b then some (nd.child b).toNat else none := by
  have h1 : (2 * v + (if b then 1 else 0)) / 2 = v := by
    cases b <;> (simp; try omega)
  have h2 : ((2 * v + (if b then 1 else 0)) % 2 == 1) = b := by
    cases b <;> (simp; try omega)
  rw [nodeAt_succ, h1, h2, hn]
  simp only [Option.bind]
  rw [childIdx_of_child hnd]

/-- The allocation step of `insert`: afterwards the child for bit `b` of the node of
prefix `(k, v)` exists, and the invariant still holds for the same counts. -/
theorem insert_alloc {trie : List jiayou} {f : Nat → Nat → Int} (h : TInv trie f)
    {k v n : Nat} {nd : jiayou} (b : Bool) (hk : k < 31) (hn : nodeAt trie k v = some n)
    (hnd : trie[n]? = some nd) :
    ∃ (nd1 : jiayou) (c : Nat) (m : jiayou),
      TInv (if nd.child b = -1 then
        (setNode trie (n : Int) (nd.setChild b trie.length)) ++ [jiayou.fresh] else trie) f ∧
      node (if nd.child b = -1 then
        (setNode trie (n : Int) (nd.setChild b trie.length)) ++ [jiayou.fresh] else trie)
          (n : Int) = some nd1 ∧
      nd1.child b = (c : Int) ∧
      (if nd.child b = -1 then
        (setNode trie (n : Int) (nd.setChild b trie.length)) ++ [jiayou.fresh] else trie)[c]?
          = some m ∧
      nodeAt (if nd.child b = -1 then
        (setNode trie (n : Int) (nd.setChild b trie.length)) ++ [jiayou.fresh] else trie)
          (k + 1) (2 * v + (if b then 1 else 0)) = some c := by
  have hlt : n < trie.length := h.lt hn
  by_cases hc : nd.child b = -1
  · simp only [if_pos hc, setNode, Int.toNat_ofNat]
    refine ⟨nd.setChild b trie.length, trie.length, jiayou.fresh, h.link hk hn hnd hc,
      ?_, ?_, ?_, ?_⟩
    · rw [node_natCast, getElem?_link trie n nd b hlt, if_neg (by omega), if_pos rfl]
    · rw [child_setChild, if_pos rfl]
    · rw [getElem?_link trie n nd b hlt, if_pos rfl]
    · rw [nodeAt_link h hk hn hnd hc _ _ (by omega), if_pos ⟨rfl, rfl⟩]
  · simp only [if_neg hc]
    rcases h.child_ok n nd b hnd with h1 | ⟨h1, h2⟩
    · exact absurd h1 hc
    · obtain ⟨m, hm⟩ := getElem?_of_lt (show (nd.child b).toNat < trie.length by omega)
      refine ⟨nd, (nd.child b).toNat, m, h, ?_, by omega, hm, ?_⟩
      · rw [node_natCast]; exact hnd
      · rw [nodeAt_child hn hnd, if_pos h1]

theorem nodeAt_set_count {trie : List jiayou} {n : Nat} {nd : jiayou} (c : Int)
    (hn : trie[n]? = some nd) (k v : Nat) :
    nodeAt (trie.set n { nd with count := c }) k v = nodeAt trie k v :=
  nodeAt_congr (childIdx_set_count trie n nd c hn) k v

theorem sizeToInt_of_lt {n : Nat} (h : n < 2 ^ 31) : sizeToInt n = (n : Int) := by
  unfold sizeToInt
  omega

theorem sizeToInt_two_pow : sizeToInt (2 ^ 31) = -(2 ^ 31) := by
  unfold sizeToInt
  omega

theorem incr_eq_some {c : Int} (h : c + 1 ≤ INT_MAX) : incr c = some (c + 1) := if_pos h

theorem incr_eq_none {c : Int} (h : ¬ c + 1 ≤ INT_MAX) : incr c = none := if_neg h

theorem decr_eq_some {c : Int} (h : INT_MIN ≤ c - 1) : decr c = some (c - 1) := if_pos h

theorem isInt_iff (z : Int) : isInt z = true ↔ -(2 ^ 31) ≤ z ∧ z ≤ 2 ^ 31 - 1 := by
  unfold isInt INT_MIN INT_MAX
  simp

theorem fieldsInt_iff (nd : jiayou) :
    nd.fieldsInt = true ↔ isInt nd.count = true ∧ isInt nd.left = true ∧ isInt nd.right = true := by
  unfold jiayou.fieldsInt
  simp [and_assoc]

theorem mem_of_getElem?_eq_some {trie : List jiayou} {n : Nat} {nd : jiayou}
    (h : trie[n]? = some nd) : nd ∈ trie := by
  obtain ⟨hlt, heq⟩ := List.getElem?_eq_some.mp h
  rw [← heq]
  exact List.getElem_mem hlt

theorem Typed_initial : Typed initial := ⟨by decide, by decide⟩

/-- Writing an `int` into the count of a node keeps the vector well-typed. -/
theorem Typed.set_count {trie : List jiayou} (ht : Typed trie) {n : Nat} {nd : jiayou}
    (hnd : trie[n]? = some nd) {c : Int} (hc : isInt c = true) :
    Typed (trie.set n { nd with count := c }) := by
  refine ⟨by rw [List.length_set]; exact ht.1, ?_⟩
  intro md hmd
  rcases List.mem_or_eq_of_mem_set hmd with h | h
  · exact ht.2 md h
  · have := (fieldsInt_iff nd).mp (ht.2 nd (mem_of_getElem?_eq_some hnd))
    rw [h, fieldsInt_iff]
    exact ⟨hc, this.2.1, this.2.2⟩

/-- Linking a fresh node keeps the vector well-typed while the index of the new node is
an `int`. -/
theorem Typed.link_fresh {trie : List jiayou} (ht : Typed trie) (hlen : trie.length < 2 ^ 31)
    {n : Nat} {nd : jiayou} (hnd : trie[n]? = some nd) (b : Bool) :
    Typed ((trie.set n (nd.setChild b trie.length)) ++ [jiayou.fresh]) := by
  refine ⟨by rw [List.length_append, List.length_set]; simp; omega, ?_⟩
  intro md hmd
  rcases List.mem_append.mp hmd with h | h
  · rcases List.mem_or_eq_of_mem_set h with h | h
    · exact ht.2 md h
    · have := (fieldsInt_iff nd).mp (ht.2 nd (mem_of_getElem?_eq_some hnd))
      have hl : isInt (trie.length : Int) = true := by
        rw [isInt_iff]; omega
      rw [h, fieldsInt_iff]
      cases b
      · exact ⟨this.1, hl, this.2.2⟩
      · exact ⟨this.1, this.2.1, hl⟩
  · rw [List.mem_singleton.mp h]
    decide

/-- One iteration of the loop of `insert`, given the node entered by the iteration. -/
theorem insertLoop_succ (x i : Nat) {trie : List jiayou} {n : Nat} {nd : jiayou}
    (hnd : trie[n]? = some nd) {nd1 : jiayou} {c : Nat} {m : jiayou}
    (hnd1 : node (if nd.child (x.testBit i) = -1 then
        (setNode trie (n : Int) (nd.setChild (x.testBit i) (sizeToInt trie.length))) ++
          [jiayou.fresh]
      else trie) (n : Int) = some nd1)
    (hc : nd1.child (x.testBit i) = (c : Int))
    (hm : (if nd.child (x.testBit i) = -1 then
        (setNode trie (n : Int) (nd.setChild (x.testBit i) (sizeToInt trie.length))) ++
          [jiayou.fresh]
      else trie)[c]? = some m) :
    insertLoop x (i + 1) trie (n : Int) =
      match incr m.count with
      | none => none
      | some c' =>
        insertLoop x i ((if nd.child (x.testBit i) = -1 then
            (setNode trie (n : Int) (nd.setChild (x.testBit i) (sizeToInt trie.length))) ++
              [jiayou.fresh]
          else trie).set c { m with count := c' }) (c : Int) := by
  rw [insertLoop]
  simp only []
  rw [node_natCast, hnd]
  show (match node _ (n : Int) with
    | none => none
    | some nd1 => _) = _
  rw [hnd1]
  show (match node _ (nd1.child (x.testBit i)) with
    | none => none
    | some m => _) = _
  rw [hc, node_natCast, hm]
  simp only [setNode, Int.toNat_ofNat]

/-- An iteration of the loop of `insert` that has to allocate node number `2 ^ 31`
stores a negative index and leaves the vector with its next access. -/
theorem insertLoop_succ_wrap (x i : Nat) {trie : List jiayou} {n : Nat} {nd : jiayou}
    (hnd : trie[n]? = some nd) (hc : nd.child (x.testBit i) = -1)
    (hlen : trie.length = 2 ^ 31) :
    insertLoop x (i + 1) trie (n : Int) = none := by
  have hlt : n < trie.length := (List.getElem?_eq_some.mp hnd).1
  have h1 : node ((setNode trie (n : Int) (nd.setChild (x.testBit i)
      (sizeToInt trie.length))) ++ [jiayou.fresh]) (n : Int) =
      some (nd.setChild (x.testBit i) (sizeToInt trie.length)) := by
    rw [node_natCast, setNode, Int.toNat_ofNat,
      List.getElem?_append_left (by rw [List.length_set]; exact hlt),
      List.getElem?_set, if_pos rfl, if_pos hlt]
  rw [insertLoop]
  simp only []
  rw [node_natCast, hnd]
  show (match node _ (n : Int) with
    | none => none
    | some nd1 => _) = _
  rw [if_pos hc, h1]
  show (match node _ ((nd.setChild (x.testBit i) (sizeToInt trie.length)).child
      (x.testBit i)) with
    | none => none
    | some m => _) = _
  rw [child_setChild, if_pos rfl, hlen, sizeToInt_two_pow]
  rfl

theorem path_table_step (f : Nat → Nat → Int) (d : Int) (x i : Nat) (hi : i + 1 ≤ 31)
    (k v : Nat) :
    (f k v + if k = 31 - i ∧ v = x / 2 ^ i then d else 0) +
        (if 31 - i < k ∧ k ≤ 31 ∧ v = x / 2 ^ (31 - k) then d else 0) =
      f k v + if 31 - (i + 1) < k ∧ k ≤ 31 ∧ v = x / 2 ^ (31 - k) then d else 0 := by
  by_cases hk1 : k = 31 - i
  · subst hk1
    rw [show 31 - (31 - i) = i by omega]
    by_cases hv : v = x / 2 ^ i
    · rw [if_pos ⟨rfl, hv⟩, if_neg (by omega), if_pos ⟨by omega, by omega, hv⟩]
      omega
    · rw [if_neg (fun h => hv h.2), if_neg (by omega), if_neg (fun h => hv h.2.2)]
      omega
  · rw [if_neg (fun h => hk1 h.1)]
    by_cases hc2 : 31 - i < k ∧ k ≤ 31 ∧ v = x / 2 ^ (31 - k)
    · rw [if_pos hc2, if_pos ⟨by omega, hc2.2⟩]
      omega
    · rw [if_neg hc2, if_neg]
      · omega
      · intro hc3
        exact hc2 ⟨by omega, hc3.2⟩

/-- The loop of `insert` from the node of the prefix `x / 2 ^ i` on a well-typed
vector.  Whenever the loop returns, the expected count of every deeper prefix of `x`
has grown by one and the vector is still well-typed; and the loop does return when
the vector has room for `i` more nodes and no count on the path is `INT_MAX`. -/
theorem insertLoop_spec (x : Nat) : ∀ i, i ≤ 31 → ∀ (trie : List jiayou)
    (f : Nat → Nat → Int) (n : Nat), TInv trie f → Typed trie →
    nodeAt trie (31 - i) (x / 2 ^ i) = some n →
    (∀ trie', insertLoop x i trie (n : Int) = some trie' →
      TInv trie' (fun k v =>
        f k v + if 31 - i < k ∧ k ≤ 31 ∧ v = x / 2 ^ (31 - k) then 1 else 0) ∧
      Typed trie') ∧
    (trie.length + i ≤ 2 ^ 31 →
      (∀ k, 31 - i < k → k ≤ 31 → f k (x / 2 ^ (31 - k)) + 1 ≤ INT_MAX) →
      ∃ trie', insertLoop x i trie (n : Int) = some trie' ∧
        trie'.length ≤ trie.length + i) := by
  intro i
  induction i with
  | zero =>
    intro _ trie f n h ht _
    refine ⟨?_, fun _ _ => ⟨trie, rfl, Nat.le_refl _⟩⟩
    intro trie' hrun
    cases Option.some.inj hrun
    refine ⟨h.congr_counts ?_, ht⟩
    intro k v hk
    rw [if_neg (by omega), Int.add_zero]
  | succ i ih =>
    intro hi trie f n h ht hn
    obtain ⟨nd, hnd⟩ := getElem?_of_lt (h.lt hn)
    by_cases hsz : nd.child (x.testBit i) = -1 → trie.length < 2 ^ 31
    · have htrie1 : (if nd.child (x.testBit i) = -1 then
            (setNode trie (n : Int) (nd.setChild (x.testBit i) (sizeToInt trie.length))) ++
              [jiayou.fresh]
          else trie) =
          (if nd.child (x.testBit i) = -1 then
            (setNode trie (n : Int) (nd.setChild (x.testBit i) trie.length)) ++
              [jiayou.fresh]
          else trie) := by
        by_cases hc : nd.child (x.testBit i) = -1
        · rw [if_pos hc, if_pos hc, sizeToInt_of_lt (hsz hc)]
        · rw [if_neg hc, if_neg hc]
      obtain ⟨nd1, c, m, h1, hnd1, hc, hm, hnc⟩ :=
        insert_alloc h (x.testBit i) (show 31 - (i + 1) < 31 by omega) hn hnd
      have ht1 : Typed (if nd.child (x.testBit i) = -1 then
            (setNode trie (n : Int) (nd.setChild (x.testBit i) trie.length)) ++
              [jiayou.fresh]
          else trie) := by
        by_cases hc' : nd.child (x.testBit i) = -1
        · rw [if_pos hc', setNode, Int.toNat_ofNat]
          exact ht.link_fresh (hsz hc') hnd _
        · rw [if_neg hc']
          exact ht
      have hlen1 : (if nd.child (x.testBit i) = -1 then
            (setNode trie (n : Int) (nd.setChild (x.testBit i) trie.length)) ++
              [jiayou.fresh]
          else trie).length ≤ trie.length + 1 := by
        by_cases hc' : nd.child (x.testBit i) = -1
        · rw [if_pos hc', setNode, List.length_append, List.length_set]
          simp
        · rw [if_neg hc']
          omega
      rw [← htrie1] at h1 hnd1 hm hnc ht1 hlen1
      have hstep := insertLoop_succ x i hnd hnd1 hc hm
      rw [← div_pow_step, show 31 - (i + 1) + 1 = 31 - i by omega] at hnc
      have hcount := h1.count_ok _ _ c m (show 31 - i ≤ 31 by omega) hnc hm
      have hmint := (fieldsInt_iff m).mp (ht1.2 m (mem_of_getElem?_eq_some hm))
      by_cases hcnt : m.count + 1 ≤ INT_MAX
      · rw [incr_eq_some hcnt] at hstep
        have h2 := h1.bump (show 31 - i ≤ 31 by omega) hnc hm 1
        have ht2 : Typed (List.set _ c { m with count := m.count + 1 }) :=
          ht1.set_count hm (c := m.count + 1)
            (by
              have := (isInt_iff m.count).mp hmint.1
              rw [isInt_iff]
              unfold INT_MAX at hcnt
              omega)
        obtain ⟨hA, hB⟩ := ih (by omega) _ _ c h2 ht2
          (by rw [nodeAt_set_count _ hm]; exact hnc)
        constructor
        · intro trie' hrun
          rw [hstep] at hrun
          obtain ⟨h3, ht3⟩ := hA trie' hrun
          exact ⟨h3.congr_counts (fun k v _ => path_table_step f 1 x i hi k v), ht3⟩
        · intro hlen hf
          obtain ⟨trie', hrun, hl⟩ := hB
            (by rw [List.length_set]; omega)
            (by
              intro k hk1 hk2
              rw [if_neg (by omega), Int.add_zero]
              exact hf k (by omega) hk2)
          refine ⟨trie', by rw [hstep]; exact hrun, ?_⟩
          rw [List.length_set] at hl
          omega
      · rw [incr_eq_none hcnt] at hstep
        constructor
        · intro trie' hrun
          rw [hstep] at hrun
          cases hrun
        · intro _ hf
          have := hf (31 - i) (by omega) (by omega)
          rw [show 31 - (31 - i) = i by omega, ← hcount] at this
          exact absurd this hcnt
    · have hc : nd.child (x.testBit i) = -1 := by
        by_contra hc
        exact hsz (fun h => absurd h hc)
      have hlen : trie.length = 2 ^ 31 := by
        have h1 : ¬ trie.length < 2 ^ 31 := fun h => hsz (fun _ => h)
        have h2 := ht.1
        omega
      have hnone := insertLoop_succ_wrap x i hnd hc hlen
      constructor
      · intro trie' hrun
        rw [hnone] at hrun
        cases hrun
      · intro hl _
        omega

/-- The loop of `erase` from the node of the prefix `x / 2 ^ i` on a well-typed
vector, when every deeper prefix of `x` has a positive expected count: it returns, the
expected count of every deeper prefix of `x` drops by one, and the vector keeps its
length and stays well-typed. -/
theorem eraseLoop_spec (x : Nat) : ∀ i, i ≤ 31 → ∀ (trie : List jiayou)
    (f : Nat → Nat → Int) (n : Nat), TInv trie f → Typed trie →
    nodeAt trie (31 - i) (x / 2 ^ i) = some n →
    (∀ k, 31 - i < k → k ≤ 31 → 0 < f k (x / 2 ^ (31 - k))) →
    ∃ trie', eraseLoop x i trie (n : Int) = some trie' ∧
      TInv trie' (fun k v =>
        f k v + if 31 - i < k ∧ k ≤ 31 ∧ v = x / 2 ^ (31 - k) then -1 else 0) ∧
      Typed trie' ∧ trie'.length = trie.length := by
  intro i
  induction i with
  | zero =>
    intro _ trie f n h ht _ _
    refine ⟨trie, rfl, h.congr_counts ?_, ht, rfl⟩
    intro k v hk
    rw [if_neg (by omega), Int.add_zero]
  | succ i ih =>
    intro hi trie f n h ht hn hf
    obtain ⟨nd, hnd⟩ := getElem?_of_lt (h.lt hn)
    have hnc := nodeAt_child (b := x.testBit i) hn hnd
    rw [← div_pow_step, show 31 - (i + 1) + 1 = 31 - i by omega] at hnc
    have hpos := hf (31 - i) (by omega) (by omega)
    rw [show 31 - (31 - i) = i by omega] at hpos
    have hne : nodeAt trie (31 - i) (x / 2 ^ i) ≠ none := by
      intro hnone
      rw [h.absent _ _ (by omega) hnone] at hpos
      exact absurd hpos (by decide)
    have h0 : 0 ≤ nd.child (x.testBit i) := by
      by_contra hc
      rw [if_neg hc] at hnc
      exact hne hnc
    rw [if_pos h0] at hnc
    have hcast : nd.child (x.testBit i) = (((nd.child (x.testBit i)).toNat : Nat) : Int) := by
      omega
    obtain ⟨m, hm⟩ := getElem?_of_lt (h.lt hnc)
    have hcount := h.count_ok _ _ _ m (show 31 - i ≤ 31 by omega) hnc hm
    have hmint := (fieldsInt_iff m).mp (ht.2 m (mem_of_getElem?_eq_some hm))
    have hmr := (isInt_iff m.count).mp hmint.1
    have hdecr : decr m.count = some (m.count + -1) :=
      decr_eq_some (by unfold INT_MIN; omega)
    have h2 := h.bump (show 31 - i ≤ 31 by omega) hnc hm (-1)
    have ht2 : Typed (List.set _ _ { m with count := m.count + -1 }) :=
      ht.set_count hm (c := m.count + -1) (by rw [isInt_iff]; omega)
    obtain ⟨trie', hrun, h3, ht3, hl3⟩ := ih (by omega) _ _ _ h2 ht2
      (by rw [nodeAt_set_count _ hm]; exact hnc)
      (by
        intro k hk1 hk2
        rw [if_neg (by omega), Int.add_zero]
        exact hf k (by omega) hk2)
    rw [List.length_set] at hl3
    refine ⟨trie', ?_, h3.congr_counts (fun k v _ => path_table_step f (-1) x i hi k v), ht3,
      hl3⟩
    rw [eraseLoop, node_natCast, hnd]
    show (match node trie (nd.child (x.testBit i)) with
      | none => none
      | some m => _) = _
    rw [hcast, node_natCast, hm]
    show (match decr m.count with
      | none => none
      | some c => _) = _
    rw [hdecr]
    exact hrun

theorem pathCount_cons (x : Nat) (s : List Nat) (k v : Nat) :
    pathCount (x :: s) k v = pathCount s k v + if x / 2 ^ (31 - k) = v then 1 else 0 := by
  unfold pathCount
  rw [List.countP_cons]
  simp only [beq_iff_eq]

theorem pathCount_erase {x : Nat} {s : List Nat} (hx : x ∈ s) (k v : Nat) :
    pathCount s k v =
      pathCount (s.erase x) k v + if x / 2 ^ (31 - k) = v then 1 else 0 := by
  rw [← pathCount_cons]
  exact List.Perm.countP_eq _ (List.perm_cons_erase hx)

theorem pathCount_pos_iff (s : List Nat) (k v : Nat) :
    0 < pathCount s k v ↔ ∃ y, y ∈ s ∧ y / 2 ^ (31 - k) = v := by
  unfold pathCount
  rw [List.countP_pos_iff]
  simp only [beq_iff_eq]

theorem div_two_pow_31 {x : Nat} (hx : x < 2 ^ 31) : x / 2 ^ 31 = 0 :=
  Nat.div_eq_of_lt hx

theorem path_indicator (a d : Int) (k v x : Nat) (hk : k ≤ 31) (hx : x < 2 ^ 31) :
    (a + if k = 0 ∧ v = 0 then d else 0) +
      (if 31 - 31 < k ∧ k ≤ 31 ∧ v = x / 2 ^ (31 - k) then d else 0) =
      a + if x / 2 ^ (31 - k) = v then d else 0 := by
  by_cases hk0 : k = 0
  · subst hk0
    have h0 : x / 2147483648 = 0 := by omega
    by_cases hv : v = 0
    · subst hv
      simp [h0]
    · have hv' : ¬ 0 = v := fun h => hv h.symm
      simp [hv, hv', h0]
  · generalize x / 2 ^ (31 - k) = p
    split_ifs <;> omega


theorem pathCount_le_length (s : List Nat) (k v : Nat) : pathCount s k v ≤ s.length :=
  List.countP_le_length _

/-- The call `insert(trie, x)` on a well-typed vector that represents `s`.  Whenever
the call returns, the vector represents `x :: s` and is well-typed; and the call does
return when the vector has room for 31 more nodes and `s` has fewer than `INT_MAX`
elements. -/
theorem insert_spec {trie : List jiayou} {s : List Nat}
    (h : TInv trie (fun k v => (pathCount s k v : Int))) (ht : Typed trie) {x : Nat}
    (hx : x < 2 ^ 31) :
    (∀ trie', insert trie x = some trie' →
      TInv trie' (fun k v => (pathCount (x :: s) k v : Int)) ∧ Typed trie') ∧
    (trie.length + 31 ≤ 2 ^ 31 → s.length + 1 < 2 ^ 31 →
      ∃ trie', insert trie x = some trie' ∧ trie'.length ≤ trie.length + 31) := by
  have hroot : nodeAt trie 0 0 = some 0 := rfl
  obtain ⟨r, hr⟩ := getElem?_of_lt h.root
  have hcount := h.count_ok 0 0 0 r (Nat.zero_le 31) hroot hr
  simp only [] at hcount
  have hrint := (fieldsInt_iff r).mp (ht.2 r (mem_of_getElem?_eq_some hr))
  have hrr := (isInt_iff r.count).mp hrint.1
  by_cases hcnt : r.count + 1 ≤ INT_MAX
  · have hins : insert trie x =
        insertLoop x 31 (trie.set 0 { r with count := r.count + 1 }) ((0 : Nat) : Int) := by
      unfold insert
      rw [show (0 : Int) = ((0 : Nat) : Int) from rfl, node_natCast, hr]
      show (match incr r.count with
        | none => none
        | some c => _) = _
      rw [incr_eq_some hcnt]
      rfl
    have h1 := h.bump (Nat.zero_le 31) hroot hr 1
    have ht1 : Typed (trie.set 0 { r with count := r.count + 1 }) :=
      ht.set_count hr (c := r.count + 1)
        (by rw [isInt_iff]; unfold INT_MAX at hcnt; omega)
    obtain ⟨hA, hB⟩ := insertLoop_spec x 31 (Nat.le_refl _) _ _ 0 h1 ht1
      (by rw [nodeAt_set_count _ hr, div_two_pow_31 hx]; rfl)
    constructor
    · intro trie' hrun
      rw [hins] at hrun
      obtain ⟨h2, ht2⟩ := hA trie' hrun
      refine ⟨h2.congr_counts ?_, ht2⟩
      intro k v hk
      rw [path_indicator _ _ k v x hk hx, pathCount_cons]
      split_ifs <;> push_cast <;> omega
    · intro hlen hs
      obtain ⟨trie', hrun, hl⟩ := hB (by rw [List.length_set]; exact hlen)
        (by
          intro k hk1 hk2
          rw [if_neg (by omega), Int.add_zero]
          have := pathCount_le_length s k (x / 2 ^ (31 - k))
          unfold INT_MAX
          omega)
      rw [List.length_set] at hl
      exact ⟨trie', by rw [hins]; exact hrun, hl⟩
  · have hins : insert trie x = none := by
      unfold insert
      rw [show (0 : Int) = ((0 : Nat) : Int) from rfl, node_natCast, hr]
      show (match incr r.count with
        | none => none
        | some c => _) = _
      rw [incr_eq_none hcnt]
    constructor
    · intro trie' hrun
      rw [hins] at hrun
      cases hrun
    · intro _ hs
      exfalso
      have := pathCount_le_length s 0 0
      unfold INT_MAX at hcnt
      omega

/-- The call `erase(trie, x)` on a stored value `x` returns and removes one copy; the
vector keeps its length and stays well-typed. -/
theorem erase_spec {trie : List jiayou} {s : List Nat}
    (h : TInv trie (fun k v => (pathCount s k v : Int))) (ht : Typed trie) {x : Nat}
    (hx : x < 2 ^ 31) (hmem : x ∈ s) :
    ∃ trie', erase trie x = some trie' ∧
      TInv trie' (fun k v => (pathCount (s.erase x) k v : Int)) ∧ Typed trie' ∧
      trie'.length = trie.length := by
  have hroot : nodeAt trie 0 0 = some 0 := rfl
  obtain ⟨r, hr⟩ := getElem?_of_lt h.root
  have hcount := h.count_ok 0 0 0 r (Nat.zero_le 31) hroot hr
  simp only [] at hcount
  have hrint := (fieldsInt_iff r).mp (ht.2 r (mem_of_getElem?_eq_some hr))
  have hrr := (isInt_iff r.count).mp hrint.1
  have hpos : 0 < pathCount s 0 0 :=
    (pathCount_pos_iff s 0 0).mpr ⟨x, hmem, div_two_pow_31 hx⟩
  have hdecr : decr r.count = some (r.count + -1) :=
    decr_eq_some (by unfold INT_MIN; omega)
  have h1 := h.bump (Nat.zero_le 31) hroot hr (-1)
  have ht1 : Typed (trie.set 0 { r with count := r.count + -1 }) :=
    ht.set_count hr (c := r.count + -1) (by rw [isInt_iff]; omega)
  obtain ⟨trie', hrun, h2, ht2, hl2⟩ := eraseLoop_spec x 31 (Nat.le_refl _) _ _ 0 h1 ht1
    (by rw [nodeAt_set_count _ hr, div_two_pow_31 hx]; rfl)
    (by
      intro k hk1 hk2
      rw [if_neg (by omega), Int.add_zero]
      have := (pathCount_pos_iff s k (x / 2 ^ (31 - k))).mpr ⟨x, hmem, rfl⟩
      omega)
  rw [List.length_set] at hl2
  refine ⟨trie', ?_, h2.congr_counts ?_, ht2, hl2⟩
  · unfold erase
    rw [show (0 : Int) = ((0 : Nat) : Int) from rfl, node_natCast, hr]
    show (match decr r.count with
      | none => none
      | some c => _) = _
    rw [hdecr]
    exact hrun
  · intro k v hk
    rw [path_indicator _ _ k v x hk hx, pathCount_erase hmem k v]
    split_ifs <;> push_cast <;> omega


theorem or_bit_eq (q i : Nat) : 2 ^ (i + 1) * q ||| 1 <<< i = 2 ^ i * (2 * q + 1) := by
  rw [Nat.shiftLeft_eq, Nat.one_mul, ← Nat.mul_add_lt_is_or
    (Nat.pow_lt_pow_right (by decide) (Nat.lt_succ_self i)) q, Nat.pow_succ]
  ring

theorem xor_div_pow_step (x y i : Nat) :
    (x ^^^ y) / 2 ^ i =
      2 * ((x ^^^ y) / 2 ^ (i + 1)) + (if (x.testBit i ^^ y.testBit i) then 1 else 0) := by
  rw [div_pow_step (x ^^^ y) i, Nat.testBit_xor]

theorem path_split (y i p : Nat) (c : Bool) :
    y / 2 ^ i = 2 * p + (if c then 1 else 0) ↔ y / 2 ^ (i + 1) = p ∧ y.testBit i = c := by
  rw [div_pow_step y i]
  cases c <;> cases y.testBit i <;> simp <;> omega

theorem xor_div_le (x y i : Nat) : (x ^^^ y) / 2 ^ i ≤ 2 * ((x ^^^ y) / 2 ^ (i + 1)) + 1 := by
  rw [xor_div_pow_step x y i]
  split_ifs <;> omega

theorem bool_eq_of_ne_not {b c : Bool} (h : b ≠ !c) : b = c := by
  cases b <;> cases c <;> simp at h ⊢

theorem bool_eq_not_of_ne {b c : Bool} (h : b ≠ c) : b = !c := by
  cases b <;> cases c <;> simp at h ⊢

/-- The loop of `query` from the node of a prefix `p` that some stored value has: it
returns the largest `x ^^^ y` over the stored values `y`. -/
theorem queryLoop_spec {trie : List jiayou} {s : List Nat}
    (h : TInv trie (fun k v => (pathCount s k v : Int))) (x : Nat) :
    ∀ i, i ≤ 31 → ∀ (n p q res : Nat),
      nodeAt trie (31 - i) p = some n →
      (∃ y, y ∈ s ∧ y / 2 ^ i = p) →
      res = 2 ^ i * q →
      (∀ y, y ∈ s → y / 2 ^ i = p → (x ^^^ y) / 2 ^ i = q) →
      (∀ y, y ∈ s → y / 2 ^ i ≠ p → (x ^^^ y) / 2 ^ i < q) →
      ∃ r, queryLoop trie x i (n : Int) res = some r ∧
        (∃ y, y ∈ s ∧ r = x ^^^ y) ∧ ∀ y, y ∈ s → x ^^^ y ≤ r := by
  intro i
  induction i with
  | zero =>
    intro _ n p q res _ ⟨y0, hy0, hy0p⟩ hres h1 h2
    simp only [Nat.pow_zero, Nat.div_one, Nat.one_mul] at *
    refine ⟨res, rfl, ⟨y0, hy0, ?_⟩, ?_⟩
    · rw [hres, h1 y0 hy0 hy0p]
    · intro y hy
      by_cases hyp : y = p
      · rw [hres, h1 y hy hyp]
      · rw [hres]
        exact Nat.le_of_lt (h2 y hy hyp)
  | succ i ih =>
    intro hi n p q res hn ⟨y0, hy0, hy0p⟩ hres h1 h2
    obtain ⟨nd, hnd⟩ := getElem?_of_lt (h.lt hn)
    have hk : 31 - (i + 1) + 1 = 31 - i := by omega
    have hki : 31 - (31 - i) = i := by omega
    -- the branch that keeps the bit of `x`
    have hstay : (∀ y, y ∈ s → y / 2 ^ i ≠ 2 * p + (if (!x.testBit i) then 1 else 0)) →
        ∃ r, queryLoop trie x i (nd.child (x.testBit i)) res = some r ∧
          (∃ y, y ∈ s ∧ r = x ^^^ y) ∧ ∀ y, y ∈ s → x ^^^ y ≤ r := by
      intro hno
      have hbit : ∀ y, y ∈ s → y / 2 ^ (i + 1) = p → y.testBit i = x.testBit i := by
        intro y hy hyp
        apply bool_eq_of_ne_not
        intro hc
        exact hno y hy ((path_split y i p _).mpr ⟨hyp, hc⟩)
      have hy0' : y0 / 2 ^ i = 2 * p + (if x.testBit i then 1 else 0) :=
        (path_split y0 i p _).mpr ⟨hy0p, hbit y0 hy0 hy0p⟩
      have hpos := (pathCount_pos_iff s (31 - i)
        (2 * p + (if x.testBit i then 1 else 0))).mpr ⟨y0, hy0, by rw [hki]; exact hy0'⟩
      have hnc := nodeAt_child (b := x.testBit i) hn hnd
      rw [hk] at hnc
      have h0 : 0 ≤ nd.child (x.testBit i) := by
        by_contra hc
        rw [if_neg hc] at hnc
        have := h.absent _ _ (by omega) hnc
        simp only [] at this
        omega
      rw [if_pos h0] at hnc
      have hcast : nd.child (x.testBit i) =
          (((nd.child (x.testBit i)).toNat : Nat) : Int) := by omega
      rw [hcast]
      apply ih (by omega) _ _ (2 * q) res hnc ⟨y0, hy0, hy0'⟩
      · rw [hres, Nat.pow_succ]; ring
      · intro y hy hyp
        obtain ⟨hy1, hyb⟩ := (path_split y i p _).mp hyp
        rw [xor_div_pow_step, h1 y hy hy1, hyb, Bool.xor_self]
        rfl
      · intro y hy hyp
        by_cases hy1 : y / 2 ^ (i + 1) = p
        · exact absurd ((path_split y i p _).mpr ⟨hy1, hbit y hy hy1⟩) hyp
        · have := h2 y hy hy1
          have := xor_div_le x y i
          omega
    rw [queryLoop, node_natCast, hnd]
    simp only []
    have hncw := nodeAt_child (b := !x.testBit i) hn hnd
    rw [hk] at hncw
    by_cases hcw : nd.child (!x.testBit i) ≠ -1
    · rw [if_pos hcw]
      rcases h.child_ok n nd (!x.testBit i) hnd with hc1 | ⟨hc1, hc2⟩
      · exact absurd hc1 hcw
      · rw [if_pos hc1] at hncw
        have hcast : nd.child (!x.testBit i) =
            (((nd.child (!x.testBit i)).toNat : Nat) : Int) := by omega
        obtain ⟨m, hm⟩ := getElem?_of_lt (h.lt hncw)
        have hcount := h.count_ok _ _ _ m (by omega) hncw hm
        simp only [] at hcount
        have hnode : node trie (nd.child (!x.testBit i)) = some m := by
          rw [hcast, node_natCast]; exact hm
        rw [hnode]
        simp only []
        by_cases hpos : m.count > 0
        · rw [if_pos hpos, hcast]
          obtain ⟨y1, hy1, hy1p⟩ := (pathCount_pos_iff s (31 - i) _).mp
            (by omega : 0 < pathCount s (31 - i) (2 * p + (if (!x.testBit i) then 1 else 0)))
          rw [hki] at hy1p
          apply ih (by omega) _ _ (2 * q + 1) _ hncw ⟨y1, hy1, hy1p⟩
          · rw [hres, or_bit_eq]
          · intro y hy hyp
            obtain ⟨hy1, hyb⟩ := (path_split y i p _).mp hyp
            rw [xor_div_pow_step, h1 y hy hy1, hyb, Bool.xor_not_self]
            rfl
          · intro y hy hyp
            by_cases hy1 : y / 2 ^ (i + 1) = p
            · have hyb : y.testBit i = x.testBit i := by
                have : y.testBit i ≠ !x.testBit i := fun hc =>
                  hyp ((path_split y i p _).mpr ⟨hy1, hc⟩)
                exact bool_eq_of_ne_not this
              rw [xor_div_pow_step, h1 y hy hy1, hyb, Bool.xor_self]
              simp
            · have := h2 y hy hy1
              have := xor_div_le x y i
              omega
        · rw [if_neg hpos]
          apply hstay
          intro y hy hyp
          have := (pathCount_pos_iff s (31 - i)
            (2 * p + (if (!x.testBit i) then 1 else 0))).mpr ⟨y, hy, by rw [hki]; exact hyp⟩
          omega
    · rw [if_neg hcw]
      apply hstay
      intro y hy hyp
      have hc : ¬ 0 ≤ nd.child (!x.testBit i) := by
        have : nd.child (!x.testBit i) = -1 := by simpa using hcw
        omega
      rw [if_neg hc] at hncw
      have h0 := h.absent _ _ (by omega) hncw
      simp only [] at h0
      have := (pathCount_pos_iff s (31 - i)
        (2 * p + (if (!x.testBit i) then 1 else 0))).mpr ⟨y, hy, by rw [hki]; exact hyp⟩
      omega

theorem childIdx_initial (n : Nat) (b : Bool) : childIdx initial n b = none := by
  unfold childIdx initial
  cases n with
  | zero => cases b <;> rfl
  | succ n => rfl

theorem nodeAt_initial_succ (k v : Nat) : nodeAt initial (k + 1) v = none := by
  rw [nodeAt_succ]
  cases nodeAt initial k (v / 2) with
  | none => rfl
  | some n => exact childIdx_initial n _

theorem nodeAt_initial {k v n : Nat} (h : nodeAt initial k v = some n) :
    k = 0 ∧ v = 0 ∧ n = 0 := by
  cases k with
  | zero =>
    unfold nodeAt at h
    by_cases hv : v = 0
    · rw [if_pos hv] at h
      exact ⟨rfl, hv, (Option.some.inj h).symm⟩
    · rw [if_neg hv] at h; cases h
  | succ k => rw [nodeAt_initial_succ] at h; cases h

/-- The single-root vector represents the empty multiset. -/
theorem TInv_initial : TInv initial (fun k v => (pathCount [] k v : Int)) := by
  refine ⟨by decide, ?_, ?_, ?_, ?_, ?_⟩
  · intro n nd b hn
    cases n with
    | zero =>
      cases Option.some.inj hn
      left
      cases b <;> rfl
    | succ n => cases hn
  · intro k v n nd _ hn hnd
    obtain ⟨_, _, h3⟩ := nodeAt_initial hn
    subst h3
    cases Option.some.inj hnd
    rfl
  · intro k v k' v' n _ _ h1 h2
    obtain ⟨a1, a2, _⟩ := nodeAt_initial h1
    obtain ⟨b1, b2, _⟩ := nodeAt_initial h2
    exact ⟨by rw [a1, b1], by rw [a2, b2]⟩
  · intro n hn
    have : n = 0 := by
      have : initial.length = 1 := rfl
      omega
    subst this
    exact ⟨0, 0, by omega, rfl⟩
  · intro k v _ _
    rfl


/-- Whenever an admissible sequence of calls runs to completion, it leaves a well-typed
vector that represents the stored multiset. -/
theorem run_spec : ∀ (ops : List Op) (s : List Nat) (trie : List jiayou),
    TInv trie (fun k v => (pathCount s k v : Int)) → Typed trie →
    (∀ y, y ∈ s → y < 2 ^ 31) → Admissible ops s →
    ∀ t, run ops trie = some t →
      TInv t (fun k v => (pathCount (stored ops s) k v : Int)) ∧ Typed t ∧
      ∀ y, y ∈ stored ops s → y < 2 ^ 31 := by
  intro ops
  induction ops with
  | nil =>
    intro s trie h ht hs _ t hrun
    cases Option.some.inj hrun
    exact ⟨h, ht, hs⟩
  | cons op ops ih =>
    intro s trie h ht hs hadm t hrun
    cases op with
    | ins y =>
      obtain ⟨hy, hrest⟩ := hadm
      rw [run] at hrun
      cases hins : insert trie y with
      | none => rw [hins] at hrun; cases hrun
      | some t1 =>
        rw [hins] at hrun
        obtain ⟨hinv1, ht1⟩ := (insert_spec h ht hy).1 t1 hins
        exact ih (y :: s) t1 hinv1 ht1
          (by
            intro z hz
            rcases List.mem_cons.mp hz with hz | hz
            · rw [hz]; exact hy
            · exact hs z hz)
          hrest t hrun
    | del y =>
      obtain ⟨hy, hmem, hrest⟩ := hadm
      obtain ⟨t1, ht1, hinv1, hty1, _⟩ := erase_spec h ht hy hmem
      rw [run, ht1] at hrun
      exact ih (s.erase y) t1 hinv1 hty1
        (fun z hz => hs z (List.mem_of_mem_erase hz)) hrest t hrun

/-- An admissible sequence of calls runs to completion when the vector has room for 31
more nodes per `insert` call and the number of stored values stays below `INT_MAX`. -/
theorem run_total : ∀ (ops : List Op) (s : List Nat) (trie : List jiayou),
    TInv trie (fun k v => (pathCount s k v : Int)) → Typed trie →
    Admissible ops s →
    trie.length + 31 * insertCount ops ≤ 2 ^ 31 → s.length + insertCount ops < 2 ^ 31 →
    ∃ t, run ops trie = some t := by
  intro ops
  induction ops with
  | nil => intro s trie _ _ _ _ _; exact ⟨trie, rfl⟩
  | cons op ops ih =>
    intro s trie h ht hadm hlen hs
    cases op with
    | ins y =>
      obtain ⟨hy, hrest⟩ := hadm
      rw [insertCount] at hlen hs
      obtain ⟨hA, hB⟩ := insert_spec h ht hy
      obtain ⟨t1, hins, hl1⟩ := hB (by omega) (by omega)
      obtain ⟨hinv1, ht1⟩ := hA t1 hins
      obtain ⟨t, hrun⟩ := ih (y :: s) t1 hinv1 ht1 hrest (by omega)
        (by rw [List.length_cons]; omega)
      exact ⟨t, by rw [run, hins]; exact hrun⟩
    | del y =>
      obtain ⟨hy, hmem, hrest⟩ := hadm
      rw [insertCount] at hlen hs
      obtain ⟨t1, ht1, hinv1, hty1, hl1⟩ := erase_spec h ht hy hmem
      obtain ⟨t, hrun⟩ := ih (s.erase y) t1 hinv1 hty1 hrest (by omega)
        (by
          have := List.length_erase_of_mem hmem
          omega)
      exact ⟨t, by rw [run, ht1]; exact hrun⟩

theorem Admissible_replicate_ins : ∀ (n : Nat) (s : List Nat),
    Admissible (List.replicate n (Op.ins 0)) s := by
  intro n
  induction n with
  | zero => intro s; exact trivial
  | succ n ih => intro s; exact ⟨by decide, ih (0 :: s)⟩

theorem pathCount_stored_replicate_ins : ∀ (n : Nat) (s : List Nat),
    pathCount (stored (List.replicate n (Op.ins 0)) s) 0 0 = n + pathCount s 0 0 := by
  intro n
  induction n with
  | zero => intro s; exact (Nat.zero_add _).symm
  | succ n ih =>
    intro s
    rw [List.replicate_succ, stored, ih (0 :: s), pathCount_cons]
    simp
    omega

/-- After `n` calls `insert(trie, 0)` that all returned, the count of the root is `n`
and is an `int`, so `n` is at most `INT_MAX`. -/
theorem run_replicate_ins_bound (n : Nat) (t : List jiayou)
    (hrun : run (List.replicate n (Op.ins 0)) initial = some t) : n < 2 ^ 31 := by
  obtain ⟨hinv, ht, _⟩ := run_spec _ [] initial TInv_initial Typed_initial
    (fun y hy => by cases hy) (Admissible_replicate_ins n []) t hrun
  obtain ⟨r, hr⟩ := getElem?_of_lt hinv.root
  have hcount := hinv.count_ok 0 0 0 r (Nat.zero_le 31) rfl hr
  simp only [] at hcount
  rw [pathCount_stored_replicate_ins] at hcount
  have hrint := (fieldsInt_iff r).mp (ht.2 r (mem_of_getElem?_eq_some hr))
  have hrr := (isInt_iff r.count).mp hrint.1
  have h0 : pathCount [] 0 0 = 0 := rfl
  omega


/-- The call `query(trie, x)` on a vector representing a non-empty multiset. -/
theorem query_spec {trie : List jiayou} {s : List Nat}
    (h : TInv trie (fun k v => (pathCount s k v : Int))) (hs : ∀ y, y ∈ s → y < 2 ^ 31)
    (hne : s ≠ []) {x : Nat} (hx : x < 2 ^ 31) :
    ∃ r, query trie x = some r ∧ (∃ y, y ∈ s ∧ r = x ^^^ y) ∧ ∀ y, y ∈ s → x ^^^ y ≤ r := by
  obtain ⟨y0, hy0⟩ := List.exists_mem_of_ne_nil s hne
  have := queryLoop_spec h x 31 (Nat.le_refl _) 0 0 0 0 rfl
    ⟨y0, hy0, div_two_pow_31 (hs y0 hy0)⟩ rfl
    (fun y hy _ => div_two_pow_31 (Nat.xor_lt_two_pow hx (hs y hy)))
    (fun y hy hc => absurd (div_two_pow_31 (hs y hy)) hc)
  exact this


/-- C19 (trie max-XOR query), within the range of `int`: take any sequence of
`insert` and `erase` calls on the single-root trie with values in `[0, 2 ^ 31)` in which
`erase` is only applied to a stored value.  If it has fewer than `2 ^ 31 / 31` `insert`
calls, it runs to completion: no `count++` overflows and no access leaves the vector.
And whenever it runs to completion, all fields are values of type `int`, every node
is reached by a bit-prefix, every node reached by a prefix carries as count the number
of stored values, with multiplicity, that have this prefix, and, if the stored multiset
is not empty, `query(trie, x)` for `x < 2 ^ 31` returns, without leaving the vector,
the maximum of `x ^^^ y` over the stored values `y`. -/
theorem trie_counts_and_max_xor (ops : List Op) (hadm : Admissible ops []) :
    (31 * insertCount ops < 2 ^ 31 → ∃ t, run ops initial = some t) ∧
    ∀ t, run ops initial = some t →
      Typed t ∧
      (∀ n, n < t.length → ∃ k v, k ≤ 31 ∧ nodeAt t k v = some n) ∧
      (∀ (k v n : Nat) (nd : jiayou), k ≤ 31 → nodeAt t k v = some n → t[n]? = some nd →
        nd.count = (pathCount (stored ops []) k v : Int)) ∧
      (stored ops [] ≠ [] → ∀ x, x < 2 ^ 31 →
        ∃ r, query t x = some r ∧
          (∃ y, y ∈ stored ops [] ∧ r = x ^^^ y) ∧
          ∀ y, y ∈ stored ops [] → x ^^^ y ≤ r) := by
  constructor
  · intro hb
    exact run_total ops [] initial TInv_initial Typed_initial hadm
      (by
        have : initial.length = 1 := rfl
        omega)
      (by
        have : ([] : List Nat).length = 0 := rfl
        omega)
  · intro t ht
    obtain ⟨hinv, hty, hb⟩ := run_spec ops [] initial TInv_initial Typed_initial
      (fun y hy => by cases hy) hadm t ht
    exact ⟨hty, hinv.surj, hinv.count_ok, fun hne x hx => query_spec hinv hb hne hx⟩

theorem trie_counts_and_max_xor_witness :
    Admissible [Op.ins 5, Op.ins 3, Op.ins 5, Op.del 3] [] ∧
      31 * insertCount [Op.ins 5, Op.ins 3, Op.ins 5, Op.del 3] < 2 ^ 31 ∧
      stored [Op.ins 5, Op.ins 3, Op.ins 5, Op.del 3] [] = [5, 5] ∧
      (run [Op.ins 5, Op.ins 3, Op.ins 5, Op.del 3] initial).map
          (fun t => (t.length, t.map (fun nd => nd.count)))
        = some (35, [2, 2, 2, 2, 2, 2, 2, 2, 2, 2, 2, 2, 2, 2, 2, 2, 2, 2, 2, 2, 2, 2, 2, 2,
          2, 2, 2, 2, 2, 2, 2, 2, 0, 0, 0]) ∧
      (run [Op.ins 5, Op.ins 3, Op.ins 5, Op.del 3] initial).bind (fun t => query t 2)
        = some 7 ∧
      ((31 * insertCount [Op.ins 5, Op.ins 3, Op.ins 5, Op.del 3] < 2 ^ 31 →
          ∃ t, run [Op.ins 5, Op.ins 3, Op.ins 5, Op.del 3] initial = some t) ∧
        ∀ t, run [Op.ins 5, Op.ins 3, Op.ins 5, Op.del 3] initial = some t →
          Typed t ∧
          (∀ n, n < t.length → ∃ k v, k ≤ 31 ∧ nodeAt t k v = some n) ∧
          (∀ (k v n : Nat) (nd : jiayou), k ≤ 31 → nodeAt t k v = some n →
            t[n]? = some nd →
            nd.count = (pathCount (stored [Op.ins 5, Op.ins 3, Op.ins 5, Op.del 3] []) k v
              : Int)) ∧
          (stored [Op.ins 5, Op.ins 3, Op.ins 5, Op.del 3] [] ≠ [] → ∀ x, x < 2 ^ 31 →
            ∃ r, query t x = some r ∧
              (∃ y, y ∈ stored [Op.ins 5, Op.ins 3, Op.ins 5, Op.del 3] [] ∧ r = x ^^^ y) ∧
              ∀ y, y ∈ stored [Op.ins 5, Op.ins 3, Op.ins 5, Op.del 3] [] → x ^^^ y ≤ r)) :=
  ⟨⟨by decide, by decide, by decide, by decide, by decide, trivial⟩, by decide, by decide,
    by decide, by decide,
    trie_counts_and_max_xor [Op.ins 5, Op.ins 3, Op.ins 5, Op.del 3]
      ⟨by decide, by decide, by decide, by decide, by decide, trivial⟩⟩

/-- C19 counterexample: `2 ^ 31` calls `insert(trie, 0)` on the single-root trie are
an admissible sequence that stores `2 ^ 31` values with the empty bit-prefix of the
root, and `2 ^ 31` is not a value of type `int`, so the count of the root cannot equal
it; the sequence does not run to completion: each call increments the count of the
root, which is `INT_MAX` after `2 ^ 31 - 1` calls, so the `count++` of the last call
overflows. -/
theorem insert_count_overflows :
    Admissible (List.replicate (2 ^ 31) (Op.ins 0)) [] ∧
      pathCount (stored (List.replicate (2 ^ 31) (Op.ins 0)) []) 0 0 = 2 ^ 31 ∧
      isInt (2 ^ 31) = false ∧
      run (List.replicate (2 ^ 31) (Op.ins 0)) initial = none := by
  refine ⟨Admissible_replicate_ins _ _, pathCount_stored_replicate_ins _ _, by decide, ?_⟩
  cases h : run (List.replicate (2 ^ 31) (Op.ins 0)) initial with
  | none => rfl
  | some t => exact absurd (run_replicate_ins_bound _ t h) (Nat.lt_irrefl _)

end Trie

namespace XorBasis

theorem Span.mono {G H : Nat → Prop} (hGH : ∀ g, G g → Span H g) {v : Nat}
    (h : Span G v) : Span H v := by
  induction h with
  | zero => exact Span.zero
  | gen hg => exact hGH _ hg
  | xor _ _ iha ihc => exact Span.xor iha ihc

theorem Span.congr_gens {G H : Nat → Prop} (hGH : ∀ g, G g ↔ H g) (v : Nat) :
    Span G v ↔ Span H v :=
  ⟨Span.mono (fun g hg => Span.gen ((hGH g).mp hg)),
    Span.mono (fun g hg => Span.gen ((hGH g).mpr hg))⟩

theorem xor_swap_cancel (a c u : Nat) : (a ^^^ u) ^^^ (c ^^^ u) = a ^^^ c := by
  rw [Nat.xor_assoc, Nat.xor_comm c u, ← Nat.xor_assoc u, Nat.xor_self, Nat.zero_xor]

theorem xor_right_swap (a c u : Nat) : (a ^^^ c) ^^^ u = (a ^^^ u) ^^^ c := by
  rw [Nat.xor_assoc, Nat.xor_comm c u, ← Nat.xor_assoc]

/-- The span of `G` with one more generator `u`. -/
theorem Span_insert (G : Nat → Prop) (u v : Nat) :
    Span (fun w => w = u ∨ G w) v ↔ Span G v ∨ Span G (v ^^^ u) := by
  constructor
  · intro h
    induction h with
    | zero => exact Or.inl Span.zero
    | gen hg =>
      rcases hg with hg | hg
      · right; rw [hg, Nat.xor_self]; exact Span.zero
      · exact Or.inl (Span.gen hg)
    | xor _ _ iha ihc =>
      rename_i a c _ _
      rcases iha with ha | ha <;> rcases ihc with hc | hc
      · exact Or.inl (Span.xor ha hc)
      · right
        rw [Nat.xor_assoc]
        exact Span.xor ha hc
      · right
        rw [xor_right_swap]
        exact Span.xor ha hc
      · left
        rw [← xor_swap_cancel a c u]
        exact Span.xor ha hc
  · intro h
    have hmono : ∀ w, Span G w → Span (fun w => w = u ∨ G w) w :=
      fun w hw => Span.mono (fun g hg => Span.gen (Or.inr hg)) hw
    rcases h with h | h
    · exact hmono v h
    · have := Span.xor (hmono _ h) (Span.gen (G := fun w => w = u ∨ G w) (Or.inl rfl))
      rwa [Nat.xor_cancel_right] at this

theorem Span_empty {G : Nat → Prop} (hG : ∀ g, ¬ G g) {v : Nat} (h : Span G v) : v = 0 := by
  induction h with
  | zero => rfl
  | gen hg => exact absurd hg (hG _)
  | xor _ _ iha ihc => rw [iha, ihc]; rfl

/-- Adding the generator 0 does not change a span. -/
theorem Span_insert_zero (G : Nat → Prop) (v : Nat) :
    Span (fun w => w = 0 ∨ G w) v ↔ Span G v := by
  rw [Span_insert, Nat.xor_zero, or_self]

theorem xor_div_of_lt (a : Nat) {u k : Nat} (hu : u < 2 ^ k) :
    (a ^^^ u) / 2 ^ k = a / 2 ^ k := by
  rw [← Nat.shiftRight_eq_div_pow, ← Nat.shiftRight_eq_div_pow]
  apply Nat.eq_of_testBit_eq
  intro j
  rw [Nat.testBit_shiftRight, Nat.testBit_shiftRight, Nat.testBit_xor,
    Nat.testBit_lt_two_pow (Nat.lt_of_lt_of_le hu
      (Nat.pow_le_pow_right (by decide) (Nat.le_add_right k j))), Bool.xor_false]

/-- Sublist sums are exactly the span of the list entries. -/
theorem sublist_xorSum_iff_span (l : List Nat) (v : Nat) :
    (∃ s, List.Sublist s l ∧ xorSum s = v) ↔ Span (fun w => w ∈ l) v := by
  induction l generalizing v with
  | nil =>
    constructor
    · intro ⟨s, hs, hv⟩
      rw [List.sublist_nil.mp hs] at hv
      rw [← hv]
      exact Span.zero
    · intro h
      have := Span_empty (fun g hg => by cases hg) h
      exact ⟨[], List.Sublist.refl _, this.symm⟩
  | cons u l ih =>
    rw [Span.congr_gens (fun _ => List.mem_cons), Span_insert,
      ← ih, ← ih]
    constructor
    · intro ⟨s, hs, hv⟩
      cases hs with
      | cons _ hs' => exact Or.inl ⟨s, hs', hv⟩
      | cons₂ _ hs' =>
        rename_i s'
        right
        refine ⟨s', hs', ?_⟩
        rw [← hv]
        show xorSum s' = (u ^^^ xorSum s') ^^^ u
        rw [Nat.xor_comm u, Nat.xor_cancel_right]
    · intro h
      rcases h with ⟨s, hs, hv⟩ | ⟨s, hs, hv⟩
      · exact ⟨s, List.Sublist.cons _ hs, hv⟩
      · refine ⟨u :: s, List.Sublist.cons₂ _ hs, ?_⟩
        show u ^^^ xorSum s = v
        rw [hv, Nat.xor_comm v u, Nat.xor_cancel_left]

theorem slotsBelow_succ (b : List (Nat × Int)) (P : Int → Bool) (k w : Nat) :
    slotsBelow b P (k + 1) w ↔ (w = sel b P k ∨ slotsBelow b P k w) := by
  unfold slotsBelow
  constructor
  · intro ⟨j, hj, hw⟩
    by_cases h : j = k
    · left; rw [hw, h]
    · right; exact ⟨j, by omega, hw⟩
  · intro h
    rcases h with h | ⟨j, hj, hw⟩
    · exact ⟨k, by omega, h⟩
    · exact ⟨j, by omega, hw⟩

theorem slotsFrom_step (b : List (Nat × Int)) (P : Int → Bool) {k : Nat} (hk : k < BIT)
    (w : Nat) : slotsFrom b P k w ↔ (w = sel b P k ∨ slotsFrom b P (k + 1) w) := by
  unfold slotsFrom
  constructor
  · intro ⟨j, hj1, hj2, hw⟩
    by_cases h : j = k
    · left; rw [hw, h]
    · right; exact ⟨j, by omega, hj2, hw⟩
  · intro h
    rcases h with h | ⟨j, hj1, hj2, hw⟩
    · exact ⟨k, Nat.le_refl _, hk, h⟩
    · exact ⟨j, by omega, hj2, hw⟩

theorem slotsFrom_zero (b : List (Nat × Int)) (P : Int → Bool) (w : Nat) :
    slotsFrom b P 0 w ↔ slotsBelow b P BIT w := by
  unfold slotsFrom slotsBelow
  constructor
  · intro ⟨j, _, hj, hw⟩; exact ⟨j, hj, hw⟩
  · intro ⟨j, hj, hw⟩; exact ⟨j, Nat.zero_le _, hj, hw⟩

theorem sel_cases (b : List (Nat × Int)) (P : Int → Bool) (i : Nat) :
    sel b P i = 0 ∨ (sel b P i = (b.getD i (0, 0)).1 ∧ (b.getD i (0, 0)).1 ≠ 0 ∧
      P (b.getD i (0, 0)).2 = true) := by
  unfold sel
  by_cases hP : P (b.getD i (0, 0)).2 = true
  · rw [if_pos hP]
    by_cases h0 : (b.getD i (0, 0)).1 = 0
    · exact Or.inl h0
    · exact Or.inr ⟨rfl, h0, hP⟩
  · rw [if_neg hP]
    exact Or.inl rfl

theorem lt_of_pow_le_lt {k i v : Nat} (h1 : 2 ^ k ≤ v) (h2 : v < 2 ^ (i + 1)) : k ≤ i := by
  by_contra hc
  have : 2 ^ (i + 1) ≤ 2 ^ k := Nat.pow_le_pow_right (by decide) (by omega)
  omega

/-- In echelon form, an element of the span of the slots below `k` is below `2 ^ k`,
and the slot of its highest set bit is in use. -/
theorem span_highest_bit {b : List (Nat × Int)} (hE : Ech b) (P : Int → Bool) :
    ∀ k, k ≤ BIT → ∀ v, Span (slotsBelow b P k) v →
      v < 2 ^ k ∧ ∀ i, v.testBit i = true → v < 2 ^ (i + 1) → sel b P i ≠ 0 := by
  intro k
  induction k with
  | zero =>
    intro _ v hv
    have : v = 0 := Span_empty (fun g hg => by
      obtain ⟨j, hj, _⟩ := hg
      omega) hv
    subst this
    exact ⟨by decide, fun i hi => by rw [Nat.zero_testBit] at hi; cases hi⟩
  | succ k ih =>
    intro hk v hv
    rw [Span.congr_gens (slotsBelow_succ b P k), Span_insert] at hv
    have hmono : ∀ w, w < 2 ^ k → w < 2 ^ (k + 1) := fun w hw =>
      Nat.lt_of_lt_of_le hw (Nat.pow_le_pow_right (by decide) (Nat.le_succ k))
    rcases hv with hv | hv
    · obtain ⟨h1, h2⟩ := ih (by omega) v hv
      exact ⟨hmono v h1, h2⟩
    · obtain ⟨h1, h2⟩ := ih (by omega) _ hv
      rcases sel_cases b P k with h0 | ⟨hs, hne, _⟩
      · rw [h0, Nat.xor_zero] at h1 h2
        exact ⟨hmono v h1, h2⟩
      · obtain ⟨hbit, hlt⟩ := hE k (by omega) hne
        have hv' : v = (v ^^^ sel b P k) ^^^ sel b P k := (Nat.xor_cancel_right _ _).symm
        have hvk : v.testBit k = true := by
          rw [hv', Nat.testBit_xor, Nat.testBit_lt_two_pow h1, hs, hbit]
          rfl
        have hvlt : v < 2 ^ (k + 1) := by
          rw [hv']
          exact Nat.xor_lt_two_pow (hmono _ h1) (by rw [hs]; exact hlt)
        refine ⟨hvlt, ?_⟩
        intro i hi hvi
        have h3 : k ≤ i := lt_of_pow_le_lt (Nat.testBit_implies_ge hvk) hvi
        have h4 : i ≤ k := lt_of_pow_le_lt (Nat.testBit_implies_ge hi) hvlt
        have : i = k := by omega
        rw [this, hs]
        exact hne

theorem div_lt_of_div_succ_lt {a c i : Nat} (h : a / 2 ^ (i + 1) < c / 2 ^ (i + 1)) :
    a / 2 ^ i < c / 2 ^ i := by
  rw [Nat.pow_succ, ← Nat.div_div_eq_div_mul, ← Nat.div_div_eq_div_mul] at h
  omega

/-- One slot of the greedy choice of `find_max`. -/
theorem greedy_step {u i res res' v w : Nat} (hu : u.testBit i = true)
    (hult : u < 2 ^ (i + 1)) (hres' : res' = res ∨ res' = res ^^^ u)
    (hbit : res'.testBit i = true) (hw : w = v ∨ w = v ^^^ u)
    (h : w / 2 ^ (i + 1) < res / 2 ^ (i + 1) ∨ w = res) :
    v / 2 ^ i < res' / 2 ^ i ∨ v = res' := by
  have e1 : v / 2 ^ (i + 1) = w / 2 ^ (i + 1) := by
    rcases hw with hw | hw
    · rw [hw]
    · rw [hw, xor_div_of_lt v hult]
  have e2 : res' / 2 ^ (i + 1) = res / 2 ^ (i + 1) := by
    rcases hres' with hr | hr
    · rw [hr]
    · rw [hr, xor_div_of_lt res hult]
  rcases h with h | h
  · left
    apply div_lt_of_div_succ_lt
    rw [e1, e2]
    exact h
  · by_cases hv : v = res'
    · exact Or.inr hv
    · left
      have hvu : v = res' ^^^ u := by
        rcases hw with hw | hw <;> rcases hres' with hr | hr
        · exact absurd (by rw [← hw, h, hr]) hv
        · rw [← hw, h, hr, Nat.xor_cancel_right]
        · rw [hr, ← h, hw, Nat.xor_cancel_right]
        · refine absurd ?_ hv
          rw [hr, ← h, hw, Nat.xor_cancel_right]
      have hvbit : v.testBit i = false := by
        rw [hvu, Nat.testBit_xor, hbit, hu]
        rfl
      have d1 := Trie.div_pow_step v i
      have d2 := Trie.div_pow_step res' i
      rw [hvbit] at d1
      rw [hbit] at d2
      rw [e1, h] at d1
      rw [e2] at d2
      simp only [Bool.false_eq_true, if_false, if_true] at d1 d2
      omega

/-- The loop of `find_max` ends with the largest element of the span of the used
slots. -/
theorem findMaxLoop_spec {b : List (Nat × Int)} (hE : Ech b) (id : Int) :
    ∀ i, i ≤ BIT → ∀ res,
      Span (slotsFrom b (fun j => decide (id ≤ j)) i) res →
      (∀ v, Span (slotsFrom b (fun j => decide (id ≤ j)) i) v →
        v / 2 ^ i < res / 2 ^ i ∨ v = res) →
      Span (slotsFrom b (fun j => decide (id ≤ j)) 0) (findMaxLoop b id i res) ∧
        ∀ v, Span (slotsFrom b (fun j => decide (id ≤ j)) 0) v →
          v ≤ findMaxLoop b id i res := by
  intro i
  induction i with
  | zero =>
    intro _ res hres hmax
    refine ⟨hres, fun v hv => ?_⟩
    rcases hmax v hv with h | h
    · simp only [Nat.pow_zero, Nat.div_one] at h
      exact Nat.le_of_lt h
    · rw [h]; exact Nat.le_refl _
  | succ i ih =>
    intro hi res hres hmax
    have hi' : i < BIT := by omega
    have hstep := slotsFrom_step b (fun j => decide (id ≤ j)) hi'
    have hup : ∀ w, Span (slotsFrom b (fun j => decide (id ≤ j)) (i + 1)) w →
        Span (slotsFrom b (fun j => decide (id ≤ j)) i) w :=
      fun w hw => Span.mono (fun g hg => Span.gen ((hstep g).mpr (Or.inr hg))) hw
    -- a skipped slot
    have hskip : sel b (fun j => decide (id ≤ j)) i = 0 →
        Span (slotsFrom b (fun j => decide (id ≤ j)) 0) (findMaxLoop b id i res) ∧
          ∀ v, Span (slotsFrom b (fun j => decide (id ≤ j)) 0) v →
            v ≤ findMaxLoop b id i res := by
      intro h0
      apply ih (by omega) res (hup res hres)
      intro v hv
      rw [Span.congr_gens hstep, h0, Span_insert_zero] at hv
      rcases hmax v hv with h | h
      · exact Or.inl (div_lt_of_div_succ_lt h)
      · exact Or.inr h
    rw [findMaxLoop]
    by_cases h0 : (b.getD i (0, 0)).1 = 0
    · rw [if_pos h0]
      apply hskip
      unfold sel
      rw [h0]
      simp
    · rw [if_neg h0]
      by_cases hid : (b.getD i (0, 0)).2 < id
      · rw [if_pos hid]
        apply hskip
        unfold sel
        rw [if_neg (by rw [decide_eq_true_eq]; omega)]
      · rw [if_neg hid]
        have hsel : sel b (fun j => decide (id ≤ j)) i = (b.getD i (0, 0)).1 := by
          unfold sel
          rw [if_pos (by rw [decide_eq_true_eq]; omega)]
        obtain ⟨hu, hult⟩ := hE i hi' h0
        have hgen : Span (slotsFrom b (fun j => decide (id ≤ j)) i) (b.getD i (0, 0)).1 :=
          Span.gen ((hstep _).mpr (Or.inl hsel.symm))
        have key : ∀ res', (res' = res ∨ res' = res ^^^ (b.getD i (0, 0)).1) →
            res'.testBit i = true →
            Span (slotsFrom b (fun j => decide (id ≤ j)) 0) (findMaxLoop b id i res') ∧
              ∀ v, Span (slotsFrom b (fun j => decide (id ≤ j)) 0) v →
                v ≤ findMaxLoop b id i res' := by
          intro res' hres' hbit
          apply ih (by omega) res'
          · rcases hres' with hr | hr
            · rw [hr]; exact hup res hres
            · rw [hr]; exact Span.xor (hup res hres) hgen
          · intro v hv
            rw [Span.congr_gens hstep, hsel, Span_insert] at hv
            rcases hv with hv | hv
            · exact greedy_step hu hult hres' hbit (Or.inl rfl) (hmax v hv)
            · exact greedy_step hu hult hres' hbit (Or.inr rfl) (hmax _ hv)
        by_cases hb : res.testBit i = false
        · rw [if_pos hb]
          apply key _ (Or.inr rfl)
          rw [Nat.testBit_xor, hb, hu]
          rfl
        · rw [if_neg hb]
          apply key _ (Or.inl rfl)
          simpa using hb

/-- The value of `find_max(id)` on an array in echelon form is the largest element of
the span of the slots with a time stamp `≥ id`. -/
theorem find_max_spec {b : List (Nat × Int)} (hE : Ech b) (id : Int) :
    Span (slotsBelow b (fun j => decide (id ≤ j)) BIT) (find_max b id) ∧
      ∀ v, Span (slotsBelow b (fun j => decide (id ≤ j)) BIT) v → v ≤ find_max b id := by
  have h := findMaxLoop_spec hE id BIT (Nat.le_refl _) 0 Span.zero
    (fun v hv => by
      right
      exact Span_empty (fun g hg => by
        obtain ⟨j, h1, h2, _⟩ := hg
        omega) hv)
  have hc := Span.congr_gens (slotsFrom_zero b (fun j => decide (id ≤ j)))
  exact ⟨(hc _).mp h.1, fun v hv => h.2 v ((hc v).mpr hv)⟩

theorem getD_set_pair (b : List (Nat × Int)) (i j : Nat) (z : Nat × Int) :
    (b.set i z).getD j (0, 0) = if i = j ∧ i < b.length then z else b.getD j (0, 0) := by
  simp only [List.getD_eq_getElem?_getD, List.getElem?_set]
  by_cases h : i = j
  · subst h
    by_cases h2 : i < b.length
    · simp [h2]
    · simp [h2, List.getElem?_eq_none (Nat.le_of_not_lt h2)]
  · simp [h]

theorem sel_set_same (b : List (Nat × Int)) (P : Int → Bool) {i : Nat} (hi : i < b.length)
    (x : Nat) (id : Int) : sel (b.set i (x, id)) P i = if P id then x else 0 := by
  unfold sel
  rw [getD_set_pair]
  simp [hi]

theorem sel_set_other (b : List (Nat × Int)) (P : Int → Bool) {i j : Nat} (hij : j ≠ i)
    (z : Nat × Int) : sel (b.set i z) P j = sel b P j := by
  unfold sel
  rw [getD_set_pair]
  simp [Ne.symm hij]

theorem Span.of_gens {G H : Nat → Prop} (h1 : ∀ g, G g → Span H g)
    (h2 : ∀ g, H g → Span G g) (v : Nat) : Span G v ↔ Span H v :=
  ⟨Span.mono h1, Span.mono h2⟩

theorem lt_pow_of_bit_clear {x i : Nat} (hx : x < 2 ^ (i + 1)) (hb : x.testBit i = false) :
    x < 2 ^ i := by
  apply Nat.lt_pow_two_of_testBit
  intro j hj
  by_cases h : j = i
  · rw [h]; exact hb
  · exact Nat.testBit_lt_two_pow (Nat.lt_of_lt_of_le hx
      (Nat.pow_le_pow_right (by decide) (by omega)))

theorem xor_lt_pow_of_bits {x u i : Nat} (hx : x < 2 ^ (i + 1)) (hu : u < 2 ^ (i + 1))
    (hxb : x.testBit i = true) (hub : u.testBit i = true) : x ^^^ u < 2 ^ i := by
  apply lt_pow_of_bit_clear (Nat.xor_lt_two_pow hx hu)
  rw [Nat.testBit_xor, hxb, hub]
  rfl

theorem Ech_set {b : List (Nat × Int)} (hE : Ech b) {i x : Nat} (id : Int)
    (hxb : x.testBit i = true) (hx : x < 2 ^ (i + 1)) : Ech (b.set i (x, id)) := by
  intro j hj hne
  rw [getD_set_pair] at hne ⊢
  by_cases h : i = j ∧ i < b.length
  · rw [if_pos h]
    rw [← h.1]
    exact ⟨hxb, hx⟩
  · rw [if_neg h] at hne ⊢
    exact hE j hj hne

theorem Span_ite {G : Nat → Prop} (c : Prop) [Decidable c] {a : Nat}
    (h : c → Span G a) : Span G (if c then a else 0) := by
  by_cases hc : c
  · rw [if_pos hc]; exact h hc
  · rw [if_neg hc]; exact Span.zero

/-- The loop of `add` keeps the array in echelon form and moves the span of the
carried vector into the slots. -/
theorem addLoop_good (T : (Int → Bool) → Nat → Prop) :
    ∀ i, i ≤ BIT → ∀ (b : List (Nat × Int)) (x : Nat) (id : Int),
      b.length = BIT → Ech b → x < 2 ^ i →
      (∀ P, UpClosed P → ∀ v,
        Span (fun w => w = (if P id then x else 0) ∨ slotsBelow b P BIT w) v ↔ T P v) →
      (addLoop i b x id).2.length = BIT ∧ Ech (addLoop i b x id).2 ∧
        ∀ P, UpClosed P → ∀ v, Span (slotsBelow (addLoop i b x id).2 P BIT) v ↔ T P v := by
  intro i
  induction i with
  | zero =>
    intro _ b x id hlen hE hx hT
    have hx0 : x = 0 := by simpa using hx
    refine ⟨hlen, hE, fun P hP v => ?_⟩
    rw [← hT P hP v, hx0]
    simp only [ite_self]
    exact (Span_insert_zero _ v).symm
  | succ i ih =>
    intro hi b x id hlen hE hx hT
    have hi' : i < BIT := by omega
    have hib : i < b.length := by omega
    rw [addLoop]
    by_cases hxb : x.testBit i = false
    · rw [if_pos hxb]
      exact ih (by omega) b x id hlen hE (lt_pow_of_bit_clear hx hxb) hT
    · rw [if_neg hxb]
      have hxb' : x.testBit i = true := by simpa using hxb
      by_cases h0 : (b.getD i (0, 0)).1 = 0
      · rw [if_pos h0]
        refine ⟨by rw [List.length_set]; exact hlen, Ech_set hE id hxb' hx, fun P hP v => ?_⟩
        rw [← hT P hP v]
        apply Span.of_gens
        · intro g ⟨j, hj, hg⟩
          by_cases hji : j = i
          · rw [hg, hji, sel_set_same b P hib]
            exact Span.gen (Or.inl rfl)
          · rw [hg, sel_set_other b P hji]
            exact Span.gen (Or.inr ⟨j, hj, rfl⟩)
        · intro g hg
          rcases hg with hg | ⟨j, hj, hg⟩
          · rw [hg, ← sel_set_same b P hib x id]
            exact Span.gen ⟨i, hi', rfl⟩
          · by_cases hji : j = i
            · have : g = 0 := by
                rw [hg, hji]
                unfold sel
                rw [h0]
                simp
              rw [this]
              exact Span.zero
            · rw [hg, ← sel_set_other b P hji (x, id)]
              exact Span.gen ⟨j, hj, rfl⟩
      · rw [if_neg h0]
        obtain ⟨hub, hult⟩ := hE i hi' h0
        by_cases hid : (b.getD i (0, 0)).2 < id
        · rw [if_pos hid]
          apply ih (by omega) _ _ _ (by rw [List.length_set]; exact hlen)
            (Ech_set hE id hxb' hx) (xor_lt_pow_of_bits hult hx hub hxb')
          intro P hP v
          rw [← hT P hP v]
          have hup : P (b.getD i (0, 0)).2 = true → P id = true :=
            hP _ _ (by omega)
          have hselb : sel b P i =
              if P (b.getD i (0, 0)).2 then (b.getD i (0, 0)).1 else 0 := rfl
          apply Span.of_gens
          · intro g hg
            rcases hg with hg | ⟨j, hj, hg⟩
            · rw [hg]
              apply Span_ite
              intro hPu
              apply Span.xor
              · exact Span.gen (Or.inr ⟨i, hi', by rw [hselb, if_pos hPu]⟩)
              · exact Span.gen (Or.inl (if_pos (hup hPu)).symm)
            · by_cases hji : j = i
              · rw [hg, hji, sel_set_same b P hib]
                exact Span.gen (Or.inl rfl)
              · rw [hg, sel_set_other b P hji]
                exact Span.gen (Or.inr ⟨j, hj, rfl⟩)
          · intro g hg
            rcases hg with hg | ⟨j, hj, hg⟩
            · rw [hg, ← sel_set_same b P hib x id]
              exact Span.gen (Or.inr ⟨i, hi', rfl⟩)
            · by_cases hji : j = i
              · rw [hg, hji, hselb]
                apply Span_ite
                intro hPu
                have h1 : Span (fun w => w = (if P (b.getD i (0, 0)).2 = true then
                    (b.getD i (0, 0)).1 ^^^ x else 0) ∨
                    slotsBelow (b.set i (x, id)) P BIT w) ((b.getD i (0, 0)).1 ^^^ x) :=
                  Span.gen (Or.inl (if_pos hPu).symm)
                have h2 : Span (fun w => w = (if P (b.getD i (0, 0)).2 = true then
                    (b.getD i (0, 0)).1 ^^^ x else 0) ∨
                    slotsBelow (b.set i (x, id)) P BIT w) x :=
                  Span.gen (Or.inr ⟨i, hi', by
                    rw [sel_set_same b P hib, if_pos (hup hPu)]⟩)
                have := Span.xor h1 h2
                rwa [Nat.xor_cancel_right] at this
              · rw [hg, ← sel_set_other b P hji (x, id)]
                exact Span.gen (Or.inr ⟨j, hj, rfl⟩)
        · rw [if_neg hid]
          apply ih (by omega) _ _ _ hlen hE (xor_lt_pow_of_bits hx hult hxb' hub)
          intro P hP v
          rw [← hT P hP v]
          have hup : P id = true → P (b.getD i (0, 0)).2 = true :=
            hP _ _ (by omega)
          have hu : P id = true → Span (fun w => w = (if P id then x else 0) ∨
              slotsBelow b P BIT w) (b.getD i (0, 0)).1 := fun hPid =>
            Span.gen (Or.inr ⟨i, hi', by unfold sel; rw [if_pos (hup hPid)]⟩)
          have hu' : P id = true → Span (fun w => w = (if P id then
              x ^^^ (b.getD i (0, 0)).1 else 0) ∨
              slotsBelow b P BIT w) (b.getD i (0, 0)).1 := fun hPid =>
            Span.gen (Or.inr ⟨i, hi', by unfold sel; rw [if_pos (hup hPid)]⟩)
          apply Span.of_gens
          · intro g hg
            rcases hg with hg | hg
            · rw [hg]
              apply Span_ite
              intro hPid
              exact Span.xor (Span.gen (Or.inl (if_pos hPid).symm)) (hu hPid)
            · exact Span.gen (Or.inr hg)
          · intro g hg
            rcases hg with hg | hg
            · rw [hg]
              apply Span_ite
              intro hPid
              have := Span.xor (Span.gen (G := fun w => w = (if P id then
                x ^^^ (b.getD i (0, 0)).1 else 0) ∨ slotsBelow b P BIT w)
                (Or.inl (if_pos hPid).symm)) (hu' hPid)
              rwa [Nat.xor_cancel_right] at this
            · exact Span.gen (Or.inr hg)

theorem sel_all (b : List (Nat × Int)) (i : Nat) :
    sel b (fun _ => true) i = (b.getD i (0, 0)).1 := rfl

/-- The loop of `add` reports a new vector exactly when the added vector is outside
the span of the slots of the array `b0` the call started from. -/
theorem addLoop_flag {b0 : List (Nat × Int)} (hE0 : Ech b0) (x0 : Nat) :
    ∀ i, i ≤ BIT → ∀ (b : List (Nat × Int)) (x : Nat) (id : Int),
      (∀ j, j < i → b.getD j (0, 0) = b0.getD j (0, 0)) → x < 2 ^ i →
      Span (slotsBelow b0 (fun _ => true) BIT) (x ^^^ x0) →
      ((addLoop i b x id).1 = true ↔ ¬ Span (slotsBelow b0 (fun _ => true) BIT) x0) := by
  intro i
  induction i with
  | zero =>
    intro _ b x id _ hx hsp
    have hx0 : x = 0 := by simpa using hx
    rw [hx0, Nat.zero_xor] at hsp
    simp [addLoop, hsp]
  | succ i ih =>
    intro hi b x id hb hx hsp
    have hi' : i < BIT := by omega
    rw [addLoop]
    by_cases hxb : x.testBit i = false
    · rw [if_pos hxb]
      exact ih (by omega) b x id (fun j hj => hb j (by omega))
        (lt_pow_of_bit_clear hx hxb) hsp
    · rw [if_neg hxb]
      have hxb' : x.testBit i = true := by simpa using hxb
      have hbi := hb i (Nat.lt_succ_self i)
      by_cases h0 : (b.getD i (0, 0)).1 = 0
      · rw [if_pos h0]
        simp only [true_iff]
        intro hx0
        have hxs : Span (slotsBelow b0 (fun _ => true) BIT) x := by
          have := Span.xor hsp hx0
          rwa [Nat.xor_cancel_right] at this
        have := (span_highest_bit hE0 (fun _ => true) BIT (Nat.le_refl _) x hxs).2 i hxb' hx
        rw [sel_all, ← hbi] at this
        exact this h0
      · rw [if_neg h0]
        have hu : Span (slotsBelow b0 (fun _ => true) BIT) (b.getD i (0, 0)).1 :=
          Span.gen ⟨i, hi', by rw [sel_all, hbi]⟩
        obtain ⟨hub, hult⟩ := hE0 i hi' (by rw [← hbi]; exact h0)
        rw [← hbi] at hub hult
        by_cases hid : (b.getD i (0, 0)).2 < id
        · rw [if_pos hid]
          apply ih (by omega) _ _ _ _ (xor_lt_pow_of_bits hult hx hub hxb')
          · rw [Nat.xor_assoc]
            exact Span.xor hu hsp
          · intro j hj
            rw [getD_set_pair, if_neg (by omega)]
            exact hb j (by omega)
        · rw [if_neg hid]
          apply ih (by omega) _ _ _ (fun j hj => hb j (by omega))
            (xor_lt_pow_of_bits hx hult hxb' hub)
          rw [xor_right_swap]
          exact Span.xor hsp hu

theorem upClosed_true : UpClosed (fun _ => true) := fun _ _ _ h => h

theorem upClosed_ge (id : Int) : UpClosed (fun j => decide (id ≤ j)) := by
  intro a c hac ha
  rw [decide_eq_true_eq] at ha ⊢
  omega

theorem selected_append (l : List (Nat × Int)) (x : Nat) (id : Int) (P : Int → Bool)
    (w : Nat) :
    w ∈ selected (l ++ [(x, id)]) P ↔ (P id = true ∧ w = x) ∨ w ∈ selected l P := by
  unfold selected
  rw [List.filter_append, List.map_append, List.mem_append]
  by_cases hP : P id = true
  · simp [List.filter, hP, or_comm]
  · simp [List.filter, hP]

/-- The fresh array represents the empty list of additions. -/
theorem Good_fresh : Good fresh [] := by
  have hget : ∀ i, fresh.getD i (0, 0) = (0, 0) := by
    intro i
    unfold fresh
    rw [List.getD_eq_getElem?_getD]
    by_cases h : i < BIT
    · simp [h]
    · simp [h]
  refine ⟨by simp [fresh], ?_, ?_⟩
  · intro i _ hne
    rw [hget] at hne
    exact absurd rfl hne
  · intro P _ v
    apply Span.of_gens
    · intro g ⟨j, _, hg⟩
      have : g = 0 := by
        rw [hg]
        unfold sel
        rw [hget]
        simp
      rw [this]
      exact Span.zero
    · intro g hg
      cases hg

/-- One call of `add` keeps the representation. -/
theorem Good_add {b : List (Nat × Int)} {l : List (Nat × Int)} (h : Good b l)
    {x : Nat} (hx : x < 2 ^ BIT) (id : Int) : Good (add b x id).2 (l ++ [(x, id)]) := by
  obtain ⟨hlen, hE, hsp⟩ := h
  apply addLoop_good (fun P v => Span (fun w => w ∈ selected (l ++ [(x, id)]) P) v)
    BIT (Nat.le_refl _) b x id hlen hE hx
  intro P hP v
  rw [Span_insert, hsp P hP, hsp P hP, ← Span_insert]
  apply Span.of_gens
  · intro g hg
    rcases hg with hg | hg
    · rw [hg]
      apply Span_ite
      intro hPid
      exact Span.gen ((selected_append l x id P x).mpr (Or.inl ⟨hPid, rfl⟩))
    · exact Span.gen ((selected_append l x id P g).mpr (Or.inr hg))
  · intro g hg
    rcases (selected_append l x id P g).mp hg with ⟨hPid, hg⟩ | hg
    · exact Span.gen (Or.inl (by rw [hg, if_pos hPid]))
    · exact Span.gen (Or.inr hg)

theorem Good_foldl : ∀ (l acc : List (Nat × Int)) (b : List (Nat × Int)),
    Good b acc → (∀ p, p ∈ l → p.1 < 2 ^ BIT) →
    Good (l.foldl (fun b p => (add b p.1 p.2).2) b) (acc ++ l) := by
  intro l
  induction l with
  | nil => intro acc b h _; rw [List.append_nil]; exact h
  | cons p l ih =>
    intro acc b h hl
    rw [List.foldl_cons, show acc ++ p :: l = (acc ++ [p]) ++ l by simp]
    exact ih _ _ (Good_add h (hl p (List.mem_cons_self _ _)) p.2)
      (fun q hq => hl q (List.mem_cons_of_mem _ hq))

theorem Good_basisAfter {l : List (Nat × Int)} (hl : ∀ p, p ∈ l → p.1 < 2 ^ BIT) :
    Good (basisAfter l) l := by
  have := Good_foldl l [] fresh Good_fresh hl
  rwa [List.nil_append] at this

theorem selected_true (l : List (Nat × Int)) :
    selected l (fun _ => true) = l.map (fun p => p.1) := by
  unfold selected
  rw [List.filter_eq_self.mpr (fun _ _ => rfl)]

/-- C20 (XOR basis with time stamps): after the calls `add(x_k, id_k)` for 21-bit
vectors on a fresh `xor_basis`, in any order of the time stamps and so in particular
for non-decreasing ones, every non-zero slot `b[i]` has bit `i` as its highest set
bit; a further `add(x, id)` returns true iff `x` is not the XOR of a sublist of the
vectors added before; and `find_max(id)` is the XOR of a sublist of the added vectors
with time stamp `≥ id` and is at least the XOR of every such sublist. -/
theorem xor_basis_time_spans (l : List (Nat × Int)) (hl : ∀ p, p ∈ l → p.1 < 2 ^ 21) :
    (∀ i, i < 21 → ((basisAfter l).getD i (0, 0)).1 ≠ 0 →
      ((basisAfter l).getD i (0, 0)).1.testBit i = true ∧
        ((basisAfter l).getD i (0, 0)).1 < 2 ^ (i + 1)) ∧
    (∀ x id, x < 2 ^ 21 →
      ((add (basisAfter l) x id).1 = true ↔
        ¬ ∃ s, List.Sublist s (l.map (fun p => p.1)) ∧ xorSum s = x)) ∧
    (∀ id : Int,
      (∃ s, List.Sublist s (selected l (fun j => decide (id ≤ j))) ∧
        xorSum s = find_max (basisAfter l) id) ∧
      ∀ s, List.Sublist s (selected l (fun j => decide (id ≤ j))) →
        xorSum s ≤ find_max (basisAfter l) id) := by
  obtain ⟨hlen, hE, hsp⟩ := Good_basisAfter hl
  refine ⟨hE, ?_, ?_⟩
  · intro x id hx
    have hflag := addLoop_flag hE x BIT (Nat.le_refl _) (basisAfter l) x id
      (fun _ _ => rfl) hx (by rw [Nat.xor_self]; exact Span.zero)
    unfold add
    rw [hflag, hsp _ upClosed_true, selected_true, sublist_xorSum_iff_span]
  · intro id
    obtain ⟨h1, h2⟩ := find_max_spec hE id
    rw [hsp _ (upClosed_ge id), ← sublist_xorSum_iff_span] at h1
    refine ⟨h1, fun s hs => ?_⟩
    apply h2
    rw [hsp _ (upClosed_ge id), ← sublist_xorSum_iff_span]
    exact ⟨s, hs, rfl⟩

theorem xor_basis_time_spans_witness :
    (∀ p, p ∈ [((5 : Nat), (1 : Int)), (3, 2), (6, 3)] → p.1 < 2 ^ 21) ∧
      find_max (basisAfter [(5, 1), (3, 2), (6, 3)]) 2 = 6 ∧
      find_max (basisAfter [(5, 1), (3, 2), (6, 3)]) 1 = 6 ∧
      (add (basisAfter [(5, 1), (3, 2)]) 6 3).1 = false ∧
      (add (basisAfter [(5, 1), (3, 2)]) 7 3).1 = true ∧
      ∀ id : Int,
        (∃ s, List.Sublist s (selected [(5, 1), (3, 2), (6, 3)] (fun j => decide (id ≤ j))) ∧
          xorSum s = find_max (basisAfter [(5, 1), (3, 2), (6, 3)]) id) ∧
        ∀ s, List.Sublist s (selected [(5, 1), (3, 2), (6, 3)] (fun j => decide (id ≤ j))) →
          xorSum s ≤ find_max (basisAfter [(5, 1), (3, 2), (6, 3)]) id :=
  ⟨by decide, by decide, by decide, by decide, by decide,
    (xor_basis_time_spans [(5, 1), (3, 2), (6, 3)] (by decide)).2.2⟩

end XorBasis
